import Mathlib

/-!
# Shamir secret sharing (Go implementation, `shamir.go`)

A shallow embedding of the Go program and the properties of its specification.

Modelling conventions.

* A Go `string` is a sequence of bytes: `GoString := List Byte`, `Byte := Fin 256`.
* `*big.Int` is `Int`; a Go `int` is an `Int` (64 bit: `minInt ≤ v ≤ maxInt`).
* A Go function that can panic returns `Except String _`; `.error msg` is the panic
  (with its message), `.ok v` is normal return.  A loop whose termination is not
  structural runs on fuel and reports `.error "out of fuel"` when it is exhausted.
* A `map[int]big.Int` is an association list with pairwise distinct keys, in the order
  in which `range` visits it.
* Goroutines and channels only reorder independent pure computations whose results
  are stored by index; the embedding computes the same results sequentially.
* Messages printed by `fmt.Println` are not part of the model.
-/

namespace Shamir

deriving instance DecidableEq for Except

/-! ## Basic types -/

/-- One byte of a Go string. -/
abbrev Byte := Fin 256

/-- Go strings are byte sequences. -/
abbrev GoString := List Byte

/-- Bytes (UTF-8) of a string literal of the source. -/
def bytesOf (s : String) : GoString := s.toUTF8.data.toList.map (fun b => b.val)

/-- Smallest value of a Go `int` (64 bit). -/
def minInt : Int := -(2 ^ 63)

/-- Largest value of a Go `int` (64 bit). -/
def maxInt : Int := 2 ^ 63 - 1

/-! ## Library functions used by the program -/

/-- The byte is one of `'0'..'9'`. -/
def isDigit (b : Byte) : Bool := decide (48 ≤ b.val) && decide (b.val ≤ 57)

/-- Value of a sequence of decimal digits, most significant first. -/
def digitsValue (ds : GoString) : Nat := ds.foldl (fun acc b => acc * 10 + (b.val - 48)) 0

/-- A non-empty sequence of decimal digits, as a number. -/
def parseDigits (ds : GoString) : Option Nat :=
  if ds ≠ [] ∧ ds.all isDigit = true then some (digitsValue ds) else none

/-- Signed decimal literal `[+-]?[0-9]+`, the syntax accepted both by
`big.Int.SetString(s, 10)` and by `strconv.Atoi`. -/
def parseSigned (s : GoString) : Option Int :=
  match s with
  | [] => none
  | b :: rest =>
    if b = 45 then (parseDigits rest).map (fun v => -(v : Int))
    else if b = 43 then (parseDigits rest).map (fun v => (v : Int))
    else (parseDigits (b :: rest)).map (fun v => (v : Int))

/-- Model of `new(big.Int).SetString(s, 10)`: `none` is `success == false`. -/
def setString (s : GoString) : Option Int := parseSigned s

/-- Model of `strconv.Atoi`: `none` is a non-nil `err` (bad syntax or out of the
range of a 64-bit `int`). -/
def atoi (s : GoString) : Option Int :=
  match parseSigned s with
  | none => none
  | some v => if minInt ≤ v ∧ v ≤ maxInt then some v else none

/-- Model of `strings.Split(s, sep)` for a one-byte separator: the pieces of `s`
between the occurrences of `sep` (always at least one piece). -/
def stringsSplit (s : GoString) (sep : Byte) : List GoString :=
  match s with
  | [] => [[]]
  | b :: rest =>
    if b = sep then [] :: stringsSplit rest sep
    else
      match stringsSplit rest sep with
      | [] => [[b]]
      | piece :: pieces => (b :: piece) :: pieces

/-- Model of `z.ModInverse(g, n)` for `n ≠ 0` when the receiver is `g` itself
(`d.ModInverse(d, modulus)`): the inverse of `g` in `ℤ/nℤ`, in `[0, |n|)`, when `g` and
`n` are coprime; otherwise the receiver is left unchanged. -/
def modInverse (g n : Int) : Int :=
  let n1 : Int := (n.natAbs : Int)
  let g1 : Int := if g < 0 then g % n1 else g
  if Nat.gcd g1.natAbs n.natAbs = 1 then (Nat.gcdA g1.natAbs n.natAbs) % n1 else g

/-- The 64 characters of `base64.StdEncoding`. -/
def b64Char (v : Nat) : Byte :=
  if v < 26 then Fin.ofNat (65 + v)
  else if v < 52 then Fin.ofNat (71 + v)
  else if v < 62 then Fin.ofNat (v - 4)
  else if v = 62 then 43
  else 47

/-- Value of a character of the `base64.StdEncoding` alphabet. -/
def b64Value (c : Byte) : Option Nat :=
  if 65 ≤ c.val ∧ c.val ≤ 90 then some (c.val - 65)
  else if 97 ≤ c.val ∧ c.val ≤ 122 then some (c.val - 71)
  else if 48 ≤ c.val ∧ c.val ≤ 57 then some (c.val + 4)
  else if c.val = 43 then some 62
  else if c.val = 47 then some 63
  else none

/-- Model of `base64.StdEncoding.EncodeToString`. -/
def base64Encode : List Byte → List Byte
  | [] => []
  | [a] => [b64Char (a.val / 4), b64Char (a.val % 4 * 16), 61, 61]
  | [a, b] =>
    [b64Char (a.val / 4), b64Char (a.val % 4 * 16 + b.val / 16), b64Char (b.val % 16 * 4), 61]
  | a :: b :: c :: rest =>
    b64Char (a.val / 4) :: b64Char (a.val % 4 * 16 + b.val / 16) ::
      b64Char (b.val % 16 * 4 + c.val / 64) :: b64Char (c.val % 64) :: base64Encode rest

/-- Decoding of the quanta of a base64 text from which line breaks were removed. -/
def base64DecodeQuanta : List Byte → Option (List Byte)
  | [] => some []
  | [c0, c1, c2, c3] =>
    match b64Value c0, b64Value c1 with
    | some v0, some v1 =>
      if c2 = 61 then
        if c3 = 61 then some [Fin.ofNat (v0 * 4 + v1 / 16)] else none
      else
        match b64Value c2 with
        | none => none
        | some v2 =>
          if c3 = 61 then some [Fin.ofNat (v0 * 4 + v1 / 16), Fin.ofNat (v1 % 16 * 16 + v2 / 4)]
          else
            match b64Value c3 with
            | none => none
            | some v3 =>
              some [Fin.ofNat (v0 * 4 + v1 / 16), Fin.ofNat (v1 % 16 * 16 + v2 / 4),
                Fin.ofNat (v2 % 4 * 64 + v3)]
    | _, _ => none
  | c0 :: c1 :: c2 :: c3 :: rest =>
    match b64Value c0, b64Value c1, b64Value c2, b64Value c3, base64DecodeQuanta rest with
    | some v0, some v1, some v2, some v3, some tail =>
      some (Fin.ofNat (v0 * 4 + v1 / 16) :: Fin.ofNat (v1 % 16 * 16 + v2 / 4) ::
        Fin.ofNat (v2 % 4 * 64 + v3) :: tail)
    | _, _, _, _, _ => none
  | _ => none

/-- Model of `base64.StdEncoding.DecodeString`: carriage returns and line feeds are
ignored, the rest is decoded quantum by quantum; `none` is a non-nil `err`. -/
def base64Decode (s : List Byte) : Option (List Byte) :=
  base64DecodeQuanta (s.filter (fun c => decide (c ≠ 10 ∧ c ≠ 13)))

/-- The big-endian bytes of `v` prepended to `acc`, no leading zero byte. -/
def natBytesAux : Nat → Nat → List Byte → List Byte
  | 0, _, acc => acc
  | fuel + 1, v, acc =>
    if v = 0 then acc else natBytesAux fuel (v / 256) (Fin.ofNat (v % 256) :: acc)

/-- The big-endian bytes of a natural number (the loop has at most `v` rounds). -/
def natBytes (v : Nat) : List Byte := natBytesAux v v []

/-- Model of `i.Bytes()`: the absolute value of `i` as a big-endian byte sequence
without leading zero bytes (empty for 0). -/
def bigIntBytes (i : Int) : List Byte := natBytes i.natAbs

/-- Model of `new(big.Int).SetBytes(b)`: `b` read as a big-endian unsigned integer. -/
def setBytes (b : List Byte) : Int := ((b.foldl (fun acc x => acc * 256 + x.val) 0 : Nat) : Int)

/-- Go slice expression `s[i:j]`; out-of-range bounds panic. -/
def sliceStr (s : GoString) (i j : Int) : Except String GoString :=
  if 0 ≤ i ∧ i ≤ j ∧ j ≤ (s.length : Int) then .ok ((s.drop i.toNat).take (j - i).toNat)
  else .error "slice bounds out of range"

/-- Go index expression `a[i]`; an out-of-range index panics. -/
def indexAt {α : Type} (a : List α) (i : Int) : Except String α :=
  if 0 ≤ i then
    match a.get? i.toNat with
    | some v => .ok v
    | none => .error "index out of range"
  else .error "index out of range"

/-- Assignment `m[k] = v` on a map: an existing entry for `k` is replaced. -/
def mapInsert (m : List (Int × Int)) (k v : Int) : List (Int × Int) :=
  match m with
  | [] => [(k, v)]
  | (k0, v0) :: rest => if k0 = k then (k, v) :: rest else (k0, v0) :: mapInsert rest k v

/-! ## The program -/

/-- Source: `const PRIME`, the decimal text of 2^127 - 1. -/
def PRIME : GoString := bytesOf "170141183460469231731687303715884105727"

/-- Source: `const CHUNK_SIZE`. -/
def CHUNK_SIZE : Int := 15

/-- Source: `type polynomial`; `coefficients[i]` is the coefficient of `x^i`. -/
structure polynomial where
  coefficients : List Int
deriving DecidableEq, Repr

/-- The retry loop of `generateRandomPolynomial`: draws until a non-zero one. -/
def finalTerm : List Int → Except String Int
  | [] => .error "out of fuel"
  | num :: rest => if num ≠ 0 then .ok num else finalTerm rest

/-- Source: `generateRandomPolynomial`.  `draws` are the successive results of
`rand.Int(rand.Reader, modulus)`, each in `[0, modulus)`. -/
def generateRandomPolynomial (constant modulus : Int) (degree : Int) (draws : List Int) :
    Except String polynomial :=
  if modulus ≤ 0 then .error "crypto/rand: argument to Int is <= 0"
  else
    let middle := (degree - 1).toNat
    if draws.length < middle then .error "out of fuel"
    else
      match finalTerm (draws.drop middle) with
      | .error e => .error e
      | .ok num => .ok ⟨constant :: draws.take middle ++ [num]⟩

/-- Source: `evaluatePolynomial` (Horner's method, then `Mod`). -/
def evaluatePolynomial (x modulus : Int) (p : polynomial) : Except String Int :=
  match p.coefficients.reverse with
  | [] => .error "index out of range"
  | top :: lower =>
    if modulus = 0 then .error "division by zero"
    else .ok ((lower.foldl (fun result c => result * x + c) top) % modulus)

/-- The shares `evaluatePolynomial(1), ..., evaluatePolynomial(k)`. -/
def sharesUpTo (modulus : Int) (poly : polynomial) : Nat → Except String (List Int)
  | 0 => .ok []
  | k + 1 =>
    match sharesUpTo modulus poly k, evaluatePolynomial ((k : Int) + 1) modulus poly with
    | .ok shares, .ok y => .ok (shares ++ [y])
    | .error e, _ => .error e
    | _, .error e => .error e

/-- Source: `_shamirSplitSecretWithFixedPolynomial`; `shares[x-1]` is the value at `x`. -/
def _shamirSplitSecretWithFixedPolynomial (_secret modulus : Int) (poly : polynomial)
    (n _t : Int) : Except String (List Int) :=
  if n < 0 then .error "makeslice: len out of range"
  else sharesUpTo modulus poly n.toNat

/-- Source: `shamirSplitSecret`. -/
def shamirSplitSecret (secret modulus : Int) (n t : Int) (draws : List Int) :
    Except String (List Int) :=
  match generateRandomPolynomial secret modulus (t - 1) draws with
  | .error e => .error e
  | .ok poly => _shamirSplitSecretWithFixedPolynomial secret modulus poly n t

/-- The inner loop of `lagrange` for the point with key `x`: the product over the
other keys `m` of `m * (m - x)⁻¹`, reduced after every factor. -/
def lagrangeProd (keys : List Int) (x modulus : Int) : Int :=
  keys.foldl (fun prod m => if m = x then prod else (prod * (m * modInverse (m - x) modulus)) % modulus) 1

/-- Source: `lagrange`. -/
def lagrange (points : List (Int × Int)) (modulus : Int) : Except String Int :=
  if modulus = 0 then .error "division by zero"
  else
    .ok ((points.foldl
      (fun result xy => result + xy.2 * lagrangeProd (points.map Prod.fst) xy.1 modulus) 0) % modulus)

/-- Source: `stringToBigInt`. -/
def stringToBigInt (s : GoString) : Int := setBytes s

/-- Source: `splitSubsecret` (the goroutine body; its result is what it sends). -/
def splitSubsecret (subsecret : GoString) (n t : Int) (modulus : Int) (draws : List Int) :
    Except String (List Int) :=
  shamirSplitSecret (stringToBigInt subsecret) modulus n t draws

/-- Source: `bigIntToString`. -/
def bigIntToString (i : Int) : Except String GoString :=
  let data := bigIntBytes i
  let s := base64Encode data
  match base64Decode s with
  | none => .error "Decoding failed."
  | some res => .ok res

/-- Source: `combineSubsecret` (the goroutine body; its result is what it sends). -/
def combineSubsecret (subsecretshares : List (Int × Int)) (modulus : Int) :
    Except String GoString :=
  match lagrange subsecretshares modulus with
  | .error e => .error e
  | .ok subsecret => bigIntToString subsecret

/-- Source: `isASCII` (`unicode.MaxASCII` is 127). -/
def isASCII (s : GoString) : Bool := s.all (fun b => !decide (b.val > 127))

/-- Source: `validSplitParameters`. -/
def validSplitParameters (secret : GoString) (n t : Int) : Bool :=
  if secret = [] then false
  else if !isASCII secret then false
  else if n < 1 then false
  else if t < 2 then false
  else if n < t then false
  else true

/-- The first loop of `splitStringIntoChunks`. -/
def splitLoop (s : GoString) (n : Int) : Nat → Int → List GoString → Except String (List GoString)
  | 0, _, _ => .error "out of fuel"
  | fuel + 1, i, res =>
    if i ≤ (s.length : Int) - n then
      match sliceStr s i (i + n) with
      | .error e => .error e
      | .ok chunk => splitLoop s n fuel (i + n) (res ++ [chunk])
    else .ok res

/-- Source: `splitStringIntoChunks`.  (`len(s) % n` has a non-negative dividend, for
which Go's remainder is the Euclidean one.) -/
def splitStringIntoChunks (s : GoString) (n : Int) : Except String (List GoString) :=
  match splitLoop s n (s.length + 1) 0 [] with
  | .error e => .error e
  | .ok res =>
    if n = 0 then .error "division by zero"
    else if (s.length : Int) % n ≠ 0 then
      match sliceStr s ((res.length : Int) * n) (s.length : Int) with
      | .error e => .error e
      | .ok chunk => .ok (res ++ [chunk])
    else .ok res

/-- The regular expression `^[0-9]+$` of `validCombineParameters`. -/
def digitCheck (s : GoString) : Bool := !s.isEmpty && s.all isDigit

/-- The bundle loop of `validCombineParameters` (`for i := 1; i <= len(s); i += 2`);
`.ok false` is the early `return false`, `.ok true` is the end of the loop. -/
def bundleLoop (s : List GoString) (num_subsecrets : Nat) : Nat → Int → Except String Bool
  | 0, _ => .error "out of fuel"
  | fuel + 1, i =>
    if i ≤ (s.length : Int) then
      match indexAt s i with
      | .error e => .error e
      | .ok token =>
        let share := stringsSplit token 43
        if share.length ≠ num_subsecrets then .ok false
        else if share.any (fun subsecret => !digitCheck subsecret) then .ok false
        else bundleLoop s num_subsecrets fuel (i + 2)
    else .ok true

/-- Source: `validCombineParameters`.  The loop over the share numbers only prints a
message when `strconv.Atoi` fails, so it does not affect the result. -/
def validCombineParameters (s : List GoString) : Except String Bool :=
  if s.length < 4 then .ok false
  else if s.length % 2 ≠ 0 then .ok false
  else
    match indexAt s 1 with
    | .error e => .error e
    | .ok first =>
      let num_subsecrets := (stringsSplit first 43).length
      match bundleLoop s num_subsecrets (s.length + 1) 1 with
      | .error e => .error e
      | .ok false => .ok false
      | .ok true => .ok true

/-- The inner loop of `createSubsecretSliceMap` (`for j := 0; j < len(s); j += 2`) for
subsecret `i`, on the tokens that remain. -/
def subsecretMapLoop (i : Nat) : List GoString → List (Int × Int) → Except String (List (Int × Int))
  | [], m => .ok m
  | [xTok], _ =>
    match atoi xTok with
    | none => .error "String to int conversion failed."
    | some _ => .error "index out of range"
  | xTok :: bundle :: rest, m =>
    match atoi xTok with
    | none => .error "String to int conversion failed."
    | some x =>
      match (stringsSplit bundle 43).get? i with
      | none => .error "index out of range"
      | some piece =>
        match setString piece with
        | none => .error "SetString failed."
        | some y => subsecretMapLoop i rest (mapInsert m x y)

/-- The outer loop of `createSubsecretSliceMap`: the maps of subsecrets `i, i+1, ...`. -/
def subsecretMaps (s : List GoString) : Nat → Nat → Except String (List (List (Int × Int)))
  | 0, _ => .ok []
  | k + 1, i =>
    match subsecretMapLoop i s [] with
    | .error e => .error e
    | .ok m =>
      match subsecretMaps s k (i + 1) with
      | .error e => .error e
      | .ok ms => .ok (m :: ms)

/-- Source: `createSubsecretSliceMap`. -/
def createSubsecretSliceMap (s : List GoString) : Except String (List (List (Int × Int))) :=
  match indexAt s 1 with
  | .error e => .error e
  | .ok first => subsecretMaps s (stringsSplit first 43).length 0

/-! ## Notions used to state the properties -/

/-- The check that the bundle loop of `validCombineParameters` makes on one bundle token:
it splits into `num_subsecrets` pieces and every piece matches `digitCheck`. -/
def bundleOk (num_subsecrets : Nat) (token : GoString) : Bool :=
  decide ((stringsSplit token 43).length = num_subsecrets) && (stringsSplit token 43).all digitCheck

/-- The share-number tokens of a combine token list: positions 0, 2, 4, ... -/
def shareNumbers : List GoString → List GoString
  | [] => []
  | [x] => [x]
  | x :: _ :: rest => x :: shareNumbers rest

/-- The bundle tokens of a combine token list: positions 1, 3, 5, ... -/
def bundles : List GoString → List GoString
  | [] => []
  | [_] => []
  | _ :: b :: rest => b :: bundles rest

/-- The polynomials that `generateRandomPolynomial(constant, modulus, degree)` can return:
there are draws, each in `[0, modulus)`, on which it returns `poly`. -/
def drawable (constant modulus : Int) (degree : Int) (poly : polynomial) : Prop :=
  ∃ draws : List Int, (∀ d ∈ draws, 0 ≤ d ∧ d < modulus) ∧
    generateRandomPolynomial constant modulus degree draws = .ok poly

/-- The polynomial takes the given values at the given share indices. -/
def consistent (modulus : Int) (poly : polynomial) (shares : List (Int × Int)) : Prop :=
  ∀ xy ∈ shares, evaluatePolynomial xy.1 modulus poly = .ok xy.2

/-- The polynomial whose coefficient `i`, for `i < t`, is that of `poly` plus `e i`,
reduced into `[0, modulus)`. -/
def shiftBy (e : Nat → Int) (modulus : Int) (t : Nat) (poly : polynomial) : polynomial :=
  ⟨(List.range t).map (fun i => (poly.coefficients.getD i 0 + e i) % modulus)⟩

/-! ## Further functions of the library and of the program -/

/-- Whether `z.ModInverse(g, n)` finds an inverse, that is, returns a non-nil value: `g`
(reduced modulo `|n|` when it is negative) and `n` are coprime. -/
def modInverseExists (g n : Int) : Bool :=
  let n1 : Int := (n.natAbs : Int)
  let g1 : Int := if g < 0 then g % n1 else g
  decide (Nat.gcd g1.natAbs n.natAbs = 1)

/-- The decimal digits of `v`, most significant first, prepended to `acc`. -/
def natDigitsAux : Nat → Nat → List Byte → List Byte
  | 0, _, acc => acc
  | fuel + 1, v, acc =>
    if v < 10 then Fin.ofNat (48 + v) :: acc
    else natDigitsAux fuel (v / 10) (Fin.ofNat (48 + v % 10) :: acc)

/-- The decimal text of a natural number (`"0"` for 0; the loop has at most `v + 1`
rounds). -/
def natString (v : Nat) : GoString := natDigitsAux (v + 1) v []

/-- Model of `(*big.Int).String()` on a non-nil receiver: the decimal text, with a leading
`-` for a negative number. -/
def bigIntString (i : Int) : GoString :=
  if i < 0 then 45 :: natString i.natAbs else natString i.natAbs

/-- The inner loop of `pairwiseJoinSlices` for column `j`, on the rows that remain, and the
statement after it: every row but the last appends `a[i][j].String() + "+"`, the last one
`a[len(a)-1][j].String()`. -/
def joinRows (j : Int) : List (List Int) → GoString → Except String GoString
  | [], _ => .error "index out of range"
  | [last], str =>
    match indexAt last j with
    | .error e => .error e
    | .ok v => .ok (str ++ bigIntString v)
  | row :: next :: rest, str =>
    match indexAt row j with
    | .error e => .error e
    | .ok v => joinRows j (next :: rest) (str ++ bigIntString v ++ [43])

/-- The outer loop of `pairwiseJoinSlices` (`for j := 0; j <= inner_slice_len - 1; j++`):
the strings of the columns `j, j+1, ...`, `count` of them. -/
def joinColumns (a : List (List Int)) : Nat → Int → Except String (List GoString)
  | 0, _ => .ok []
  | count + 1, j =>
    match joinRows j a [] with
    | .error e => .error e
    | .ok str =>
      match joinColumns a count (j + 1) with
      | .error e => .error e
      | .ok rest => .ok (str :: rest)

/-- Source: `pairwiseJoinSlices`. -/
def pairwiseJoinSlices (a : List (List Int)) : Except String (List GoString) :=
  match a with
  | [] => .error "index out of range"
  | first :: _ =>
    let inner_slice_len := first.length
    if a.any (fun element => decide (element.length ≠ inner_slice_len)) then
      .error "Slices are not all the same length."
    else joinColumns a inner_slice_len 0

/-- Source: `lagrange`, with the orders in which the two `range` loops visit the map made
explicit: `outer` is the order of the outer loop, `inner x` the order of the inner loop
in the iteration for the key `x`. -/
def lagrangeOrd (outer : List (Int × Int)) (inner : Int → List Int) (modulus : Int) :
    Except String Int :=
  if modulus = 0 then .error "division by zero"
  else
    .ok ((outer.foldl
      (fun result xy => result + xy.2 * lagrangeProd (inner xy.1) xy.1 modulus) 0) % modulus)

/-- The spec's `join_with_separator`: the strings in order, with the separator between
consecutive ones and none before the first or after the last. -/
def joinWithSeparator (sep : Byte) : List GoString → GoString
  | [] => []
  | [s] => s
  | s :: next :: rest => s ++ sep :: joinWithSeparator sep (next :: rest)

/-! ## Lemmas on the library models -/

theorem fin_ofNat_val (a : Byte) (v : Nat) (h : v = a.val) : (Fin.ofNat v : Byte) = a := by
  subst h
  apply Fin.ext
  simp [Fin.ofNat]

theorem b64Value_b64Char (v : Nat) (h : v < 64) : b64Value (b64Char v) = some v := by
  interval_cases v <;> decide

theorem b64Char_plain (v : Nat) (h : v < 64) :
    b64Char v ≠ 10 ∧ b64Char v ≠ 13 ∧ b64Char v ≠ 61 := by
  interval_cases v <;> decide

theorem base64Encode_plain (l : List Byte) : ∀ c ∈ base64Encode l, c ≠ 10 ∧ c ≠ 13 := by
  induction l using base64Encode.induct with
  | case1 => simp [base64Encode]
  | case2 a =>
    intro c hc
    simp only [base64Encode, List.mem_cons, List.mem_singleton, List.not_mem_nil, or_false] at hc
    have h1 := b64Char_plain (a.val / 4) (by omega)
    have h2 := b64Char_plain (a.val % 4 * 16) (by omega)
    rcases hc with rfl | rfl | rfl | rfl
    · exact ⟨h1.1, h1.2.1⟩
    · exact ⟨h2.1, h2.2.1⟩
    · decide
    · decide
  | case3 a b =>
    intro c hc
    simp only [base64Encode, List.mem_cons, List.mem_singleton, List.not_mem_nil, or_false] at hc
    have h1 := b64Char_plain (a.val / 4) (by omega)
    have h2 := b64Char_plain (a.val % 4 * 16 + b.val / 16) (by omega)
    have h3 := b64Char_plain (b.val % 16 * 4) (by omega)
    rcases hc with rfl | rfl | rfl | rfl
    · exact ⟨h1.1, h1.2.1⟩
    · exact ⟨h2.1, h2.2.1⟩
    · exact ⟨h3.1, h3.2.1⟩
    · decide
  | case4 a b c rest ih =>
    intro d hd
    simp only [base64Encode, List.mem_cons] at hd
    have h1 := b64Char_plain (a.val / 4) (by omega)
    have h2 := b64Char_plain (a.val % 4 * 16 + b.val / 16) (by omega)
    have h3 := b64Char_plain (b.val % 16 * 4 + c.val / 64) (by omega)
    have h4 := b64Char_plain (c.val % 64) (by omega)
    rcases hd with rfl | rfl | rfl | rfl | hd
    · exact ⟨h1.1, h1.2.1⟩
    · exact ⟨h2.1, h2.2.1⟩
    · exact ⟨h3.1, h3.2.1⟩
    · exact ⟨h4.1, h4.2.1⟩
    · exact ih d hd

theorem base64DecodeQuanta_encode (l : List Byte) :
    base64DecodeQuanta (base64Encode l) = some l := by
  induction l using base64Encode.induct with
  | case1 => simp [base64Encode, base64DecodeQuanta]
  | case2 a =>
    have h1 := b64Value_b64Char (a.val / 4) (by omega)
    have h2 := b64Value_b64Char (a.val % 4 * 16) (by omega)
    simp only [base64Encode, base64DecodeQuanta, h1, h2, if_true]
    congr 2
    exact fin_ofNat_val a _ (by omega)
  | case3 a b =>
    have h1 := b64Value_b64Char (a.val / 4) (by omega)
    have h2 := b64Value_b64Char (a.val % 4 * 16 + b.val / 16) (by omega)
    have h3 := b64Value_b64Char (b.val % 16 * 4) (by omega)
    have n3 := (b64Char_plain (b.val % 16 * 4) (by omega)).2.2
    simp only [base64Encode, base64DecodeQuanta, h1, h2, h3, n3, if_true, if_false]
    rw [fin_ofNat_val a _ (by omega), fin_ofNat_val b _ (by omega)]
  | case4 a b c rest ih =>
    have h1 := b64Value_b64Char (a.val / 4) (by omega)
    have h2 := b64Value_b64Char (a.val % 4 * 16 + b.val / 16) (by omega)
    have h3 := b64Value_b64Char (b.val % 16 * 4 + c.val / 64) (by omega)
    have h4 := b64Value_b64Char (c.val % 64) (by omega)
    have n3 := (b64Char_plain (b.val % 16 * 4 + c.val / 64) (by omega)).2.2
    have n4 := (b64Char_plain (c.val % 64) (by omega)).2.2
    have e1 := fin_ofNat_val a ((a.val / 4) * 4 + (a.val % 4 * 16 + b.val / 16) / 16) (by omega)
    have e2 := fin_ofNat_val b ((a.val % 4 * 16 + b.val / 16) % 16 * 16 +
      (b.val % 16 * 4 + c.val / 64) / 4) (by omega)
    have e3 := fin_ofNat_val c ((b.val % 16 * 4 + c.val / 64) % 4 * 64 + c.val % 64) (by omega)
    rw [base64Encode]
    cases hrest : base64Encode rest with
    | nil =>
      have hr : rest = [] := by
        rw [hrest] at ih
        simpa [base64DecodeQuanta] using ih.symm
      subst hr
      simp only [base64DecodeQuanta, h1, h2, h3, h4, n3, n4, if_false, e1, e2, e3]
    | cons d ds =>
      rw [hrest] at ih
      simp only [base64DecodeQuanta, h1, h2, h3, h4, ih, e1, e2, e3]

theorem base64Decode_encode (l : List Byte) : base64Decode (base64Encode l) = some l := by
  unfold base64Decode
  rw [List.filter_eq_self.mpr]
  · exact base64DecodeQuanta_encode l
  · intro c hc
    have := base64Encode_plain l c hc
    simpa using this

theorem natBytesAux_append (fuel v : Nat) (acc : List Byte) :
    natBytesAux fuel v acc = natBytesAux fuel v [] ++ acc := by
  induction fuel generalizing v acc with
  | zero => simp [natBytesAux]
  | succ f ih =>
    by_cases hv : v = 0
    · simp [natBytesAux, hv]
    · simp only [natBytesAux, hv, if_false]
      rw [ih (v / 256) (_ :: acc), ih (v / 256) [_]]
      simp

theorem natBytesAux_fuel (f1 f2 v : Nat) (acc : List Byte) (h1 : v ≤ f1) (h2 : v ≤ f2) :
    natBytesAux f1 v acc = natBytesAux f2 v acc := by
  induction f1 generalizing f2 v acc with
  | zero =>
    have hv : v = 0 := by omega
    subst hv
    cases f2 <;> simp [natBytesAux]
  | succ f ih =>
    by_cases hv : v = 0
    · subst hv
      cases f2 <;> simp [natBytesAux]
    · obtain ⟨g, rfl⟩ : ∃ g, f2 = g + 1 := ⟨f2 - 1, by omega⟩
      simp only [natBytesAux, hv, if_false]
      apply ih
      · have := Nat.div_lt_self (Nat.pos_of_ne_zero hv) (by decide : 1 < 256)
        omega
      · have := Nat.div_lt_self (Nat.pos_of_ne_zero hv) (by decide : 1 < 256)
        omega

theorem natBytes_zero : natBytes 0 = [] := by
  simp [natBytes, natBytesAux]

theorem natBytes_step (v : Nat) (b : Byte) (h : 0 < v * 256 + b.val) :
    natBytes (v * 256 + b.val) = natBytes v ++ [b] := by
  have hb := b.isLt
  obtain ⟨f, hf⟩ : ∃ f, v * 256 + b.val = f + 1 := ⟨v * 256 + b.val - 1, by omega⟩
  have hdiv : (v * 256 + b.val) / 256 = v := by omega
  have hmod : (v * 256 + b.val) % 256 = b.val := by omega
  unfold natBytes
  rw [hf, natBytesAux, ← hf, if_neg (by omega), hdiv, hmod, fin_ofNat_val b _ rfl,
    natBytesAux_append, natBytesAux_fuel f v v [] (by omega) (le_refl v)]

theorem natBytes_foldl (rest : List Byte) (a : Nat) (ha : 0 < a) :
    natBytes (rest.foldl (fun acc x => acc * 256 + x.val) a) = natBytes a ++ rest := by
  induction rest generalizing a with
  | nil => simp
  | cons b rest ih =>
    rw [List.foldl_cons, ih (a * 256 + b.val) (by omega), natBytes_step a b (by omega)]
    simp

theorem natBytes_setBytes (s : List Byte) :
    natBytes (s.foldl (fun acc x => acc * 256 + x.val) 0) = s.dropWhile (fun b => decide (b = 0)) := by
  induction s with
  | nil => simp [natBytes_zero]
  | cons b rest ih =>
    by_cases hb : b = 0
    · subst hb
      simpa [List.dropWhile] using ih
    · have hpos : 0 < b.val := by
        rcases Nat.eq_zero_or_pos b.val with h | h
        · exact absurd (Fin.ext h) hb
        · exact h
      rw [List.foldl_cons, natBytes_foldl rest _ (by omega)]
      have := natBytes_step 0 b (by omega)
      simp only [Nat.zero_mul, natBytes_zero, List.nil_append] at this
      rw [this]
      simp [List.dropWhile, hb]

/-- What decoding after encoding gives: the string without its leading NUL bytes. -/
theorem bigIntToString_stringToBigInt (c : GoString) :
    bigIntToString (stringToBigInt c) = .ok (c.dropWhile (fun b => decide (b = 0))) := by
  unfold bigIntToString stringToBigInt setBytes bigIntBytes
  simp only [Int.natAbs_ofNat]
  rw [base64Decode_encode]
  rw [natBytes_setBytes c]

theorem setBytes_lt (s : List Byte) (a : Nat) :
    s.foldl (fun acc x => acc * 256 + x.val) a < (a + 1) * 256 ^ s.length := by
  induction s generalizing a with
  | nil => simp
  | cons b rest ih =>
    have hb := b.isLt
    rw [List.foldl_cons, List.length_cons, pow_succ]
    calc rest.foldl (fun acc x => acc * 256 + x.val) (a * 256 + b.val)
        < (a * 256 + b.val + 1) * 256 ^ rest.length := ih _
      _ ≤ ((a + 1) * 256) * 256 ^ rest.length := Nat.mul_le_mul_right _ (by omega)
      _ = (a + 1) * (256 ^ rest.length * 256) := by ring

/-! ## Lemmas on the chunker -/

theorem sliceStr_ok (s : GoString) (i k : Nat) (h : i + k ≤ s.length) :
    sliceStr s (i : Int) ((i : Int) + (k : Int)) = .ok ((s.drop i).take k) := by
  unfold sliceStr
  rw [if_pos (by omega)]
  congr 3
  omega

/-- The loop of `splitStringIntoChunks` for a chunk length `k ≥ 1`: it stops, and what it
has collected are the full chunks of `s`. -/
theorem splitLoop_spec (s : GoString) (k : Nat) (fuel : Nat) (res : List GoString)
    (hflat : res.flatten = s.take (res.length * k))
    (hle : res.length * k ≤ s.length)
    (hall : ∀ c ∈ res, c.length = k)
    (hfuel : s.length < res.length * k + fuel * k) :
    ∃ out, splitLoop s (k : Int) fuel ((res.length * k : Nat) : Int) res = .ok out ∧
      out.flatten = s.take (out.length * k) ∧ out.length * k ≤ s.length ∧
      s.length < out.length * k + k ∧ (∀ c ∈ out, c.length = k) := by
  induction fuel generalizing res with
  | zero => omega
  | succ f ih =>
    unfold splitLoop
    by_cases hc : res.length * k + k ≤ s.length
    · rw [if_pos (by omega), sliceStr_ok s _ k hc]
      have hlen : (res ++ [(s.drop (res.length * k)).take k]).length * k
          = res.length * k + k := by
        rw [List.length_append, List.length_singleton]; ring
      have key := ih (res ++ [(s.drop (res.length * k)).take k])
        (by
          rw [hlen, List.flatten_append, hflat]
          simp only [List.flatten_cons, List.flatten_nil, List.append_nil]
          rw [List.take_add])
        (by rw [hlen]; exact hc)
        (by
          intro c hc2
          rcases List.mem_append.mp hc2 with h | h
          · exact hall c h
          · rw [List.mem_singleton.mp h, List.length_take, List.length_drop]
            omega)
        (by
          rw [hlen]
          have : (f + 1) * k = f * k + k := by ring
          omega)
      rw [hlen] at key
      have hcast : (((res.length * k : Nat) : Int) + (k : Int)) = ((res.length * k + k : Nat) : Int) := by
        push_cast; ring
      simp only [hcast]
      exact key
    · rw [if_neg (by omega)]
      exact ⟨res, rfl, hflat, hle, by omega, hall⟩

/-- The result of `splitStringIntoChunks` for a chunk length `k ≥ 1`. -/
theorem splitStringIntoChunks_spec (s : GoString) (k : Nat) (hk : 1 ≤ k) :
    ∃ chunks, splitStringIntoChunks s (k : Int) = .ok chunks ∧ chunks.flatten = s ∧
      (∀ c ∈ chunks, c.length ≤ k ∧ c ≠ []) := by
  obtain ⟨out, hout, hflat, hle, hlt, hall⟩ := splitLoop_spec s k (s.length + 1) []
    (by simp) (by simp) (by simp)
    (by
      simp only [List.length_nil, Nat.zero_mul, Nat.zero_add]
      calc s.length < (s.length + 1) * 1 := by omega
        _ ≤ (s.length + 1) * k := Nat.mul_le_mul_left _ hk)
  simp only [List.length_nil, Nat.zero_mul, Nat.cast_zero] at hout
  unfold splitStringIntoChunks
  rw [hout]
  simp only
  rw [if_neg (by omega)]
  by_cases hmod : (s.length : Int) % (k : Int) = 0
  · rw [if_neg (by simpa using hmod)]
    have hdvd : k ∣ s.length := by
      have : (k : Int) ∣ (s.length : Int) := Int.dvd_of_emod_eq_zero hmod
      exact Int.natCast_dvd_natCast.mp this
    obtain ⟨q, hq⟩ := hdvd
    have hqe : out.length = q := by
      have h1 : out.length * k ≤ k * q := by omega
      have h2 : k * q < (out.length + 1) * k := by
        have : (out.length + 1) * k = out.length * k + k := by ring
        omega
      have h3 : out.length ≤ q := by
        rw [Nat.mul_comm k q] at h1
        exact Nat.le_of_mul_le_mul_right h1 (by omega)
      have h4 : q < out.length + 1 := by
        rw [Nat.mul_comm k q] at h2
        exact Nat.lt_of_mul_lt_mul_right h2
      omega
    refine ⟨out, rfl, ?_, ?_⟩
    · rw [hflat, List.take_of_length_le]
      rw [hqe, hq, Nat.mul_comm]
    · intro c hc
      have := hall c hc
      refine ⟨by omega, ?_⟩
      intro h0
      rw [h0] at this
      simp at this
      omega
  · rw [if_pos hmod]
    have hlt2 : out.length * k < s.length := by
      rcases Nat.lt_or_ge (out.length * k) s.length with h | h
      · exact h
      · exfalso
        apply hmod
        have he : s.length = out.length * k := by omega
        rw [he]
        push_cast
        exact Int.mul_emod_left _ _
    have hs : sliceStr s ((out.length : Int) * (k : Int)) (s.length : Int)
        = .ok (s.drop (out.length * k)) := by
      have := sliceStr_ok s (out.length * k) (s.length - out.length * k) (by omega)
      have hc : (((out.length * k : Nat) : Int) + ((s.length - out.length * k : Nat) : Int))
          = (s.length : Int) := by omega
      rw [hc] at this
      push_cast at this
      rw [this]
      congr 1
      apply List.take_of_length_le
      rw [List.length_drop]
    rw [hs]
    refine ⟨out ++ [s.drop (out.length * k)], rfl, ?_, ?_⟩
    · rw [List.flatten_append, hflat]
      simp
    · intro c hc
      rcases List.mem_append.mp hc with h | h
      · have := hall c h
        refine ⟨by omega, ?_⟩
        intro h0
        rw [h0] at this
        simp at this
        omega
      · rw [List.mem_singleton.mp h]
        refine ⟨by rw [List.length_drop]; omega, ?_⟩
        intro h0
        have := congrArg List.length h0
        rw [List.length_drop] at this
        simp at this
        omega

/-! ## Lemmas on the validation of the combine tokens -/

theorem digitCheck_iff (piece : GoString) :
    digitCheck piece = true ↔ piece ≠ [] ∧ ∀ b ∈ piece, 48 ≤ b.val ∧ b.val ≤ 57 := by
  unfold digitCheck isDigit
  cases piece with
  | nil => simp
  | cons b rest => simp

theorem indexAt_ok {α : Type} (a : List α) (i : Nat) (v : α) (h : a.get? i = some v) :
    indexAt a (i : Int) = .ok v := by
  unfold indexAt
  rw [if_pos (by omega)]
  simp only [Int.toNat_ofNat, h]

/-- The bundle loop from position `2 * m + 1` on: it ends without a panic, and it says
`true` exactly when every bundle from there on passes the check. -/
theorem bundleLoop_spec (s : List GoString) (k : Nat) (heven : s.length % 2 = 0)
    (fuel m : Nat) (hm : 2 * m ≤ s.length) (hfuel : s.length + 2 ≤ 2 * m + 2 * fuel) :
    ∃ b, bundleLoop s k fuel ((2 * m + 1 : Nat) : Int) = .ok b ∧
      (b = true ↔ ∀ j, m ≤ j → ∀ tok, s.get? (2 * j + 1) = some tok → bundleOk k tok = true) := by
  induction fuel generalizing m with
  | zero => omega
  | succ f ih =>
    unfold bundleLoop
    by_cases hc : 2 * m + 1 ≤ s.length
    · rw [if_pos (by omega)]
      have hlt : 2 * m + 1 < s.length := by omega
      obtain ⟨tok, htok⟩ : ∃ tok, s.get? (2 * m + 1) = some tok :=
        ⟨s.get ⟨2 * m + 1, hlt⟩, List.get?_eq_get hlt⟩
      rw [indexAt_ok s (2 * m + 1) tok htok]
      simp only
      by_cases hlen : (stringsSplit tok 43).length = k
      · rw [if_neg (by simpa using hlen)]
        by_cases hall : (stringsSplit tok 43).all digitCheck = true
        · have hany : (stringsSplit tok 43).any (fun subsecret => !digitCheck subsecret) = false := by
            rw [List.any_eq_false]
            intro x hx
            have := (List.all_eq_true.mp hall) x hx
            simp [this]
          rw [hany]
          simp only [Bool.false_eq_true, if_false]
          obtain ⟨b, hb, hiff⟩ := ih (m + 1) (by omega) (by omega)
          have hcast : (((2 * m + 1 : Nat) : Int) + 2) = ((2 * (m + 1) + 1 : Nat) : Int) := by
            push_cast; ring
          rw [hcast]
          refine ⟨b, hb, ?_⟩
          rw [hiff]
          constructor
          · intro h j hj tok2 htok2
            rcases Nat.eq_or_lt_of_le hj with heq | hlt2
            · subst heq
              rw [htok] at htok2
              cases htok2
              simp [bundleOk, hlen, hall]
            · exact h j hlt2 tok2 htok2
          · intro h j hj tok2 htok2
            exact h j (by omega) tok2 htok2
        · have hany : (stringsSplit tok 43).any (fun subsecret => !digitCheck subsecret) = true := by
            rw [List.any_eq_true]
            by_contra hcon
            apply hall
            rw [List.all_eq_true]
            intro x hx
            by_contra hx2
            exact hcon ⟨x, hx, by simp [hx2]⟩
          rw [hany]
          simp only [if_true]
          refine ⟨false, rfl, ?_⟩
          constructor
          · intro h; cases h
          · intro h
            have := h m (le_refl m) tok htok
            simp only [bundleOk, Bool.and_eq_true] at this
            exact absurd this.2 hall
      · rw [if_pos (by simpa using hlen)]
        refine ⟨false, rfl, ?_⟩
        constructor
        · intro h; cases h
        · intro h
          have := h m (le_refl m) tok htok
          simp only [bundleOk, Bool.and_eq_true, decide_eq_true_eq] at this
          exact absurd this.1 hlen
    · rw [if_neg (by omega)]
      refine ⟨true, rfl, ?_⟩
      simp only [true_iff]
      intro j hj tok htok
      have : 2 * j + 1 < s.length := by
        by_contra hcon
        rw [List.get?_eq_none.mpr (by omega)] at htok
        cases htok
      omega

/-- What `validCombineParameters` decides. -/
theorem validCombineParameters_spec (s : List GoString) :
    ∃ b, validCombineParameters s = .ok b ∧
      (b = true ↔ 4 ≤ s.length ∧ s.length % 2 = 0 ∧ ∃ first, s.get? 1 = some first ∧
        ∀ j tok, s.get? (2 * j + 1) = some tok →
          bundleOk (stringsSplit first 43).length tok = true) := by
  unfold validCombineParameters
  by_cases h4 : s.length < 4
  · rw [if_pos h4]
    exact ⟨false, rfl, by constructor <;> intro h <;> [cases h; omega]⟩
  rw [if_neg h4]
  by_cases h2 : s.length % 2 ≠ 0
  · rw [if_pos h2]
    exact ⟨false, rfl, by constructor <;> intro h <;> [cases h; omega]⟩
  rw [if_neg h2]
  have heven : s.length % 2 = 0 := by omega
  obtain ⟨first, hfirst⟩ : ∃ tok, s.get? 1 = some tok :=
    ⟨s.get ⟨1, by omega⟩, List.get?_eq_get (by omega)⟩
  have h1 := indexAt_ok s 1 first hfirst
  simp only [Nat.cast_one] at h1
  rw [h1]
  simp only
  obtain ⟨b, hb, hiff⟩ := bundleLoop_spec s (stringsSplit first 43).length heven
    (s.length + 1) 0 (by omega) (by omega)
  simp only [Nat.mul_zero, Nat.zero_add, Nat.cast_one] at hb
  rw [hb]
  refine ⟨b, by cases b <;> rfl, ?_⟩
  rw [hiff]
  constructor
  · intro h
    exact ⟨by omega, heven, first, hfirst, fun j tok htok => h j (Nat.zero_le j) tok htok⟩
  · rintro ⟨_, _, first2, hfirst2, h⟩ j _ tok htok
    rw [hfirst] at hfirst2
    cases hfirst2
    exact h j tok htok

/-! ## Lemmas on the construction of the point maps -/

theorem mapInsert_of_not_mem (m : List (Int × Int)) (k v : Int) (h : k ∉ m.map Prod.fst) :
    (mapInsert m k v).map Prod.fst = m.map Prod.fst ++ [k] := by
  induction m with
  | nil => simp [mapInsert]
  | cons kv rest ih =>
    obtain ⟨k0, v0⟩ := kv
    simp only [List.map_cons, List.mem_cons, not_or] at h
    unfold mapInsert
    rw [if_neg (fun he => h.1 he.symm)]
    simp [ih h.2]

theorem setString_of_digitCheck (piece : GoString) (h : digitCheck piece = true) :
    ∃ y, setString piece = some y := by
  have hd := (digitCheck_iff piece).mp h
  cases piece with
  | nil => exact absurd rfl hd.1
  | cons b rest =>
    have hb := hd.2 b (List.mem_cons_self b rest)
    have h45 : b ≠ 45 := by
      intro he; subst he; exact absurd hb (by decide)
    have h43 : b ≠ 43 := by
      intro he; subst he; exact absurd hb (by decide)
    have hall : (b :: rest).all isDigit = true := by
      rw [List.all_eq_true]
      intro x hx
      have := hd.2 x hx
      simp [isDigit, this.1, this.2]
    refine ⟨((digitsValue (b :: rest) : Nat) : Int), ?_⟩
    simp only [setString, parseSigned, if_neg h45, if_neg h43, parseDigits]
    rw [if_pos ⟨by simp, hall⟩]
    rfl

theorem mem_bundles_get (s : List GoString) (tok : GoString) (h : tok ∈ bundles s) :
    ∃ j, s.get? (2 * j + 1) = some tok := by
  induction s using bundles.induct with
  | case1 => simp [bundles] at h
  | case2 x => simp [bundles] at h
  | case3 x b rest ih =>
    simp only [bundles, List.mem_cons] at h
    rcases h with rfl | h
    · exact ⟨0, rfl⟩
    · obtain ⟨j, hj⟩ := ih h
      refine ⟨j + 1, ?_⟩
      have : 2 * (j + 1) + 1 = (2 * j + 1) + 1 + 1 := by ring
      rw [this]
      simpa using hj

/-- The inner loop of `createSubsecretSliceMap` on tokens whose share numbers parse to
integers that are new and pairwise distinct: every pair of tokens adds one entry. -/
theorem subsecretMapLoop_spec (i : Nat) (toks : List GoString) (m : List (Int × Int))
    (heven : toks.length % 2 = 0)
    (hx : ∀ tok ∈ shareNumbers toks, (atoi tok).isSome = true)
    (hb : ∀ tok ∈ bundles toks, ∃ piece y,
      (stringsSplit tok 43).get? i = some piece ∧ setString piece = some y)
    (hnd : (m.map Prod.fst ++ (shareNumbers toks).filterMap atoi).Nodup) :
    ∃ out, subsecretMapLoop i toks m = .ok out ∧
      out.map Prod.fst = m.map Prod.fst ++ (shareNumbers toks).filterMap atoi := by
  induction toks using bundles.induct generalizing m with
  | case1 => exact ⟨m, by simp [subsecretMapLoop, shareNumbers]⟩
  | case2 x => simp at heven
  | case3 xTok bundle rest ih =>
    obtain ⟨x, hxe⟩ := Option.isSome_iff_exists.mp
      (hx xTok (by simp [shareNumbers]))
    obtain ⟨piece, y, hp, hy⟩ := hb bundle (by simp [bundles])
    have hfm : (shareNumbers (xTok :: bundle :: rest)).filterMap atoi
        = x :: (shareNumbers rest).filterMap atoi := by
      simp [shareNumbers, List.filterMap_cons, hxe]
    rw [hfm] at hnd
    have hnotin : x ∉ m.map Prod.fst := by
      intro hmem
      have := List.nodup_append.mp hnd
      exact this.2.2 hmem (List.mem_cons_self _ _)
    have hkeys := mapInsert_of_not_mem m x y hnotin
    obtain ⟨out, hout, hk⟩ := ih (mapInsert m x y)
      (by simp only [List.length_cons] at heven; omega)
      (fun tok htok => hx tok (by simp [shareNumbers, htok]))
      (fun tok htok => hb tok (by simp [bundles, htok]))
      (by rw [hkeys, List.append_assoc]; simpa using hnd)
    refine ⟨out, ?_, ?_⟩
    · simp only [subsecretMapLoop, hxe, hp, hy]
      exact hout
    · rw [hk, hkeys, hfm]
      simp

theorem shareNumbers_length (toks : List GoString) (heven : toks.length % 2 = 0) :
    (shareNumbers toks).length = toks.length / 2 := by
  induction toks using bundles.induct with
  | case1 => simp [shareNumbers]
  | case2 x => simp at heven
  | case3 x b rest ih =>
    simp only [List.length_cons] at heven
    simp only [shareNumbers, List.length_cons, ih (by omega)]
    omega

theorem subsecretMaps_spec (s : List GoString) (len : Nat) (k i : Nat)
    (h : ∀ j, i ≤ j → j < i + k → ∃ m, subsecretMapLoop j s [] = .ok m ∧ m.length = len) :
    ∃ maps, subsecretMaps s k i = .ok maps ∧ maps.length = k ∧ ∀ m ∈ maps, m.length = len := by
  induction k generalizing i with
  | zero => exact ⟨[], rfl, rfl, by simp⟩
  | succ k ih =>
    obtain ⟨m, hm, hl⟩ := h i (le_refl i) (by omega)
    obtain ⟨ms, hms, hlen, hall⟩ := ih (i + 1) (fun j h1 h2 => h j (by omega) (by omega))
    refine ⟨m :: ms, ?_, by simp [hlen], ?_⟩
    · simp only [subsecretMaps, hm, hms]
    · intro m2 hm2
      rcases List.mem_cons.mp hm2 with rfl | h2
      · exact hl
      · exact hall m2 h2

/-! ## Lemmas on the field arithmetic -/

open Polynomial in
/-- The polynomial over `ZMod q` that a coefficient list stands for. -/
theorem exists_poly_of_coefficients (q : Nat) [Fact q.Prime] (cs : List Int) :
    ∃ f : (ZMod q)[X], f.degree < (cs.length : WithBot Nat) ∧
      (∀ i, f.coeff i = ((cs.getD i 0 : Int) : ZMod q)) ∧
      ∀ x : Int, ((cs.foldr (fun c acc => acc * x + c) 0 : Int) : ZMod q) = f.eval (x : ZMod q) := by
  induction cs with
  | nil =>
    refine ⟨0, ?_, ?_, ?_⟩
    · simp
    · intro i; simp
    · intro x; simp
  | cons c cs ih =>
    obtain ⟨f, hdeg, hcoeff, heval⟩ := ih
    refine ⟨C (c : ZMod q) + X * f, ?_, ?_, ?_⟩
    · have h1 : (C (c : ZMod q)).degree < ((c :: cs).length : WithBot Nat) := by
        refine lt_of_le_of_lt degree_C_le ?_
        simp only [List.length_cons]
        exact_mod_cast Nat.succ_pos _
      have h2 : (X * f).degree < ((c :: cs).length : WithBot Nat) := by
        by_cases hf : f = 0
        · simp only [hf, mul_zero, degree_zero]
          exact WithBot.bot_lt_coe _
        · rw [degree_eq_natDegree hf] at hdeg
          have hd : f.natDegree < cs.length := by exact_mod_cast hdeg
          refine lt_of_le_of_lt (degree_le_natDegree) ?_
          rw [natDegree_X_mul hf]
          simp only [List.length_cons]
          exact_mod_cast Nat.succ_lt_succ hd
      exact lt_of_le_of_lt (degree_add_le _ _) (max_lt h1 h2)
    · intro i
      cases i with
      | zero => simp
      | succ i =>
        rw [coeff_add, coeff_C_succ, zero_add, coeff_X_mul, hcoeff i]
        simp
    · intro x
      simp only [List.foldr_cons, Int.cast_add, Int.cast_mul, heval x, eval_add, eval_C, eval_mul,
        eval_X]
      ring

theorem modInverse_cast (q : Nat) [Fact q.Prime] (g : Int) :
    ((modInverse g (q : Int) : Int) : ZMod q) = ((g : Int) : ZMod q)⁻¹ := by
  have hq : q.Prime := Fact.out
  have hg1 : ∃ g1 : Nat, ((g1 : Int) = if g < 0 then g % (q : Int) else g) := by
    by_cases hneg : g < 0
    · rw [if_pos hneg]
      have : 0 ≤ g % (q : Int) := Int.emod_nonneg _ (by exact_mod_cast hq.pos.ne')
      exact ⟨(g % (q : Int)).toNat, by omega⟩
    · rw [if_neg hneg]
      exact ⟨g.toNat, by omega⟩
  obtain ⟨g1, hg1⟩ := hg1
  have hcast : ((g1 : Int) : ZMod q) = (g : ZMod q) := by
    rw [hg1]
    split_ifs
    · exact ZMod.intCast_mod g q
    · rfl
  unfold modInverse
  simp only [Int.natAbs_ofNat]
  rw [← hg1]
  simp only [Int.natAbs_ofNat]
  by_cases hgcd : Nat.gcd g1 q = 1
  · rw [if_pos hgcd, ZMod.intCast_mod]
    have bez := Nat.gcd_eq_gcd_ab g1 q
    rw [hgcd] at bez
    have bez2 := congrArg (Int.cast : Int → ZMod q) bez
    push_cast at bez2
    rw [ZMod.natCast_self, zero_mul, add_zero] at bez2
    have hm : (g : ZMod q) * ((Nat.gcdA g1 q : Int) : ZMod q) = 1 := by
      rw [← hcast]
      push_cast
      exact bez2.symm
    exact eq_inv_of_mul_eq_one_right hm
  · rw [if_neg hgcd]
    have hdvd : q ∣ g1 := by
      by_contra hnd
      exact hgcd (Nat.Coprime.symm ((Nat.Prime.coprime_iff_not_dvd hq).mpr hnd))
    have hz : (g : ZMod q) = 0 := by
      rw [← hcast]
      push_cast
      exact (ZMod.natCast_zmod_eq_zero_iff_dvd g1 q).mpr hdvd
    rw [hz, inv_zero]

theorem lagrangeProd_cast (q : Nat) [Fact q.Prime] (keys : List Int) (x : Int) :
    ((lagrangeProd keys x (q : Int) : Int) : ZMod q)
      = ((keys.filter (fun m : Int => decide (m ≠ x))).map
          (fun m : Int => (m : ZMod q) * ((m : ZMod q) - (x : ZMod q))⁻¹)).prod := by
  unfold lagrangeProd
  have key : ∀ acc : Int,
      ((keys.foldl (fun prod m => if m = x then prod
          else (prod * (m * modInverse (m - x) (q : Int))) % (q : Int)) acc : Int) : ZMod q)
        = (acc : ZMod q) * ((keys.filter (fun m : Int => decide (m ≠ x))).map
          (fun m : Int => (m : ZMod q) * ((m : ZMod q) - (x : ZMod q))⁻¹)).prod := by
    induction keys with
    | nil => intro acc; simp
    | cons m rest ih =>
      intro acc
      rw [List.foldl_cons]
      by_cases hm : m = x
      · rw [if_pos hm, ih acc]
        simp [hm]
      · rw [if_neg hm, ih]
        rw [ZMod.intCast_mod]
        simp only [List.filter_cons, hm, ne_eq, not_false_eq_true, decide_True, if_true,
          List.map_cons, List.prod_cons]
        push_cast
        rw [modInverse_cast]
        push_cast
        ring
  have := key 1
  simpa using this

/-- The value of `lagrange` in `ZMod q`: the Lagrange sum at 0. -/
theorem lagrange_cast (q : Nat) [Fact q.Prime] (points : List (Int × Int)) :
    ∃ r, lagrange points (q : Int) = .ok r ∧ 0 ≤ r ∧ r < (q : Int) ∧
      (r : ZMod q) = (points.map (fun xy => (xy.2 : ZMod q) *
        (((points.map Prod.fst).filter (fun m : Int => decide (m ≠ xy.1))).map
          (fun m : Int => (m : ZMod q) * ((m : ZMod q) - (xy.1 : ZMod q))⁻¹)).prod)).sum := by
  have hq : q.Prime := Fact.out
  have hq0 : (q : Int) ≠ 0 := by exact_mod_cast hq.pos.ne'
  have hqpos : (0 : Int) < q := by exact_mod_cast hq.pos
  unfold lagrange
  rw [if_neg hq0]
  refine ⟨_, rfl, Int.emod_nonneg _ hq0, Int.emod_lt_of_pos _ hqpos, ?_⟩
  rw [ZMod.intCast_mod]
  generalize points.map Prod.fst = keys
  have key : ∀ acc : Int,
      ((points.foldl (fun result xy => result + xy.2 * lagrangeProd keys xy.1 (q : Int)) acc : Int)
        : ZMod q)
        = (acc : ZMod q) + (points.map (fun xy => (xy.2 : ZMod q) *
          ((keys.filter (fun m : Int => decide (m ≠ xy.1))).map
            (fun m : Int => (m : ZMod q) * ((m : ZMod q) - (xy.1 : ZMod q))⁻¹)).prod)).sum := by
    induction points with
    | nil => intro acc; simp
    | cons xy rest ih =>
      intro acc
      rw [List.foldl_cons, ih]
      simp only [List.map_cons, List.sum_cons]
      push_cast
      rw [lagrangeProd_cast]
      ring
  have := key 0
  simpa using this

open Polynomial in
/-- Lagrange interpolation at 0: when the points lie on a polynomial `f` over `ZMod q` of
degree below their number, and their keys are distinct modulo `q`, `lagrange` returns the
representative in `[0, q)` of `f(0)`. -/
theorem lagrange_eq_eval_zero (q : Nat) [Fact q.Prime] (points : List (Int × Int))
    (hnd : ((points.map Prod.fst).map (Int.cast : Int → ZMod q)).Nodup)
    (f : (ZMod q)[X]) (hdeg : f.degree < (points.length : WithBot Nat))
    (hon : ∀ xy ∈ points, (xy.2 : ZMod q) = f.eval (xy.1 : ZMod q)) :
    ∃ r, lagrange points (q : Int) = .ok r ∧ 0 ≤ r ∧ r < (q : Int) ∧ (r : ZMod q) = f.eval 0 := by
  obtain ⟨r, hr, h0, hlt, hcast⟩ := lagrange_cast q points
  refine ⟨r, hr, h0, hlt, ?_⟩
  rw [hcast]
  have hkeys : (points.map Prod.fst).Nodup := List.Nodup.of_map _ hnd
  have hinj : Set.InjOn (Int.cast : Int → ZMod q) ((points.map Prod.fst).toFinset : Set Int) := by
    intro a ha b hb hab
    simp only [Finset.mem_coe, List.mem_toFinset] at ha hb
    exact (List.inj_on_of_nodup_map hnd) ha hb hab
  have hcard : (points.map Prod.fst).toFinset.card = points.length := by
    rw [List.toFinset_card_of_nodup hkeys, List.length_map]
  have hint := Lagrange.eq_interpolate (s := (points.map Prod.fst).toFinset)
    (v := (Int.cast : Int → ZMod q)) (f := f) hinj (by rw [hcard]; exact hdeg)
  have hev : f.eval 0 = ∑ i ∈ (points.map Prod.fst).toFinset,
      f.eval (i : ZMod q) * ∏ j ∈ (points.map Prod.fst).toFinset.erase i,
        ((j : ZMod q) * ((j : ZMod q) - (i : ZMod q))⁻¹) := by
    conv_lhs => rw [hint]
    rw [Lagrange.interpolate_apply, eval_finset_sum]
    apply Finset.sum_congr rfl
    intro i _
    rw [eval_mul, eval_C, Lagrange.basis, eval_prod]
    congr 1
    apply Finset.prod_congr rfl
    intro j _
    rw [Lagrange.basisDivisor, eval_mul, eval_C, eval_sub, eval_X, eval_C]
    rw [← neg_sub (j : ZMod q) (i : ZMod q), inv_neg]
    ring
  rw [hev]
  rw [List.sum_toFinset _ hkeys, List.map_map]
  congr 1
  apply List.map_congr_left
  intro xy hxy
  simp only [Function.comp]
  rw [hon xy hxy]
  congr 1
  have hfil : Finset.filter (fun a => a ≠ xy.1) (points.map Prod.fst).toFinset
      = ((points.map Prod.fst).filter (fun m : Int => decide (m ≠ xy.1))).toFinset := by
    ext a
    simp [List.mem_filter]
  rw [← Finset.filter_ne', hfil, List.prod_toFinset _ (hkeys.filter _)]

/-- The modulus of the program is a prime number (Lucas-Lehmer test for 2^127 - 1). -/
theorem prime_modulus : Nat.Prime (2 ^ 127 - 1) := by
  have h : (mersenne 127).Prime := lucas_lehmer_sufficiency _ (by norm_num) (by norm_num)
  simpa [mersenne] using h

theorem modulus_cast : (2 ^ 127 - 1 : Int) = ((2 ^ 127 - 1 : Nat) : Int) := by
  norm_num

/-- Horner's loop of `evaluatePolynomial`, from the highest coefficient down, as a fold
from the right over the coefficients. -/
theorem evaluatePolynomial_eq (x modulus : Int) (cs : List Int) (hcs : cs ≠ [])
    (hm : modulus ≠ 0) :
    evaluatePolynomial x modulus ⟨cs⟩
      = .ok ((cs.foldr (fun c acc => acc * x + c) 0) % modulus) := by
  unfold evaluatePolynomial
  have hrev : cs.reverse ≠ [] := by simpa using hcs
  cases hr : cs.reverse with
  | nil => exact absurd hr hrev
  | cons top lower =>
    simp only [if_neg hm]
    have h1 : cs.foldr (fun c acc => acc * x + c) 0
        = (cs.reverse).foldl (fun result c => result * x + c) 0 := by
      rw [List.foldl_reverse]
    rw [h1, hr, List.foldl_cons]
    simp

/-- Two machine integers that are congruent modulo 2^127 - 1 are equal. -/
theorem int_eq_of_cast_eq (a b : Int) (ha : minInt ≤ a ∧ a ≤ maxInt) (hb : minInt ≤ b ∧ b ≤ maxInt)
    (h : ((a : Int) : ZMod (2 ^ 127 - 1)) = ((b : Int) : ZMod (2 ^ 127 - 1))) : a = b := by
  have hd := (ZMod.intCast_eq_intCast_iff_dvd_sub a b (2 ^ 127 - 1)).mp h
  obtain ⟨k, hk⟩ := hd
  unfold minInt maxInt at ha hb
  have hq : (((2 ^ 127 - 1 : Nat)) : Int) = 170141183460469231731687303715884105727 := by norm_num
  rw [hq] at hk
  norm_num at ha hb
  omega

open Polynomial in
/-- Reconstruction: at least as many points as coefficients, on the polynomial, with
distinct machine-integer indices, give back the constant term. -/
theorem lagrange_of_shares (coefficients : List Int) (c0 : Int)
    (hhead : coefficients.head? = some c0) (h0 : 0 ≤ c0 ∧ c0 < 2 ^ 127 - 1)
    (points : List (Int × Int)) (hcard : coefficients.length ≤ points.length)
    (hdistinct : (points.map Prod.fst).Nodup)
    (hidx : ∀ xy ∈ points, minInt ≤ xy.1 ∧ xy.1 ≤ maxInt)
    (hval : ∀ xy ∈ points, evaluatePolynomial xy.1 (2 ^ 127 - 1) ⟨coefficients⟩ = .ok xy.2) :
    lagrange points (2 ^ 127 - 1) = .ok c0 := by
  haveI : Fact (Nat.Prime (2 ^ 127 - 1)) := ⟨prime_modulus⟩
  have hcs : coefficients ≠ [] := by
    intro h; rw [h] at hhead; cases hhead
  have hm0 : (2 ^ 127 - 1 : Int) ≠ 0 := by norm_num
  obtain ⟨f, hdeg, hcoeff, heval⟩ := exists_poly_of_coefficients (2 ^ 127 - 1) coefficients
  have hnd : ((points.map Prod.fst).map (Int.cast : Int → ZMod (2 ^ 127 - 1))).Nodup := by
    apply List.Nodup.map_on _ hdistinct
    intro a ha b hb hab
    obtain ⟨xa, hxa, rfl⟩ := List.mem_map.mp ha
    obtain ⟨xb, hxb, rfl⟩ := List.mem_map.mp hb
    exact int_eq_of_cast_eq _ _ (hidx xa hxa) (hidx xb hxb) hab
  have hon : ∀ xy ∈ points, ((xy.2 : Int) : ZMod (2 ^ 127 - 1))
      = f.eval ((xy.1 : Int) : ZMod (2 ^ 127 - 1)) := by
    intro xy hxy
    have h1 := hval xy hxy
    rw [evaluatePolynomial_eq _ _ _ hcs hm0] at h1
    rw [← Except.ok.inj h1, ← heval xy.1, modulus_cast, ZMod.intCast_mod]
  have hdeg2 : f.degree < (points.length : WithBot Nat) :=
    lt_of_lt_of_le hdeg (by exact_mod_cast hcard)
  obtain ⟨r, hr, hr0, hrlt, hrc⟩ := lagrange_eq_eval_zero (2 ^ 127 - 1) points hnd f hdeg2 hon
  have hc0 : f.eval 0 = ((c0 : Int) : ZMod (2 ^ 127 - 1)) := by
    rw [← coeff_zero_eq_eval_zero, hcoeff 0]
    cases coefficients with
    | nil => exact absurd rfl hcs
    | cons c cs =>
      simp only [List.head?_cons, Option.some.injEq] at hhead
      simp [hhead]
  rw [hc0] at hrc
  have hmod := (ZMod.intCast_eq_intCast_iff' r c0 (2 ^ 127 - 1)).mp hrc
  rw [← modulus_cast] at hmod hrlt hr
  rw [Int.emod_eq_of_lt hr0 hrlt, Int.emod_eq_of_lt h0.1 h0.2] at hmod
  rw [hr, hmod]

theorem stringToBigInt_bound (c : GoString) (hc : c.length ≤ 15) :
    0 ≤ stringToBigInt c ∧ stringToBigInt c < 2 ^ 127 - 1 := by
  have hb := setBytes_lt c 0
  have hpow : (256 : Nat) ^ c.length ≤ 256 ^ 15 := Nat.pow_le_pow_right (by decide) hc
  have hnat : c.foldl (fun acc x => acc * 256 + x.val) 0 < 256 ^ 15 := by
    calc c.foldl (fun acc x => acc * 256 + x.val) 0 < (0 + 1) * 256 ^ c.length := hb
      _ = 256 ^ c.length := by ring
      _ ≤ 256 ^ 15 := hpow
  unfold stringToBigInt setBytes
  refine ⟨Int.ofNat_nonneg _, ?_⟩
  have : ((c.foldl (fun acc x => acc * 256 + x.val) 0 : Nat) : Int) < ((256 ^ 15 : Nat) : Int) :=
    Int.ofNat_lt.mpr hnat
  have h2 : (((256 ^ 15 : Nat)) : Int) < 2 ^ 127 - 1 := by norm_num
  omega

/-! ## Lemmas on the split -/

theorem finalTerm_spec (l : List Int) (num : Int) (h : finalTerm l = .ok num) :
    num ∈ l ∧ num ≠ 0 := by
  induction l with
  | nil => simp [finalTerm] at h
  | cons d rest ih =>
    unfold finalTerm at h
    by_cases hd : d ≠ 0
    · rw [if_pos hd] at h
      cases h
      exact ⟨List.mem_cons_self _ _, hd⟩
    · rw [if_neg hd] at h
      exact ⟨List.mem_cons_of_mem _ (ih h).1, (ih h).2⟩

/-- What `generateRandomPolynomial` returns: the constant, then `degree - 1` draws, then a
non-zero draw. -/
theorem generateRandomPolynomial_spec (constant modulus degree : Int) (draws : List Int)
    (poly : polynomial)
    (h : generateRandomPolynomial constant modulus degree draws = .ok poly) :
    0 < modulus ∧ ∃ middle num, poly.coefficients = constant :: middle ++ [num] ∧
      middle.length = (degree - 1).toNat ∧ (∀ c ∈ middle, c ∈ draws) ∧ num ∈ draws ∧ num ≠ 0 := by
  unfold generateRandomPolynomial at h
  by_cases hm : modulus ≤ 0
  · rw [if_pos hm] at h; cases h
  rw [if_neg hm] at h
  simp only at h
  by_cases hl : draws.length < (degree - 1).toNat
  · rw [if_pos hl] at h; cases h
  rw [if_neg hl] at h
  cases hf : finalTerm (draws.drop (degree - 1).toNat) with
  | error e => rw [hf] at h; cases h
  | ok num =>
    rw [hf] at h
    simp only [Except.ok.injEq] at h
    have hnum := finalTerm_spec _ _ hf
    refine ⟨by omega, draws.take (degree - 1).toNat, num, ?_, ?_, ?_, ?_, hnum.2⟩
    · rw [← h]
    · rw [List.length_take]; omega
    · intro c hc; exact List.mem_of_mem_take hc
    · exact List.mem_of_mem_drop hnum.1

theorem evaluatePolynomial_ok (x modulus : Int) (p : polynomial) (hcs : p.coefficients ≠ [])
    (hm : modulus ≠ 0) : ∃ y, evaluatePolynomial x modulus p = .ok y :=
  ⟨_, evaluatePolynomial_eq x modulus p.coefficients hcs hm⟩

/-- The shares of `_shamirSplitSecretWithFixedPolynomial`: entry `i` is the value of the
polynomial at `i + 1`. -/
theorem sharesUpTo_spec (modulus : Int) (poly : polynomial) (k : Nat) (shares : List Int)
    (h : sharesUpTo modulus poly k = .ok shares) :
    shares.length = k ∧
      ∀ i, i < k → evaluatePolynomial ((i : Int) + 1) modulus poly = .ok (shares.getD i 0) := by
  induction k generalizing shares with
  | zero =>
    simp only [sharesUpTo, Except.ok.injEq] at h
    subst h
    exact ⟨rfl, fun i hi => absurd hi (Nat.not_lt_zero i)⟩
  | succ k ih =>
    unfold sharesUpTo at h
    cases hs : sharesUpTo modulus poly k with
    | error e => rw [hs] at h; simp at h
    | ok prev =>
      cases hy : evaluatePolynomial ((k : Int) + 1) modulus poly with
      | error e => rw [hs, hy] at h; simp at h
      | ok y =>
        rw [hs, hy] at h
        simp only [Except.ok.injEq] at h
        subst h
        obtain ⟨hlen, hget⟩ := ih prev hs
        refine ⟨by simp [hlen], ?_⟩
        intro i hi
        rcases Nat.lt_succ_iff_lt_or_eq.mp hi with hlt | heq
        · rw [hget i hlt]
          congr 1
          simp [List.getD_eq_getElem?_getD, List.getElem?_append_left, hlen, hlt]
        · subst heq
          rw [hy]
          congr 1
          simp [List.getD_eq_getElem?_getD, ← hlen]

theorem sharesUpTo_ok (modulus : Int) (poly : polynomial) (hcs : poly.coefficients ≠ [])
    (hm : modulus ≠ 0) (k : Nat) : ∃ shares, sharesUpTo modulus poly k = .ok shares := by
  induction k with
  | zero => exact ⟨[], rfl⟩
  | succ k ih =>
    obtain ⟨prev, hprev⟩ := ih
    obtain ⟨y, hy⟩ := evaluatePolynomial_ok ((k : Int) + 1) modulus poly hcs hm
    exact ⟨prev ++ [y], by simp only [sharesUpTo, hprev, hy]⟩

/-- One chunk through `splitSubsecret` and, for any `t` distinct share indices in `1..n`,
back through `combineSubsecret`: the chunk without its leading NUL bytes. -/
theorem combineSubsecret_splitSubsecret (c : GoString) (hc : c.length ≤ 15) (n t : Int)
    (ht : 2 ≤ t) (hn : n ≤ maxInt) (draws : List Int) (shares : List Int)
    (hsplit : splitSubsecret c n t (2 ^ 127 - 1) draws = .ok shares)
    (xs : List Int) (hnd : xs.Nodup) (hlen : (xs.length : Int) = t)
    (hidx : ∀ x ∈ xs, 1 ≤ x ∧ x ≤ n) :
    combineSubsecret (xs.map (fun x => (x, shares.getD (x - 1).toNat 0))) (2 ^ 127 - 1)
      = .ok (c.dropWhile (fun b => decide (b = 0))) := by
  unfold splitSubsecret shamirSplitSecret at hsplit
  cases hg : generateRandomPolynomial (stringToBigInt c) (2 ^ 127 - 1) (t - 1) draws with
  | error e => rw [hg] at hsplit; cases hsplit
  | ok poly =>
    rw [hg] at hsplit
    simp only at hsplit
    obtain ⟨_, middle, num, hcoef, hmid, _, _, _⟩ := generateRandomPolynomial_spec _ _ _ _ _ hg
    unfold _shamirSplitSecretWithFixedPolynomial at hsplit
    by_cases hneg : n < 0
    · rw [if_pos hneg] at hsplit; cases hsplit
    rw [if_neg hneg] at hsplit
    obtain ⟨hslen, hsget⟩ := sharesUpTo_spec _ _ _ _ hsplit
    have hbound := stringToBigInt_bound c hc
    have hlag : lagrange (xs.map (fun x => (x, shares.getD (x - 1).toNat 0))) (2 ^ 127 - 1)
        = .ok (stringToBigInt c) := by
      apply lagrange_of_shares poly.coefficients
      · rw [hcoef]; rfl
      · exact hbound
      · have h1 : (stringToBigInt c :: middle ++ [num]).length = middle.length + 2 := by simp
        rw [hcoef, h1, List.length_map, hmid]
        omega
      · rw [List.map_map]
        have : (Prod.fst ∘ fun x : Int => (x, shares.getD (x - 1).toNat 0)) = id := rfl
        rw [this, List.map_id]
        exact hnd
      · intro xy hxy
        obtain ⟨x, hx, rfl⟩ := List.mem_map.mp hxy
        have := hidx x hx
        unfold minInt
        simp only
        omega
      · intro xy hxy
        obtain ⟨x, hx, rfl⟩ := List.mem_map.mp hxy
        have hxr := hidx x hx
        have := hsget (x - 1).toNat (by omega)
        have hcast : (((x - 1).toNat : Nat) : Int) + 1 = x := by omega
        rw [hcast] at this
        exact this
    unfold combineSubsecret
    rw [hlag]
    exact bigIntToString_stringToBigInt c

/-! ## Lemmas on the polynomials that can be drawn -/

theorem getD_map_range (g : Nat → Int) (t i : Nat) :
    ((List.range t).map g).getD i 0 = if i < t then g i else 0 := by
  rw [List.getD_eq_getElem?_getD]
  by_cases h : i < t
  · rw [if_pos h, List.getElem?_map, List.getElem?_range h]
    rfl
  · rw [if_neg h, List.getElem?_eq_none (by simp; omega)]
    rfl

theorem list_eq_of_getD (l1 l2 : List Int) (t : Nat) (h1 : l1.length = t) (h2 : l2.length = t)
    (h : ∀ i, i < t → l1.getD i 0 = l2.getD i 0) : l1 = l2 := by
  apply List.ext_getElem (by rw [h1, h2])
  intro i hi1 hi2
  have := h i (by omega)
  rw [List.getD_eq_getElem?_getD, List.getD_eq_getElem?_getD, List.getElem?_eq_getElem hi1,
    List.getElem?_eq_getElem hi2] at this
  exact this

theorem getD_mem (l : List Int) (i : Nat) (h : i < l.length) : l.getD i 0 ∈ l := by
  rw [List.getD_eq_getElem?_getD, List.getElem?_eq_getElem h]
  exact List.getElem_mem h

/-- The polynomials that can be drawn for a threshold `t ≥ 2`, by their coefficients. -/
theorem drawable_iff (constant modulus : Int) (t : Nat) (ht : 2 ≤ t) (poly : polynomial) :
    drawable constant modulus ((t : Int) - 1) poly ↔
      (0 < modulus ∧ poly.coefficients.length = t ∧ poly.coefficients.getD 0 0 = constant ∧
        (∀ i, 1 ≤ i → i < t →
          0 ≤ poly.coefficients.getD i 0 ∧ poly.coefficients.getD i 0 < modulus) ∧
        poly.coefficients.getD (t - 1) 0 ≠ 0) := by
  constructor
  · rintro ⟨draws, hdraws, hgen⟩
    obtain ⟨hm, middle, num, hcoef, hmid, hmem, hnum, hne⟩ :=
      generateRandomPolynomial_spec _ _ _ _ _ hgen
    have hmid2 : middle.length = t - 2 := by omega
    replace hcoef : poly.coefficients = constant :: (middle ++ [num]) := by
      rw [hcoef]; rfl
    have hlen : poly.coefficients.length = t := by
      rw [hcoef, List.length_cons, List.length_append, List.length_singleton, hmid2]
      omega
    refine ⟨hm, hlen, by rw [hcoef]; rfl, ?_, ?_⟩
    · intro i h1 h2
      have hin : poly.coefficients.getD i 0 ∈ middle ++ [num] := by
        obtain ⟨j, rfl⟩ : ∃ j, i = j + 1 := ⟨i - 1, by omega⟩
        rw [hcoef, List.getD_cons_succ]
        apply getD_mem
        simp only [List.length_append, List.length_singleton, hmid2]
        omega
      rcases List.mem_append.mp hin with h | h
      · exact hdraws _ (hmem _ h)
      · rw [List.mem_singleton.mp h]
        exact hdraws _ hnum
    · obtain ⟨j, hj⟩ : ∃ j, t - 1 = j + 1 := ⟨t - 2, by omega⟩
      rw [hcoef, hj, List.getD_cons_succ, List.getD_eq_getElem?_getD,
        List.getElem?_append_right (by omega)]
      have : j - middle.length = 0 := by omega
      rw [this]
      exact hne
  · rintro ⟨hm, hlen, h0, hrange, hlast⟩
    obtain ⟨cs⟩ := poly
    simp only at hlen h0 hrange hlast
    cases cs with
    | nil => simp at hlen; omega
    | cons c rest =>
      simp only [List.length_cons] at hlen
      simp only [List.getD_cons_zero] at h0
      subst h0
      have hrl : rest.length = t - 1 := by omega
      refine ⟨rest, ?_, ?_⟩
      · intro d hd
        obtain ⟨j, hj, rfl⟩ := List.getElem_of_mem hd
        have := hrange (j + 1) (by omega) (by omega)
        rw [List.getD_cons_succ, List.getD_eq_getElem?_getD, List.getElem?_eq_getElem hj] at this
        exact this
      · have hlastr : rest.getD (t - 2) 0 ≠ 0 := by
          obtain ⟨j, hj⟩ : ∃ j, t - 1 = j + 1 := ⟨t - 2, by omega⟩
          rw [hj, List.getD_cons_succ] at hlast
          have : j = t - 2 := by omega
          rw [← this]
          exact hlast
        have hsplit : rest = rest.take (t - 2) ++ [rest.getD (t - 2) 0] := by
          have hlt : t - 2 < rest.length := by omega
          conv_lhs => rw [← List.take_append_drop (t - 2) rest]
          congr 1
          rw [List.drop_eq_getElem_cons hlt, List.getD_eq_getElem?_getD,
            List.getElem?_eq_getElem hlt]
          simp only [Option.getD_some, List.cons.injEq, true_and]
          apply List.drop_of_length_le
          omega
        have hdrop : rest.drop (t - 2) = [rest.getD (t - 2) 0] := by
          have hlt : t - 2 < rest.length := by omega
          rw [List.drop_eq_getElem_cons hlt, List.getD_eq_getElem?_getD,
            List.getElem?_eq_getElem hlt]
          simp only [Option.getD_some, List.cons.injEq, true_and]
          apply List.drop_of_length_le
          omega
        unfold generateRandomPolynomial
        rw [if_neg (by omega)]
        have hmidn : ((t : Int) - 1 - 1).toNat = t - 2 := by omega
        simp only [hmidn]
        rw [if_neg (by omega), hdrop]
        simp only [finalTerm, hlastr, ne_eq, not_false_eq_true, if_true]
        rw [List.cons_append, ← hsplit]

theorem emod_eq_of_cast_eq (q : Nat) (a b : Int) (hb : 0 ≤ b ∧ b < (q : Int))
    (h : ((a : Int) : ZMod q) = ((b : Int) : ZMod q)) : a % (q : Int) = b := by
  have := (ZMod.intCast_eq_intCast_iff' a b q).mp h
  rw [this, Int.emod_eq_of_lt hb.1 hb.2]

open Polynomial in
/-- A coefficient list, with entries in `[0, q)`, for a polynomial over `ZMod q` of degree
below `t`. -/
theorem exists_coefficients_of_poly (q : Nat) [Fact q.Prime] (f : (ZMod q)[X]) (t : Nat)
    (hdeg : f.degree < (t : WithBot Nat)) :
    ∃ cs : List Int, cs.length = t ∧ (∀ i, i < t → 0 ≤ cs.getD i 0 ∧ cs.getD i 0 < (q : Int)) ∧
      (∀ i, ((cs.getD i 0 : Int) : ZMod q) = f.coeff i) ∧
      ∀ x : Int, ((cs.foldr (fun c acc => acc * x + c) 0 : Int) : ZMod q)
        = f.eval (x : ZMod q) := by
  have hq : q.Prime := Fact.out
  haveI : NeZero q := ⟨hq.pos.ne'⟩
  have hcoeff : ∀ i, ((((List.range t).map (fun i => ((f.coeff i).val : Int))).getD i 0 : Int)
      : ZMod q) = f.coeff i := by
    intro i
    rw [getD_map_range]
    by_cases hi : i < t
    · rw [if_pos hi]
      simp
    · rw [if_neg hi, Int.cast_zero]
      exact (coeff_eq_zero_of_degree_lt (lt_of_lt_of_le hdeg (by exact_mod_cast not_lt.mp hi))).symm
  refine ⟨(List.range t).map (fun i => ((f.coeff i).val : Int)), by simp, ?_, hcoeff, ?_⟩
  · intro i hi
    rw [getD_map_range, if_pos hi]
    exact ⟨Int.ofNat_nonneg _, by exact_mod_cast ZMod.val_lt (f.coeff i)⟩
  · obtain ⟨g, _, hg, heval⟩ := exists_poly_of_coefficients q
      ((List.range t).map (fun i => ((f.coeff i).val : Int)))
    have hgf : g = f := by
      ext i
      rw [hg i, hcoeff i]
    intro x
    rw [heval x, hgf]

open Polynomial in
theorem consistent_iff (q : Nat) [Fact q.Prime] (poly : polynomial)
    (hcs : poly.coefficients ≠ []) (f : (ZMod q)[X])
    (heval : ∀ x : Int, ((poly.coefficients.foldr (fun c acc => acc * x + c) 0 : Int) : ZMod q)
      = f.eval (x : ZMod q))
    (shares : List (Int × Int)) (hval : ∀ xy ∈ shares, 0 ≤ xy.2 ∧ xy.2 < (q : Int)) :
    consistent (q : Int) poly shares ↔
      ∀ xy ∈ shares, ((xy.2 : Int) : ZMod q) = f.eval ((xy.1 : Int) : ZMod q) := by
  have hq : q.Prime := Fact.out
  have hq0 : (q : Int) ≠ 0 := by exact_mod_cast hq.pos.ne'
  unfold consistent
  constructor
  · intro h xy hxy
    have h1 := h xy hxy
    rw [evaluatePolynomial_eq _ _ _ hcs hq0] at h1
    rw [← Except.ok.inj h1, ZMod.intCast_mod, heval]
  · intro h xy hxy
    rw [evaluatePolynomial_eq _ _ _ hcs hq0]
    congr 1
    apply emod_eq_of_cast_eq q _ _ (hval xy hxy)
    rw [heval, h xy hxy]

open Polynomial in
/-- Adding to the coefficients those of a polynomial `E` of degree below `t - 1` that
vanishes at the share indices maps the drawable polynomials with constant `c` that are
consistent with the shares to those with constant `c + E(0)`. -/
theorem shiftBy_mem (q : Nat) [Fact q.Prime] (t : Nat) (ht : 2 ≤ t)
    (shares : List (Int × Int)) (hval : ∀ xy ∈ shares, 0 ≤ xy.2 ∧ xy.2 < (q : Int))
    (E : (ZMod q)[X]) (hEdeg : E.degree < (t : WithBot Nat)) (hElast : E.coeff (t - 1) = 0)
    (hEzero : ∀ xy ∈ shares, E.eval ((xy.1 : Int) : ZMod q) = 0)
    (e : Nat → Int) (he : ∀ i, ((e i : Int) : ZMod q) = E.coeff i)
    (c c2 : Int) (hc2 : 0 ≤ c2 ∧ c2 < (q : Int))
    (hcc : ((c2 : Int) : ZMod q) = ((c : Int) : ZMod q) + E.coeff 0)
    (poly : polynomial)
    (hpoly : drawable c (q : Int) ((t : Int) - 1) poly ∧ consistent (q : Int) poly shares) :
    drawable c2 (q : Int) ((t : Int) - 1) (shiftBy e (q : Int) t poly) ∧
      consistent (q : Int) (shiftBy e (q : Int) t poly) shares := by
  have hq : q.Prime := Fact.out
  have hq0 : (q : Int) ≠ 0 := by exact_mod_cast hq.pos.ne'
  have hqpos : (0 : Int) < q := by exact_mod_cast hq.pos
  obtain ⟨hd, hcons⟩ := hpoly
  obtain ⟨_, hlen, h0, hrange, hlast⟩ := (drawable_iff c q t ht poly).mp hd
  have hget : ∀ i, (shiftBy e (q : Int) t poly).coefficients.getD i 0
      = if i < t then (poly.coefficients.getD i 0 + e i) % (q : Int) else 0 := by
    intro i
    unfold shiftBy
    simp only
    rw [getD_map_range]
  have hslen : (shiftBy e (q : Int) t poly).coefficients.length = t := by
    unfold shiftBy; simp
  constructor
  · rw [drawable_iff c2 q t ht]
    refine ⟨hqpos, hslen, ?_, ?_, ?_⟩
    · rw [hget 0, if_pos (by omega), h0]
      apply emod_eq_of_cast_eq q _ _ hc2
      rw [hcc]
      push_cast
      rw [he 0]
    · intro i _ hi
      rw [hget i, if_pos hi]
      exact ⟨Int.emod_nonneg _ hq0, Int.emod_lt_of_pos _ hqpos⟩
    · rw [hget (t - 1), if_pos (by omega)]
      have hr := hrange (t - 1) (by omega) (by omega)
      have : (poly.coefficients.getD (t - 1) 0 + e (t - 1)) % (q : Int)
          = poly.coefficients.getD (t - 1) 0 := by
        apply emod_eq_of_cast_eq q _ _ hr
        push_cast
        rw [he (t - 1), hElast, add_zero]
      rw [this]
      exact hlast
  · have hcs : poly.coefficients ≠ [] := by
      intro h; rw [h] at hlen; simp at hlen; omega
    have hcs2 : (shiftBy e (q : Int) t poly).coefficients ≠ [] := by
      intro h; rw [h] at hslen; simp at hslen; omega
    obtain ⟨f, _, hfc, hfe⟩ := exists_poly_of_coefficients q poly.coefficients
    obtain ⟨g, _, hgc, hge⟩ := exists_poly_of_coefficients q
      (shiftBy e (q : Int) t poly).coefficients
    have hgf : g = f + E := by
      ext i
      rw [hgc i, hget i, coeff_add, hfc i]
      by_cases hi : i < t
      · rw [if_pos hi, ZMod.intCast_mod]
        push_cast
        rw [he i]
      · rw [if_neg hi, Int.cast_zero]
        have h1 : poly.coefficients.getD i 0 = 0 := by
          rw [List.getD_eq_getElem?_getD, List.getElem?_eq_none (by omega)]
          rfl
        have h2 : E.coeff i = 0 :=
          coeff_eq_zero_of_degree_lt (lt_of_lt_of_le hEdeg (by exact_mod_cast not_lt.mp hi))
        rw [h1, h2]
        simp
    rw [consistent_iff q _ hcs2 g hge shares hval]
    have hf := (consistent_iff q _ hcs f hfe shares hval).mp hcons
    intro xy hxy
    rw [hgf, eval_add, hEzero xy hxy, add_zero]
    exact hf xy hxy

theorem shiftBy_cancel (q : Nat) (t : Nat) (e e2 : Nat → Int)
    (hee : ∀ i, (e i + e2 i) % (q : Int) = 0) (poly : polynomial)
    (hlen : poly.coefficients.length = t)
    (hrange : ∀ i, i < t →
      0 ≤ poly.coefficients.getD i 0 ∧ poly.coefficients.getD i 0 < (q : Int)) :
    shiftBy e2 (q : Int) t (shiftBy e (q : Int) t poly) = poly := by
  obtain ⟨cs⟩ := poly
  simp only at hlen hrange
  unfold shiftBy
  simp only [polynomial.mk.injEq]
  apply list_eq_of_getD _ _ t (by simp) hlen
  intro i hi
  rw [getD_map_range, if_pos hi, getD_map_range, if_pos hi, Int.emod_add_emod]
  obtain ⟨k, hk⟩ := Int.dvd_of_emod_eq_zero (hee i)
  have : cs.getD i 0 + e i + e2 i = cs.getD i 0 + (q : Int) * k := by
    rw [← hk]; ring
  rw [this, Int.add_mul_emod_self_left]
  exact Int.emod_eq_of_lt (hrange i hi).1 (hrange i hi).2

theorem finite_coefficient_lists (q : Int) (t : Nat) :
    {l : List Int | l.length = t ∧ ∀ x ∈ l, 0 ≤ x ∧ x < q}.Finite := by
  induction t with
  | zero =>
    apply Set.Finite.subset (Set.finite_singleton ([] : List Int))
    intro l hl
    simp only [Set.mem_setOf_eq] at hl
    exact List.length_eq_zero.mp hl.1
  | succ t ih =>
    apply Set.Finite.subset (Set.Finite.image2 List.cons (Set.finite_Ico (0 : Int) q) ih)
    intro l hl
    simp only [Set.mem_setOf_eq] at hl
    cases l with
    | nil => simp at hl
    | cons a rest =>
      refine ⟨a, ?_, rest, ?_, rfl⟩
      · exact hl.2 a (List.mem_cons_self _ _)
      · exact ⟨by simpa using hl.1, fun x hx => hl.2 x (List.mem_cons_of_mem _ hx)⟩

/-- For a secret in `[0, q)` there are finitely many drawable polynomials. -/
theorem finite_drawable (q : Nat) (t : Nat) (ht : 2 ≤ t) (c : Int) (hc : 0 ≤ c ∧ c < (q : Int))
    (shares : List (Int × Int)) :
    {poly : polynomial | drawable c (q : Int) ((t : Int) - 1) poly ∧
      consistent (q : Int) poly shares}.Finite := by
  apply Set.Finite.subset (Set.Finite.image polynomial.mk (finite_coefficient_lists (q : Int) t))
  rintro ⟨cs⟩ ⟨hd, _⟩
  obtain ⟨_, hlen, h0, hrange, _⟩ := (drawable_iff c q t ht ⟨cs⟩).mp hd
  simp only at hlen h0 hrange
  refine ⟨cs, ⟨hlen, ?_⟩, rfl⟩
  intro x hx
  obtain ⟨i, hi, rfl⟩ := List.getElem_of_mem hx
  have hgd : cs.getD i 0 = cs[i] := by
    rw [List.getD_eq_getElem?_getD, List.getElem?_eq_getElem hi]
    rfl
  rw [← hgd]
  rcases Nat.eq_zero_or_pos i with h | h
  · subst h
    rw [h0]
    exact hc
  · exact hrange i h (by omega)

open Polynomial in
/-- A polynomial of degree below the number of points through given points with distinct
abscissas. -/
theorem exists_interpolant (q : Nat) [Fact q.Prime] (pts : List (ZMod q × ZMod q))
    (hnd : (pts.map Prod.fst).Nodup) :
    ∃ E : (ZMod q)[X], E.degree < (pts.length : WithBot Nat) ∧ ∀ xy ∈ pts, E.eval xy.1 = xy.2 := by
  have hinj : Set.InjOn (fun i : Fin pts.length => (pts.get i).1)
      ((Finset.univ : Finset (Fin pts.length)) : Set (Fin pts.length)) := by
    intro i _ j _ hij
    have h1 := List.nodup_iff_injective_get.mp hnd
    apply Fin.ext
    have := @h1 ⟨i.val, by simp⟩ ⟨j.val, by simp⟩ (by simpa using hij)
    simpa using this
  refine ⟨Lagrange.interpolate Finset.univ (fun i : Fin pts.length => (pts.get i).1)
    (fun i => (pts.get i).2), ?_, ?_⟩
  · have := Lagrange.degree_interpolate_lt (r := fun i : Fin pts.length => (pts.get i).2) hinj
    simpa using this
  · intro xy hxy
    obtain ⟨i, rfl⟩ := List.mem_iff_get.mp hxy
    exact Lagrange.eval_interpolate_at_node (fun i => (pts.get i).2) hinj (Finset.mem_univ i)

open Polynomial in
/-- A polynomial with exactly `t` coefficients, the last one non-zero, through fewer than
`t` given points with distinct abscissas. -/
theorem exists_full_degree_poly (q : Nat) [Fact q.Prime] (pts : List (ZMod q × ZMod q))
    (hnd : (pts.map Prod.fst).Nodup) (t : Nat) (hk : pts.length + 1 ≤ t) :
    ∃ G : (ZMod q)[X], G.degree < (t : WithBot Nat) ∧ G.coeff (t - 1) ≠ 0 ∧
      ∀ xy ∈ pts, G.eval xy.1 = xy.2 := by
  obtain ⟨E, hEdeg, hE⟩ := exists_interpolant q pts hnd
  have hNdeg : (Lagrange.nodal Finset.univ (fun i : Fin pts.length => (pts.get i).1)).natDegree
      = pts.length := by
    rw [Lagrange.natDegree_nodal]; simp
  have hNmonic := Lagrange.nodal_monic (s := (Finset.univ : Finset (Fin pts.length)))
    (v := fun i : Fin pts.length => (pts.get i).1)
  have hEcoeff : ∀ i, pts.length ≤ i → E.coeff i = 0 := fun i hi =>
    coeff_eq_zero_of_degree_lt (lt_of_lt_of_le hEdeg (by exact_mod_cast hi))
  refine ⟨E + X ^ (t - 1 - pts.length) *
    Lagrange.nodal Finset.univ (fun i : Fin pts.length => (pts.get i).1), ?_, ?_, ?_⟩
  · rw [degree_lt_iff_coeff_zero]
    intro i hi
    rw [coeff_add, hEcoeff i (by omega), zero_add, coeff_X_pow_mul', if_pos (by omega)]
    apply coeff_eq_zero_of_natDegree_lt
    rw [hNdeg]
    omega
  · rw [coeff_add, hEcoeff (t - 1) (by omega), zero_add, coeff_X_pow_mul', if_pos (by omega)]
    have : t - 1 - (t - 1 - pts.length) = pts.length := by omega
    rw [this]
    have h1 := hNmonic.coeff_natDegree
    rw [hNdeg] at h1
    rw [h1]
    exact one_ne_zero
  · intro xy hxy
    rw [eval_add, hE xy hxy, eval_mul]
    obtain ⟨i, rfl⟩ := List.mem_iff_get.mp hxy
    have := Lagrange.eval_nodal_at_node (s := (Finset.univ : Finset (Fin pts.length)))
      (v := fun i : Fin pts.length => (pts.get i).1) (Finset.mem_univ i)
    simp only at this
    rw [this, mul_zero, add_zero]

open Polynomial in
/-- Two polynomials of degree below the number of nodes that agree at the nodes are equal. -/
theorem poly_eq_of_eval_eq (q : Nat) [Fact q.Prime] (nodes : List (ZMod q)) (hnd : nodes.Nodup)
    (f g : (ZMod q)[X]) (hf : f.degree < (nodes.length : WithBot Nat))
    (hg : g.degree < (nodes.length : WithBot Nat)) (h : ∀ x ∈ nodes, f.eval x = g.eval x) :
    f = g := by
  have hcard : nodes.toFinset.card = nodes.length := List.toFinset_card_of_nodup hnd
  apply Polynomial.eq_of_degrees_lt_of_eval_finset_eq nodes.toFinset
  · rw [hcard]; exact hf
  · rw [hcard]; exact hg
  · intro x hx
    exact h x (List.mem_toFinset.mp hx)

open Polynomial in
/-- The coefficient list of a polynomial over `ZMod q` with constant term `c`, non-zero
coefficient `t - 1` and the values of the shares at their indices is drawable for the
secret `c` and consistent with the shares. -/
theorem drawable_of_poly (q : Nat) [Fact q.Prime] (t : Nat) (ht : 2 ≤ t)
    (shares : List (Int × Int)) (hval : ∀ xy ∈ shares, 0 ≤ xy.2 ∧ xy.2 < (q : Int))
    (c : Int) (hc : 0 ≤ c ∧ c < (q : Int)) (G : (ZMod q)[X])
    (hdeg : G.degree < (t : WithBot Nat)) (hlast : G.coeff (t - 1) ≠ 0)
    (h0 : G.eval 0 = ((c : Int) : ZMod q))
    (hG : ∀ xy ∈ shares, G.eval ((xy.1 : Int) : ZMod q) = ((xy.2 : Int) : ZMod q)) :
    ∃ poly : polynomial, (drawable c (q : Int) ((t : Int) - 1) poly ∧
      consistent (q : Int) poly shares) ∧
      ∀ i, ((poly.coefficients.getD i 0 : Int) : ZMod q) = G.coeff i := by
  have hq : q.Prime := Fact.out
  have hqpos : (0 : Int) < q := by exact_mod_cast hq.pos
  obtain ⟨cs, hlen, hrange, hcoeff, heval⟩ := exists_coefficients_of_poly q G t hdeg
  have hcs : cs ≠ [] := by
    intro h; rw [h] at hlen; simp at hlen; omega
  refine ⟨⟨cs⟩, ⟨?_, ?_⟩, hcoeff⟩
  · rw [drawable_iff c q t ht]
    refine ⟨hqpos, hlen, ?_, fun i _ hi => hrange i hi, ?_⟩
    · have h1 := emod_eq_of_cast_eq q (cs.getD 0 0) c hc
        (by rw [hcoeff 0, coeff_zero_eq_eval_zero, h0])
      have h2 := hrange 0 (by omega)
      rw [Int.emod_eq_of_lt h2.1 h2.2] at h1
      exact h1
    · intro h
      apply hlast
      rw [← hcoeff (t - 1)]
      simp only at h
      rw [h, Int.cast_zero]
  · rw [consistent_iff q ⟨cs⟩ hcs G heval shares hval]
    intro xy hxy
    exact (hG xy hxy).symm

/-- With at most `t - 2` shares every secret is consistent with them. -/
theorem exists_drawable_consistent (q : Nat) [Fact q.Prime] (t : Nat)
    (shares : List (Int × Int)) (hk : shares.length + 2 ≤ t)
    (hnd : ((0 :: shares.map Prod.fst).map (Int.cast : Int → ZMod q)).Nodup)
    (hval : ∀ xy ∈ shares, 0 ≤ xy.2 ∧ xy.2 < (q : Int))
    (c : Int) (hc : 0 ≤ c ∧ c < (q : Int)) :
    ∃ poly : polynomial, drawable c (q : Int) ((t : Int) - 1) poly ∧
      consistent (q : Int) poly shares := by
  have hpts : ((((0 : ZMod q), ((c : Int) : ZMod q)) :: shares.map (fun xy =>
      (((xy.1 : Int) : ZMod q), ((xy.2 : Int) : ZMod q)))).map Prod.fst).Nodup := by
    simp only [List.map_cons, List.map_map] at hnd ⊢
    simpa [Function.comp] using hnd
  obtain ⟨G, hdeg, hlast, hG⟩ := exists_full_degree_poly q _ hpts t
    (by simp only [List.length_cons, List.length_map]; omega)
  obtain ⟨poly, hpoly, _⟩ := drawable_of_poly q t (by omega) shares hval c hc G hdeg hlast
    (hG (0, (c : ZMod q)) (List.mem_cons_self _ _))
    (fun xy hxy => hG (((xy.1 : Int) : ZMod q), ((xy.2 : Int) : ZMod q))
      (List.mem_cons_of_mem _ (List.mem_map_of_mem _ hxy)))
  exact ⟨poly, hpoly⟩

open Polynomial in
/-- With at most `t - 2` shares the drawable polynomials consistent with them are equally
many for any two secrets. -/
theorem ncard_drawable_eq (q : Nat) [Fact q.Prime] (t : Nat)
    (shares : List (Int × Int)) (hk : shares.length + 2 ≤ t)
    (hnd : ((0 :: shares.map Prod.fst).map (Int.cast : Int → ZMod q)).Nodup)
    (hval : ∀ xy ∈ shares, 0 ≤ xy.2 ∧ xy.2 < (q : Int))
    (c c2 : Int) (hc : 0 ≤ c ∧ c < (q : Int)) (hc2 : 0 ≤ c2 ∧ c2 < (q : Int)) :
    Set.ncard {poly : polynomial | drawable c (q : Int) ((t : Int) - 1) poly ∧
        consistent (q : Int) poly shares}
      = Set.ncard {poly : polynomial | drawable c2 (q : Int) ((t : Int) - 1) poly ∧
        consistent (q : Int) poly shares} := by
  have hq : q.Prime := Fact.out
  haveI : NeZero q := ⟨hq.pos.ne'⟩
  have ht : 2 ≤ t := by omega
  have hpts : ((((0 : ZMod q), ((c2 : Int) : ZMod q) - ((c : Int) : ZMod q)) ::
      shares.map (fun xy => (((xy.1 : Int) : ZMod q), (0 : ZMod q)))).map Prod.fst).Nodup := by
    simp only [List.map_cons, List.map_map] at hnd ⊢
    simpa [Function.comp] using hnd
  obtain ⟨E, hEdeg, hE⟩ := exists_interpolant q _ hpts
  simp only [List.length_cons, List.length_map] at hEdeg
  have hEt : E.degree < (t : WithBot Nat) :=
    lt_of_lt_of_le hEdeg (by exact_mod_cast (by omega : shares.length + 1 ≤ t))
  have hElast : E.coeff (t - 1) = 0 :=
    coeff_eq_zero_of_degree_lt
      (lt_of_lt_of_le hEdeg (by exact_mod_cast (by omega : shares.length + 1 ≤ t - 1)))
  have hE0 : E.coeff 0 = ((c2 : Int) : ZMod q) - ((c : Int) : ZMod q) := by
    rw [coeff_zero_eq_eval_zero]
    exact hE (0, _) (List.mem_cons_self _ _)
  have hEz : ∀ xy ∈ shares, E.eval ((xy.1 : Int) : ZMod q) = 0 := fun xy hxy =>
    hE (((xy.1 : Int) : ZMod q), 0) (List.mem_cons_of_mem _ (List.mem_map_of_mem _ hxy))
  have he : ∀ i, ((((E.coeff i).val : Int) : Int) : ZMod q) = E.coeff i := by
    intro i; simp
  have he2 : ∀ i, (((((-E).coeff i).val : Int) : Int) : ZMod q) = (-E).coeff i := by
    intro i; simp
  have hsum : ∀ i, (((E.coeff i).val : Int) + (((-E).coeff i).val : Int)) % (q : Int) = 0 := by
    intro i
    apply emod_eq_of_cast_eq q _ 0 ⟨le_refl 0, by exact_mod_cast hq.pos⟩
    push_cast
    rw [ZMod.natCast_zmod_val, ZMod.natCast_zmod_val, coeff_neg]
    ring
  have hsum2 : ∀ i, ((((-E).coeff i).val : Int) + ((E.coeff i).val : Int)) % (q : Int) = 0 := by
    intro i; rw [add_comm]; exact hsum i
  have hrangeOf : ∀ (d : Int), 0 ≤ d ∧ d < (q : Int) → ∀ poly : polynomial,
      drawable d (q : Int) ((t : Int) - 1) poly →
      poly.coefficients.length = t ∧ ∀ i, i < t →
        0 ≤ poly.coefficients.getD i 0 ∧ poly.coefficients.getD i 0 < (q : Int) := by
    intro d hd poly hp
    obtain ⟨_, hlen, h0, hrange, _⟩ := (drawable_iff d q t ht poly).mp hp
    refine ⟨hlen, fun i hi => ?_⟩
    rcases Nat.eq_zero_or_pos i with h | h
    · subst h; rw [h0]; exact hd
    · exact hrange i h hi
  apply Set.ncard_congr (fun poly _ => shiftBy (fun i => ((E.coeff i).val : Int)) (q : Int) t poly)
  · intro poly hpoly
    exact shiftBy_mem q t ht shares hval E hEt hElast hEz _ he c c2 hc2
      (by rw [hE0]; ring) poly hpoly
  · intro a b ha hb hab
    have h1 := shiftBy_cancel q t (fun i => ((E.coeff i).val : Int))
      (fun i => (((-E).coeff i).val : Int)) hsum a (hrangeOf c hc a ha.1).1 (hrangeOf c hc a ha.1).2
    have h2 := shiftBy_cancel q t (fun i => ((E.coeff i).val : Int))
      (fun i => (((-E).coeff i).val : Int)) hsum b (hrangeOf c hc b hb.1).1 (hrangeOf c hc b hb.1).2
    rw [← h1, ← h2]
    exact congrArg _ hab
  · intro b hb
    refine ⟨shiftBy (fun i => (((-E).coeff i).val : Int)) (q : Int) t b, ?_, ?_⟩
    · exact shiftBy_mem q t ht shares hval (-E) (by rw [degree_neg]; exact hEt)
        (by rw [coeff_neg, hElast, neg_zero])
        (fun xy hxy => by rw [eval_neg, hEz xy hxy, neg_zero]) _ he2 c2 c hc
        (by rw [coeff_neg, hE0]; ring) b hb
    · exact shiftBy_cancel q t (fun i => (((-E).coeff i).val : Int))
        (fun i => ((E.coeff i).val : Int)) hsum2 b (hrangeOf c2 hc2 b hb.1).1
        (hrangeOf c2 hc2 b hb.1).2

open Polynomial in
/-- A drawable polynomial consistent with the shares, as a polynomial over `ZMod q`. -/
theorem poly_of_drawable (q : Nat) [Fact q.Prime] (t : Nat) (ht : 2 ≤ t)
    (shares : List (Int × Int)) (hval : ∀ xy ∈ shares, 0 ≤ xy.2 ∧ xy.2 < (q : Int))
    (c : Int) (hc : 0 ≤ c ∧ c < (q : Int)) (poly : polynomial)
    (hpoly : drawable c (q : Int) ((t : Int) - 1) poly ∧ consistent (q : Int) poly shares) :
    ∃ f : (ZMod q)[X], f.degree < (t : WithBot Nat) ∧ f.coeff (t - 1) ≠ 0 ∧
      f.eval 0 = ((c : Int) : ZMod q) ∧
      (∀ xy ∈ shares, f.eval ((xy.1 : Int) : ZMod q) = ((xy.2 : Int) : ZMod q)) ∧
      (∀ i, ((poly.coefficients.getD i 0 : Int) : ZMod q) = f.coeff i) ∧
      poly.coefficients.length = t ∧
      ∀ i, i < t → 0 ≤ poly.coefficients.getD i 0 ∧ poly.coefficients.getD i 0 < (q : Int) := by
  obtain ⟨hd, hcons⟩ := hpoly
  obtain ⟨_, hlen, h0, hrange, hlast⟩ := (drawable_iff c q t ht poly).mp hd
  have hcs : poly.coefficients ≠ [] := by
    intro h; rw [h] at hlen; simp at hlen; omega
  obtain ⟨f, hdeg, hfc, hfe⟩ := exists_poly_of_coefficients q poly.coefficients
  rw [hlen] at hdeg
  refine ⟨f, hdeg, ?_, ?_, ?_, fun i => (hfc i).symm, hlen, ?_⟩
  · intro h
    rw [hfc (t - 1)] at h
    have hr := hrange (t - 1) (by omega) (by omega)
    have h1 := emod_eq_of_cast_eq q (poly.coefficients.getD (t - 1) 0) 0
      ⟨le_refl 0, lt_of_le_of_lt hr.1 hr.2⟩ (by rw [h, Int.cast_zero])
    rw [Int.emod_eq_of_lt hr.1 hr.2] at h1
    exact hlast h1
  · rw [← coeff_zero_eq_eval_zero, hfc 0, h0]
  · intro xy hxy
    exact ((consistent_iff q poly hcs f hfe shares hval).mp hcons xy hxy).symm
  · intro i hi
    rcases Nat.eq_zero_or_pos i with h | h
    · subst h; rw [h0]; exact hc
    · exact hrange i h hi

open Polynomial in
/-- With exactly `t - 1` shares: `lagrange` on them returns some `L`, no drawable
polynomial with constant `L` is consistent with the shares, and for every other secret
exactly one is. -/
theorem ncard_drawable_threshold_minus_one (q : Nat) [Fact q.Prime] (t : Nat) (ht : 2 ≤ t)
    (shares : List (Int × Int)) (hk : shares.length + 1 = t)
    (hnd : ((0 :: shares.map Prod.fst).map (Int.cast : Int → ZMod q)).Nodup)
    (hval : ∀ xy ∈ shares, 0 ≤ xy.2 ∧ xy.2 < (q : Int)) :
    ∃ L, lagrange shares (q : Int) = .ok L ∧ 0 ≤ L ∧ L < (q : Int) ∧
      ∀ c : Int, 0 ≤ c ∧ c < (q : Int) →
        Set.ncard {poly : polynomial | drawable c (q : Int) ((t : Int) - 1) poly ∧
          consistent (q : Int) poly shares} = if c = L then 0 else 1 := by
  have hndS : ((shares.map Prod.fst).map (Int.cast : Int → ZMod q)).Nodup := by
    simp only [List.map_cons] at hnd
    exact (List.nodup_cons.mp hnd).2
  have hptsS : ((shares.map (fun xy => (((xy.1 : Int) : ZMod q),
      ((xy.2 : Int) : ZMod q)))).map Prod.fst).Nodup := by
    simp only [List.map_map] at hndS ⊢
    simpa [Function.comp] using hndS
  have hnodes : (((0 : ZMod q)) :: (shares.map Prod.fst).map (Int.cast : Int → ZMod q)).Nodup := by
    simpa using hnd
  have hnlen : (((0 : ZMod q)) :: (shares.map Prod.fst).map (Int.cast : Int → ZMod q)).length
      = t := by
    simp only [List.length_cons, List.length_map]; exact hk
  obtain ⟨h, hhdeg, hh⟩ := exists_interpolant q _ hptsS
  simp only [List.length_map] at hhdeg
  have hhS : ∀ xy ∈ shares, h.eval ((xy.1 : Int) : ZMod q) = ((xy.2 : Int) : ZMod q) :=
    fun xy hxy => hh (((xy.1 : Int) : ZMod q), ((xy.2 : Int) : ZMod q))
      (List.mem_map_of_mem _ hxy)
  obtain ⟨L, hL, hL0, hLq, hLc⟩ := lagrange_eq_eval_zero q shares hndS h hhdeg
    (fun xy hxy => (hhS xy hxy).symm)
  have hht : h.degree < (t : WithBot Nat) :=
    lt_of_lt_of_le hhdeg (by exact_mod_cast (by omega : shares.length ≤ t))
  have hhlast : h.coeff (t - 1) = 0 :=
    coeff_eq_zero_of_degree_lt
      (lt_of_lt_of_le hhdeg (by exact_mod_cast (by omega : shares.length ≤ t - 1)))
  refine ⟨L, hL, hL0, hLq, ?_⟩
  intro c hc
  by_cases hcL : c = L
  · rw [if_pos hcL]
    have hempty : {poly : polynomial | drawable c (q : Int) ((t : Int) - 1) poly ∧
        consistent (q : Int) poly shares} = ∅ := by
      apply Set.eq_empty_of_forall_not_mem
      intro poly hpoly
      obtain ⟨f, hfdeg, hflast, hf0, hfS, _, _, _⟩ :=
        poly_of_drawable q t ht shares hval c hc poly hpoly
      have hfh : f = h := by
        apply poly_eq_of_eval_eq q _ hnodes f h (by rw [hnlen]; exact hfdeg)
          (by rw [hnlen]; exact hht)
        intro x hx
        rcases List.mem_cons.mp hx with rfl | hx
        · rw [hf0, hcL, hLc]
        · obtain ⟨k, hk1, rfl⟩ := List.mem_map.mp hx
          obtain ⟨xy, hxy, rfl⟩ := List.mem_map.mp hk1
          rw [hfS xy hxy, hhS xy hxy]
      exact hflast (by rw [hfh]; exact hhlast)
    rw [hempty, Set.ncard_empty]
  · rw [if_neg hcL]
    have hptsG : ((((0 : ZMod q), ((c : Int) : ZMod q)) :: shares.map (fun xy =>
        (((xy.1 : Int) : ZMod q), ((xy.2 : Int) : ZMod q)))).map Prod.fst).Nodup := by
      simp only [List.map_cons, List.map_map] at hnd ⊢
      simpa [Function.comp] using hnd
    obtain ⟨G, hGdeg, hG⟩ := exists_interpolant q _ hptsG
    simp only [List.length_cons, List.length_map, hk] at hGdeg
    have hG0 : G.eval 0 = ((c : Int) : ZMod q) := hG (0, (c : ZMod q)) (List.mem_cons_self _ _)
    have hGS : ∀ xy ∈ shares, G.eval ((xy.1 : Int) : ZMod q) = ((xy.2 : Int) : ZMod q) :=
      fun xy hxy => hG (((xy.1 : Int) : ZMod q), ((xy.2 : Int) : ZMod q))
        (List.mem_cons_of_mem _ (List.mem_map_of_mem _ hxy))
    have hGlast : G.coeff (t - 1) ≠ 0 := by
      intro hz
      have hGk : G.degree < (shares.length : WithBot Nat) := by
        rw [degree_lt_iff_coeff_zero]
        intro i hi
        rcases Nat.eq_or_lt_of_le hi with heq | hlt
        · have : i = t - 1 := by omega
          rw [this]; exact hz
        · exact coeff_eq_zero_of_degree_lt
            (lt_of_lt_of_le hGdeg (by exact_mod_cast (by omega : t ≤ i)))
      have hGh : G = h := by
        apply poly_eq_of_eval_eq q _ hndS G h (by rw [List.length_map, List.length_map]; exact hGk)
          (by rw [List.length_map, List.length_map]; exact hhdeg)
        intro x hx
        obtain ⟨k, hk1, rfl⟩ := List.mem_map.mp hx
        obtain ⟨xy, hxy, rfl⟩ := List.mem_map.mp hk1
        rw [hGS xy hxy, hhS xy hxy]
      apply hcL
      have h1 := emod_eq_of_cast_eq q c L ⟨hL0, hLq⟩ (by rw [← hG0, hGh, hLc])
      rw [Int.emod_eq_of_lt hc.1 hc.2] at h1
      exact h1
    obtain ⟨poly0, hpoly0, hcoeff0⟩ := drawable_of_poly q t ht shares hval c hc G hGdeg hGlast
      hG0 hGS
    have hsingle : {poly : polynomial | drawable c (q : Int) ((t : Int) - 1) poly ∧
        consistent (q : Int) poly shares} = {poly0} := by
      apply Set.eq_singleton_iff_unique_mem.mpr
      refine ⟨hpoly0, ?_⟩
      intro poly hpoly
      obtain ⟨f, hfdeg, _, hf0, hfS, hfc, hflen, hfr⟩ :=
        poly_of_drawable q t ht shares hval c hc poly hpoly
      obtain ⟨_, _, _, _, _, _, hlen0, hr0⟩ :=
        poly_of_drawable q t ht shares hval c hc poly0 hpoly0
      have hfG : f = G := by
        apply poly_eq_of_eval_eq q _ hnodes f G (by rw [hnlen]; exact hfdeg)
          (by rw [hnlen]; exact hGdeg)
        intro x hx
        rcases List.mem_cons.mp hx with rfl | hx
        · rw [hf0, hG0]
        · obtain ⟨k, hk1, rfl⟩ := List.mem_map.mp hx
          obtain ⟨xy, hxy, rfl⟩ := List.mem_map.mp hk1
          rw [hfS xy hxy, hGS xy hxy]
      obtain ⟨cs⟩ := poly
      obtain ⟨cs0⟩ := poly0
      simp only [polynomial.mk.injEq]
      simp only at hfc hflen hfr hcoeff0 hlen0 hr0
      apply list_eq_of_getD cs cs0 t hflen hlen0
      intro i hi
      have h1 := emod_eq_of_cast_eq q (cs.getD i 0) (cs0.getD i 0) (hr0 i hi)
        (by rw [hfc i, hfG, hcoeff0 i])
      rw [Int.emod_eq_of_lt (hfr i hi).1 (hfr i hi).2] at h1
      exact h1
    rw [hsingle, Set.ncard_singleton]

/-- Share indices in `1..n`, `n` a machine integer, are distinct from 0 and from each other
modulo 2^127 - 1. -/
theorem nodup_indices_cast (n : Int) (hn : n ≤ maxInt) (shares : List (Int × Int))
    (hdistinct : (shares.map Prod.fst).Nodup) (hidx : ∀ xy ∈ shares, 1 ≤ xy.1 ∧ xy.1 ≤ n) :
    ((0 :: shares.map Prod.fst).map (Int.cast : Int → ZMod (2 ^ 127 - 1))).Nodup := by
  have hmem : ∀ a ∈ (0 :: shares.map Prod.fst), minInt ≤ a ∧ a ≤ maxInt := by
    intro a ha
    rcases List.mem_cons.mp ha with rfl | ha
    · unfold minInt maxInt; norm_num
    · obtain ⟨xy, hxy, rfl⟩ := List.mem_map.mp ha
      have := hidx xy hxy
      unfold minInt
      omega
  apply List.Nodup.map_on
  · intro a ha b hb hab
    exact int_eq_of_cast_eq a b (hmem a ha) (hmem b hb) hab
  · rw [List.nodup_cons]
    refine ⟨?_, hdistinct⟩
    intro h0
    obtain ⟨xy, hxy, h1⟩ := List.mem_map.mp h0
    have := hidx xy hxy
    omega

/-! ## Lemmas on what fewer than `t` shares determine -/

theorem head?_eq_getD (l : List Int) (h : l ≠ []) : l.head? = some (l.getD 0 0) := by
  cases l with
  | nil => exact absurd rfl h
  | cons a rest => rfl

theorem getLast?_eq_getD (l : List Int) (h : l ≠ []) :
    l.getLast? = some (l.getD (l.length - 1) 0) := by
  have hlt : l.length - 1 < l.length := by
    have := List.length_pos.mpr h
    omega
  rw [List.getLast?_eq_getElem?, List.getD_eq_getElem?_getD, List.getElem?_eq_getElem hlt]
  rfl

theorem forall_mem_of_getD (l : List Int) (P : Int → Prop)
    (h : ∀ i, i < l.length → P (l.getD i 0)) : ∀ a ∈ l, P a := by
  intro a ha
  obtain ⟨i, hi, rfl⟩ := List.getElem_of_mem ha
  have := h i hi
  rw [List.getD_eq_getElem?_getD, List.getElem?_eq_getElem hi] at this
  exact this

/-- A coefficient list of length `t ≥ 2` with entries in `[0, modulus)` and non-zero last
entry is one that `generateRandomPolynomial` can return for its first entry. -/
theorem drawable_of_coefficients (modulus : Int) (t : Nat) (ht : 2 ≤ t)
    (coefficients : List Int) (hlen : coefficients.length = t)
    (hrange : ∀ c ∈ coefficients, 0 ≤ c ∧ c < modulus)
    (hlast : coefficients.getLast? ≠ some 0) :
    drawable (coefficients.getD 0 0) modulus ((t : Int) - 1) ⟨coefficients⟩ := by
  have hcs : coefficients ≠ [] := by
    intro h; rw [h] at hlen; simp at hlen; omega
  rw [drawable_iff _ _ t ht]
  have h0 := hrange _ (getD_mem coefficients 0 (by omega))
  refine ⟨by omega, hlen, rfl, ?_, ?_⟩
  · intro i _ hi
    exact hrange _ (getD_mem coefficients i (by omega))
  · intro h
    apply hlast
    rw [getLast?_eq_getD coefficients hcs, hlen]
    simp only at h
    rw [h]

/-- The share values of a polynomial at given indices, as points. -/
theorem exists_points_on_poly (modulus : Int) (hm : 0 < modulus) (coefficients : List Int)
    (hcs : coefficients ≠ []) (xs : List Int) :
    ∃ points : List (Int × Int), points.map Prod.fst = xs ∧
      (∀ xy ∈ points, evaluatePolynomial xy.1 modulus ⟨coefficients⟩ = .ok xy.2) ∧
      ∀ xy ∈ points, 0 ≤ xy.2 ∧ xy.2 < modulus := by
  refine ⟨xs.map (fun x =>
    (x, (coefficients.foldr (fun c acc => acc * x + c) 0) % modulus)), ?_, ?_, ?_⟩
  · rw [List.map_map]
    exact List.map_id xs
  · intro xy hxy
    obtain ⟨x, _, rfl⟩ := List.mem_map.mp hxy
    exact evaluatePolynomial_eq x modulus coefficients hcs (by omega)
  · intro xy hxy
    obtain ⟨x, _, rfl⟩ := List.mem_map.mp hxy
    exact ⟨Int.emod_nonneg _ (by omega), Int.emod_lt_of_pos _ hm⟩

theorem values_in_range (modulus : Int) (hm : 0 < modulus) (poly : polynomial)
    (points : List (Int × Int))
    (hval : ∀ xy ∈ points, evaluatePolynomial xy.1 modulus poly = .ok xy.2) :
    ∀ xy ∈ points, 0 ≤ xy.2 ∧ xy.2 < modulus := by
  intro xy hxy
  have h := hval xy hxy
  unfold evaluatePolynomial at h
  split at h
  · cases h
  · rw [if_neg (by omega)] at h
    rw [← Except.ok.inj h]
    exact ⟨Int.emod_nonneg _ (by omega), Int.emod_lt_of_pos _ hm⟩

/-- The value that `lagrange` returns on `t - 1` points of a polynomial that
`generateRandomPolynomial` can return is not its constant term. -/
theorem lagrange_ne_constant (t : Nat) (ht : 2 ≤ t) (n : Int) (hn : n ≤ maxInt) (c : Int)
    (hc : 0 ≤ c ∧ c < 2 ^ 127 - 1) (poly : polynomial)
    (hpoly : drawable c (2 ^ 127 - 1) ((t : Int) - 1) poly)
    (points : List (Int × Int)) (hcard : points.length + 1 = t)
    (hdistinct : (points.map Prod.fst).Nodup)
    (hidx : ∀ xy ∈ points, 1 ≤ xy.1 ∧ xy.1 ≤ n)
    (hval : consistent (2 ^ 127 - 1) poly points) :
    ∃ L, lagrange points (2 ^ 127 - 1) = .ok L ∧ 0 ≤ L ∧ L < 2 ^ 127 - 1 ∧ L ≠ c ∧
      ∀ c2 : Int, 0 ≤ c2 ∧ c2 < 2 ^ 127 - 1 → c2 ≠ L →
        ∃ poly2, drawable c2 (2 ^ 127 - 1) ((t : Int) - 1) poly2 ∧
          consistent (2 ^ 127 - 1) poly2 points := by
  haveI : Fact (Nat.Prime (2 ^ 127 - 1)) := ⟨prime_modulus⟩
  have hnd := nodup_indices_cast n hn points hdistinct hidx
  have hrange := values_in_range (2 ^ 127 - 1) (by norm_num) poly points hval
  rw [modulus_cast] at hrange hc hpoly hval ⊢
  obtain ⟨L, hL, hL0, hLq, hcount⟩ :=
    ncard_drawable_threshold_minus_one (2 ^ 127 - 1) t ht points hcard hnd hrange
  refine ⟨L, hL, hL0, hLq, ?_, ?_⟩
  · intro hLc
    have h1 := hcount c hc
    rw [if_pos hLc.symm] at h1
    have hfin := finite_drawable (2 ^ 127 - 1) t ht c hc points
    have hempty := (Set.ncard_eq_zero hfin).mp h1
    have hmem : poly ∈ {poly : polynomial |
        drawable c ((2 ^ 127 - 1 : Nat) : Int) ((t : Int) - 1) poly ∧
        consistent ((2 ^ 127 - 1 : Nat) : Int) poly points} := ⟨hpoly, hval⟩
    rw [hempty] at hmem
    exact hmem
  · intro c2 hc2 hne
    have h1 := hcount c2 hc2
    rw [if_neg hne] at h1
    have hne0 : Set.ncard {poly : polynomial |
        drawable c2 ((2 ^ 127 - 1 : Nat) : Int) ((t : Int) - 1) poly ∧
        consistent ((2 ^ 127 - 1 : Nat) : Int) poly points} ≠ 0 := by
      rw [h1]; exact one_ne_zero
    obtain ⟨poly2, hp2⟩ := Set.nonempty_of_ncard_ne_zero hne0
    exact ⟨poly2, hp2.1, hp2.2⟩

/-- Fewer than `t` points of a polynomial that `generateRandomPolynomial` can return are
also on one that it can return for some other secret. -/
theorem exists_other_drawable (t : Nat) (ht : 2 ≤ t) (n : Int) (hn : n ≤ maxInt) (c : Int)
    (hc : 0 ≤ c ∧ c < 2 ^ 127 - 1) (poly : polynomial)
    (hpoly : drawable c (2 ^ 127 - 1) ((t : Int) - 1) poly)
    (points : List (Int × Int)) (hcard : points.length < t)
    (hdistinct : (points.map Prod.fst).Nodup)
    (hidx : ∀ xy ∈ points, 1 ≤ xy.1 ∧ xy.1 ≤ n)
    (hval : consistent (2 ^ 127 - 1) poly points) :
    ∃ c2 poly2, c2 ≠ c ∧ 0 ≤ c2 ∧ c2 < 2 ^ 127 - 1 ∧
      drawable c2 (2 ^ 127 - 1) ((t : Int) - 1) poly2 ∧
      consistent (2 ^ 127 - 1) poly2 points := by
  by_cases hk : points.length + 1 = t
  · obtain ⟨L, _, _, _, _, hother⟩ :=
      lagrange_ne_constant t ht n hn c hc poly hpoly points hk hdistinct hidx hval
    have hex : ∃ c2 : Int, c2 ≠ c ∧ c2 ≠ L ∧ 0 ≤ c2 ∧ c2 < 2 ^ 127 - 1 := by
      by_cases h0 : (0 : Int) ≠ c ∧ (0 : Int) ≠ L
      · exact ⟨0, h0.1, h0.2, by norm_num, by norm_num⟩
      · by_cases h1 : (1 : Int) ≠ c ∧ (1 : Int) ≠ L
        · exact ⟨1, h1.1, h1.2, by norm_num, by norm_num⟩
        · refine ⟨2, ?_, ?_, by norm_num, by norm_num⟩ <;> omega
    obtain ⟨c2, h1, h2, h3, h4⟩ := hex
    obtain ⟨poly2, hd, hcons⟩ := hother c2 ⟨h3, h4⟩ h2
    exact ⟨c2, poly2, h1, h3, h4, hd, hcons⟩
  · haveI : Fact (Nat.Prime (2 ^ 127 - 1)) := ⟨prime_modulus⟩
    have hnd := nodup_indices_cast n hn points hdistinct hidx
    have hrange := values_in_range (2 ^ 127 - 1) (by norm_num) poly points hval
    have hex : ∃ c2 : Int, c2 ≠ c ∧ 0 ≤ c2 ∧ c2 < 2 ^ 127 - 1 := by
      by_cases h0 : (0 : Int) ≠ c
      · exact ⟨0, h0, by norm_num, by norm_num⟩
      · refine ⟨1, ?_, by norm_num, by norm_num⟩
        omega
    obtain ⟨c2, h1, h3, h4⟩ := hex
    rw [modulus_cast] at hrange h4 ⊢
    obtain ⟨poly2, hd, hcons⟩ := exists_drawable_consistent (2 ^ 127 - 1) t points
      (by omega) hnd hrange c2 ⟨h3, h4⟩
    exact ⟨c2, poly2, h1, h3, h4, hd, hcons⟩

/-! ## Lemmas on the chunk boundaries -/

/-- The result of `splitStringIntoChunks` for a chunk length `k ≥ 1`: `len(s) / k` chunks of
length `k`, followed by the rest of `s` when `k` does not divide `len(s)`. -/
theorem splitStringIntoChunks_shape (s : GoString) (k : Nat) (hk : 1 ≤ k) :
    ∃ full : List GoString, full.length = s.length / k ∧ (∀ c ∈ full, c.length = k) ∧
      splitStringIntoChunks s (k : Int)
        = .ok (if s.length % k = 0 then full else full ++ [s.drop (full.length * k)]) := by
  obtain ⟨out, hout, _, hle, hlt, hall⟩ := splitLoop_spec s k (s.length + 1) []
    (by simp) (by simp) (by simp)
    (by
      simp only [List.length_nil, Nat.zero_mul, Nat.zero_add]
      calc s.length < (s.length + 1) * 1 := by omega
        _ ≤ (s.length + 1) * k := Nat.mul_le_mul_left _ hk)
  simp only [List.length_nil, Nat.zero_mul, Nat.cast_zero] at hout
  have hdiv : out.length = s.length / k := by
    symm
    apply Nat.div_eq_of_lt_le
    · exact hle
    · have : (out.length + 1) * k = out.length * k + k := by ring
      rw [this]
      exact hlt
  refine ⟨out, hdiv, hall, ?_⟩
  unfold splitStringIntoChunks
  rw [hout]
  simp only
  rw [if_neg (by omega)]
  have hmodcast : (s.length : Int) % (k : Int) = ((s.length % k : Nat) : Int) := by
    push_cast; rfl
  by_cases hmod : s.length % k = 0
  · rw [if_neg (by rw [hmodcast, hmod]; simp), if_pos hmod]
  · rw [if_pos (by rw [hmodcast]; exact_mod_cast hmod), if_neg hmod]
    have hrem := Nat.div_add_mod s.length k
    have hlt2 : out.length * k ≤ s.length := hle
    have hs : sliceStr s ((out.length : Int) * (k : Int)) (s.length : Int)
        = .ok (s.drop (out.length * k)) := by
      have := sliceStr_ok s (out.length * k) (s.length - out.length * k) (by omega)
      have hc : (((out.length * k : Nat) : Int) + ((s.length - out.length * k : Nat) : Int))
          = (s.length : Int) := by omega
      rw [hc] at this
      push_cast at this
      rw [this]
      congr 1
      apply List.take_of_length_le
      rw [List.length_drop]
    rw [hs]

theorem ceil_div_eq (len k : Nat) (hk : 1 ≤ k) :
    (len + k - 1) / k = len / k + if len % k = 0 then 0 else 1 := by
  have hrem := Nat.div_add_mod len k
  have hlt := Nat.mod_lt len (by omega : 0 < k)
  apply Nat.div_eq_of_lt_le
  · by_cases h : len % k = 0
    · rw [if_pos h, Nat.add_zero]
      rw [Nat.mul_comm] at hrem
      omega
    · rw [if_neg h]
      have : (len / k + 1) * k = len / k * k + k := by ring
      rw [this]
      rw [Nat.mul_comm] at hrem
      omega
  · by_cases h : len % k = 0
    · rw [if_pos h, Nat.add_zero]
      have : (len / k).succ * k = len / k * k + k := by rw [Nat.succ_eq_add_one]; ring
      rw [this]
      rw [Nat.mul_comm] at hrem
      omega
    · rw [if_neg h]
      have : (len / k + 1).succ * k = len / k * k + k + k := by rw [Nat.succ_eq_add_one]; ring
      rw [this]
      rw [Nat.mul_comm] at hrem
      omega

/-! ## Lemmas on the random draws and on Horner's method -/

theorem finalTerm_ok (l : List Int) (h : ∃ d ∈ l, d ≠ 0) : ∃ num, finalTerm l = .ok num := by
  induction l with
  | nil =>
    obtain ⟨d, hd, _⟩ := h
    simp at hd
  | cons a rest ih =>
    unfold finalTerm
    by_cases ha : a ≠ 0
    · exact ⟨a, by rw [if_pos ha]⟩
    · rw [if_neg ha]
      apply ih
      obtain ⟨d, hd, hne⟩ := h
      rcases List.mem_cons.mp hd with rfl | hd
      · exact absurd hne ha
      · exact ⟨d, hd, hne⟩

theorem finalTerm_append (l extra : List Int) (num : Int) (h : finalTerm l = .ok num) :
    finalTerm (l ++ extra) = .ok num := by
  induction l with
  | nil => simp [finalTerm] at h
  | cons a rest ih =>
    unfold finalTerm at h
    rw [List.cons_append]
    unfold finalTerm
    by_cases ha : a ≠ 0
    · rw [if_pos ha] at h ⊢
      exact h
    · rw [if_neg ha] at h ⊢
      exact ih h

/-- Draws that come after the ones `generateRandomPolynomial` has consumed do not change
its result. -/
theorem generateRandomPolynomial_append (constant modulus degree : Int) (draws extra : List Int)
    (poly : polynomial)
    (h : generateRandomPolynomial constant modulus degree draws = .ok poly) :
    generateRandomPolynomial constant modulus degree (draws ++ extra) = .ok poly := by
  unfold generateRandomPolynomial at h ⊢
  by_cases hm : modulus ≤ 0
  · rw [if_pos hm] at h; cases h
  rw [if_neg hm] at h ⊢
  simp only at h ⊢
  by_cases hl : draws.length < (degree - 1).toNat
  · rw [if_pos hl] at h; cases h
  rw [if_neg hl] at h
  rw [if_neg (by rw [List.length_append]; omega)]
  cases hf : finalTerm (draws.drop (degree - 1).toNat) with
  | error e => rw [hf] at h; cases h
  | ok num =>
    rw [hf] at h
    rw [List.drop_append_of_le_length (by omega), finalTerm_append _ extra num hf,
      List.take_append_of_le_length (by omega)]
    exact h

/-- Horner's fold is the sum of the monomials. -/
theorem horner_eq_sum (cs : List Int) (x : Int) :
    cs.foldr (fun c acc => acc * x + c) 0
      = ((List.range cs.length).map (fun i => cs.getD i 0 * x ^ i)).sum := by
  induction cs with
  | nil => simp
  | cons c rest ih =>
    rw [List.foldr_cons, ih, List.length_cons, List.range_succ_eq_map, List.map_cons,
      List.sum_cons, List.map_map]
    have h1 : ((fun i => (c :: rest).getD i 0 * x ^ i) ∘ Nat.succ)
        = fun i => (rest.getD i 0 * x ^ i) * x := by
      funext i
      simp only [Function.comp, List.getD_cons_succ, pow_succ]
      ring
    rw [h1, List.sum_map_mul_right]
    simp only [List.getD_cons_zero, pow_zero, mul_one]
    ring

theorem shares_in_range (modulus : Int) (hm : 0 < modulus) (poly : polynomial) (k : Nat)
    (shares : List Int) (h : sharesUpTo modulus poly k = .ok shares) :
    ∀ y ∈ shares, 0 ≤ y ∧ y < modulus := by
  obtain ⟨hlen, hget⟩ := sharesUpTo_spec modulus poly k shares h
  apply forall_mem_of_getD
  intro i hi
  have h1 := hget i (by omega)
  exact values_in_range modulus hm poly [((i : Int) + 1, shares.getD i 0)]
    (by intro xy hxy; rw [List.mem_singleton.mp hxy]; exact h1) _ (List.mem_singleton_self _)

/-! ## Lemmas on the modular inverse, on the bytes of a number and on the loop orders -/

theorem modInverse_of_exists (g n : Int) (h : modInverseExists g n = true) :
    modInverse g n
      = (Nat.gcdA (if g < 0 then g % (n.natAbs : Int) else g).natAbs n.natAbs) % (n.natAbs : Int) := by
  unfold modInverseExists at h
  simp only [decide_eq_true_eq] at h
  unfold modInverse
  simp only
  rw [if_pos h]

theorem setBytes_natBytes (v : Nat) :
    (natBytes v).foldl (fun acc x => acc * 256 + x.val) 0 = v := by
  induction v using Nat.strong_induction_on with
  | _ v ih =>
    by_cases hv : v = 0
    · subst hv
      rw [natBytes_zero]
      rfl
    · have hlt : v % 256 < 256 := Nat.mod_lt _ (by decide)
      have hdm := Nat.div_add_mod v 256
      have hstep := natBytes_step (v / 256) ⟨v % 256, hlt⟩ (by simp only; omega)
      have hval : v / 256 * 256 + v % 256 = v := by omega
      simp only [hval] at hstep
      rw [hstep, List.foldl_append, ih (v / 256) (by omega)]
      simp only [List.foldl_cons, List.foldl_nil]
      exact hval

theorem natBytes_head (v : Nat) : (natBytes v).head? ≠ some 0 := by
  have h := natBytes_setBytes (natBytes v)
  rw [setBytes_natBytes] at h
  intro hhead
  cases hl : natBytes v with
  | nil => rw [hl] at hhead; cases hhead
  | cons a rest =>
    rw [hl] at hhead h
    simp only [List.head?_cons, Option.some.injEq] at hhead
    subst hhead
    have hlen := congrArg List.length h
    simp only [List.dropWhile, decide_True, List.length_cons] at hlen
    have := (List.dropWhile_sublist (l := rest) (fun b : Byte => decide (b = 0))).length_le
    omega

theorem emod_mul_emod_left (a b m : Int) : (a % m * b) % m = (a * b) % m := by
  rw [Int.mul_emod, Int.emod_emod, ← Int.mul_emod]

/-- The inner loop of `lagrange` in closed form: 1 when there is no other key, else the
product of the factors reduced once. -/
theorem lagrangeProd_eq (keys : List Int) (x modulus : Int) :
    lagrangeProd keys x modulus
      = if (keys.filter (fun m => decide (m ≠ x))) = [] then 1
        else (((keys.filter (fun m => decide (m ≠ x))).map
          (fun m => m * modInverse (m - x) modulus)).prod) % modulus := by
  unfold lagrangeProd
  have key : ∀ acc : Int,
      keys.foldl (fun prod m => if m = x then prod
          else (prod * (m * modInverse (m - x) modulus)) % modulus) acc
        = if (keys.filter (fun m => decide (m ≠ x))) = [] then acc
          else (acc * ((keys.filter (fun m => decide (m ≠ x))).map
            (fun m => m * modInverse (m - x) modulus)).prod) % modulus := by
    induction keys with
    | nil => intro acc; simp
    | cons k rest ih =>
      intro acc
      rw [List.foldl_cons]
      by_cases hk : k = x
      · rw [if_pos hk, ih acc]
        simp [hk]
      · rw [if_neg hk, ih]
        have hf : (k :: rest).filter (fun m => decide (m ≠ x))
            = k :: rest.filter (fun m => decide (m ≠ x)) := by
          simp [List.filter_cons, hk]
        rw [hf, if_neg (List.cons_ne_nil _ _), List.map_cons, List.prod_cons]
        by_cases hr : rest.filter (fun m => decide (m ≠ x)) = []
        · rw [if_pos hr, hr]
          simp
        · rw [if_neg hr, emod_mul_emod_left, mul_assoc]
  have := key 1
  simpa using this

theorem lagrangeProd_perm (l1 l2 : List Int) (h : l1.Perm l2) (x modulus : Int) :
    lagrangeProd l1 x modulus = lagrangeProd l2 x modulus := by
  rw [lagrangeProd_eq, lagrangeProd_eq]
  have hf := h.filter (fun m => decide (m ≠ x))
  have hp := (hf.map (fun m => m * modInverse (m - x) modulus)).prod_eq
  have hnil : (l1.filter (fun m => decide (m ≠ x)) = []) ↔
      (l2.filter (fun m => decide (m ≠ x)) = []) := by
    constructor
    · intro h1
      rw [h1] at hf
      exact List.Perm.nil_eq hf |>.symm
    · intro h2
      rw [h2] at hf
      exact List.Perm.eq_nil hf
  by_cases h1 : l1.filter (fun m => decide (m ≠ x)) = []
  · rw [if_pos h1, if_pos (hnil.mp h1)]
  · rw [if_neg h1, if_neg (fun h2 => h1 (hnil.mpr h2)), hp]

theorem foldl_add_eq_sum (l : List (Int × Int)) (g : Int × Int → Int) (acc : Int) :
    l.foldl (fun result xy => result + g xy) acc = acc + (l.map g).sum := by
  induction l generalizing acc with
  | nil => simp
  | cons a rest ih =>
    rw [List.foldl_cons, ih, List.map_cons, List.sum_cons]
    ring

/-! ## Lemmas on the decimal text and on the transposition -/

theorem fin_ofNat_val_lt (v : Nat) (h : v < 256) : ((Fin.ofNat v : Byte)).val = v := by
  simp only [Fin.ofNat]
  exact Nat.mod_eq_of_lt h

/-- The digits that `natDigitsAux` puts before `acc`: a non-empty string of decimal digits
whose value is `v`. -/
theorem natDigitsAux_spec (fuel v : Nat) (acc : List Byte) (h : v < fuel) :
    ∃ ds : List Byte, natDigitsAux fuel v acc = ds ++ acc ∧ ds ≠ [] ∧
      ds.all isDigit = true ∧ digitsValue ds = v := by
  induction fuel generalizing v acc with
  | zero => omega
  | succ f ih =>
    unfold natDigitsAux
    by_cases hv : v < 10
    · rw [if_pos hv]
      refine ⟨[Fin.ofNat (48 + v)], rfl, by simp, ?_, ?_⟩
      · simp only [List.all_cons, List.all_nil, Bool.and_true, isDigit,
          fin_ofNat_val_lt (48 + v) (by omega), Bool.and_eq_true, decide_eq_true_eq]
        omega
      · simp only [digitsValue, List.foldl_cons, List.foldl_nil,
          fin_ofNat_val_lt (48 + v) (by omega)]
        omega
    · rw [if_neg hv]
      have hlt : v % 10 < 10 := Nat.mod_lt _ (by decide)
      obtain ⟨ds, hds, hne, hall, hval⟩ := ih (v / 10) (Fin.ofNat (48 + v % 10) :: acc)
        (by omega)
      refine ⟨ds ++ [Fin.ofNat (48 + v % 10)], by rw [hds]; simp, by simp, ?_, ?_⟩
      · rw [List.all_append, hall]
        simp only [List.all_cons, List.all_nil, Bool.and_true, isDigit,
          fin_ofNat_val_lt (48 + v % 10) (by omega), Bool.true_and, Bool.and_eq_true,
          decide_eq_true_eq]
        omega
      · unfold digitsValue at hval ⊢
        rw [List.foldl_append, hval]
        simp only [List.foldl_cons, List.foldl_nil, fin_ofNat_val_lt (48 + v % 10) (by omega)]
        omega

theorem parseDigits_natString (v : Nat) :
    parseDigits (natString v) = some v ∧
      ∃ b rest, natString v = b :: rest ∧ b ≠ 45 ∧ b ≠ 43 := by
  obtain ⟨ds, hds, hne, hall, hval⟩ := natDigitsAux_spec (v + 1) v [] (by omega)
  rw [List.append_nil] at hds
  unfold natString
  rw [hds]
  refine ⟨?_, ?_⟩
  · unfold parseDigits
    rw [if_pos ⟨hne, hall⟩, hval]
  · cases ds with
    | nil => exact absurd rfl hne
    | cons b rest =>
      refine ⟨b, rest, rfl, ?_, ?_⟩
      · intro hb
        subst hb
        simp only [List.all_cons, isDigit, Bool.and_eq_true, decide_eq_true_eq] at hall
        exact absurd hall.1.1 (by decide)
      · intro hb
        subst hb
        simp only [List.all_cons, isDigit, Bool.and_eq_true, decide_eq_true_eq] at hall
        exact absurd hall.1.1 (by decide)

/-- Reading the decimal text of a number gives the number back. -/
theorem setString_bigIntString (i : Int) : setString (bigIntString i) = some i := by
  obtain ⟨hparse, b, rest, hcons, h45, h43⟩ := parseDigits_natString i.natAbs
  unfold bigIntString setString
  by_cases hneg : i < 0
  · rw [if_pos hneg]
    simp only [parseSigned, if_true, hparse]
    simp
    rw [abs_of_neg hneg, neg_neg]
  · rw [if_neg hneg, hcons]
    simp only [parseSigned, if_neg h45, if_neg h43]
    rw [← hcons, hparse]
    simp
    omega

theorem indexAt_getD (row : List Int) (j : Nat) (h : j < row.length) :
    indexAt row (j : Int) = .ok (row.getD j 0) := by
  apply indexAt_ok
  rw [List.getD_eq_getElem?_getD, List.get?_eq_getElem?, List.getElem?_eq_getElem h]
  rfl

/-- The loop over the rows for column `j`: the decimal texts of the entries of the column,
joined by `+`, after what was already written. -/
theorem joinRows_spec (j : Nat) (rows : List (List Int)) (str : GoString) (hne : rows ≠ [])
    (hlen : ∀ row ∈ rows, j < row.length) :
    joinRows (j : Int) rows str
      = .ok (str ++ joinWithSeparator 43 (rows.map (fun row => bigIntString (row.getD j 0)))) := by
  induction rows generalizing str with
  | nil => exact absurd rfl hne
  | cons row rest ih =>
    cases rest with
    | nil =>
      simp only [joinRows, indexAt_getD row j (hlen row (List.mem_cons_self _ _)),
        List.map_cons, List.map_nil, joinWithSeparator]
    | cons next rest2 =>
      simp only [joinRows, indexAt_getD row j (hlen row (List.mem_cons_self _ _))]
      rw [ih _ (List.cons_ne_nil _ _) (fun r hr => hlen r (List.mem_cons_of_mem _ hr))]
      simp only [List.map_cons, joinWithSeparator, List.append_assoc, List.singleton_append]

/-- The loop over the columns: one string per column, in order. -/
theorem joinColumns_spec (a : List (List Int)) (hne : a ≠ []) (count j0 : Nat)
    (hlen : ∀ row ∈ a, j0 + count ≤ row.length) :
    joinColumns a count (j0 : Int)
      = .ok ((List.range count).map (fun i =>
          joinWithSeparator 43 (a.map (fun row => bigIntString (row.getD (j0 + i) 0))))) := by
  induction count generalizing j0 with
  | zero => rfl
  | succ k ih =>
    unfold joinColumns
    rw [joinRows_spec j0 a [] hne (fun row hrow => by have := hlen row hrow; omega)]
    have hcast : ((j0 : Int) + 1) = ((j0 + 1 : Nat) : Int) := by push_cast; rfl
    simp only
    rw [hcast, ih (j0 + 1) (fun row hrow => by have := hlen row hrow; omega)]
    simp only [List.nil_append]
    rw [List.range_succ_eq_map, List.map_cons, List.map_map]
    congr 2
    apply List.map_congr_left
    intro i _
    simp only [Function.comp, Nat.succ_eq_add_one]
    have : j0 + 1 + i = j0 + (i + 1) := by omega
    rw [this]

/-! ## The properties of the specification -/

theorem isASCII_iff (s : GoString) : isASCII s = true ↔ ∀ b ∈ s, b.val ≤ 127 := by
  unfold isASCII
  rw [List.all_eq_true]
  constructor
  · intro h b hb
    have := h b hb
    simp only [Bool.not_eq_true', decide_eq_false_iff_not] at this
    omega
  · intro h b hb
    have := h b hb
    simp only [Bool.not_eq_true', decide_eq_false_iff_not]
    omega

set_option maxRecDepth 100000 in
theorem setString_PRIME : setString PRIME = some (2 ^ 127 - 1) := by
  decide

/-- What `validSplitParameters` decides. -/
theorem validSplitParameters_spec (secret : GoString) (n t : Int) :
    validSplitParameters secret n t = true ↔
      (secret ≠ [] ∧ (∀ b ∈ secret, b.val ≤ 127) ∧ 1 ≤ n ∧ 2 ≤ t ∧ t ≤ n) := by
  unfold validSplitParameters
  by_cases h1 : secret = []
  · simp [h1]
  rw [if_neg h1]
  by_cases h2 : isASCII secret = true
  · have h2b := (isASCII_iff secret).mp h2
    simp only [h2, Bool.not_true, Bool.false_eq_true, if_false]
    by_cases h3 : n < 1
    · simp only [h3, if_true]
      constructor
      · intro h; cases h
      · intro h; omega
    rw [if_neg h3]
    by_cases h4 : t < 2
    · simp only [h4, if_true]
      constructor
      · intro h; cases h
      · intro h; omega
    rw [if_neg h4]
    by_cases h5 : n < t
    · simp only [h5, if_true]
      constructor
      · intro h; cases h
      · intro h; omega
    rw [if_neg h5]
    simp only [true_iff]
    exact ⟨h1, h2b, by omega, by omega, by omega⟩
  · have h2c : isASCII secret = false := by simpa using h2
    simp only [h2c, Bool.not_false, if_true]
    constructor
    · intro h; cases h
    · intro h
      exact absurd ((isASCII_iff secret).mpr h.2.1) h2

/-- The whole round trip of a valid secret: the secret is cut into chunks; whatever the
draws of each chunk are, from any `t` distinct share indices in `1..n` each chunk comes
back without its leading NUL bytes; when no chunk starts with a NUL byte the concatenation
of the results, in chunk order, is the secret. -/
theorem split_combine_roundtrip (s : GoString) (n t : Int)
    (hvalid : validSplitParameters s n t = true) (hn : n ≤ maxInt) :
    ∃ chunks, splitStringIntoChunks s CHUNK_SIZE = .ok chunks ∧ chunks.flatten = s ∧
      ∀ (drawsOf sharesOf : Nat → List Int),
        (∀ i (h : i < chunks.length),
          splitSubsecret (chunks.get ⟨i, h⟩) n t (2 ^ 127 - 1) (drawsOf i) = .ok (sharesOf i)) →
        ∀ xs : List Int, xs.Nodup → (xs.length : Int) = t → (∀ x ∈ xs, 1 ≤ x ∧ x ≤ n) →
          (∀ i (h : i < chunks.length), combineSubsecret
              (xs.map (fun x => (x, (sharesOf i).getD (x - 1).toNat 0))) (2 ^ 127 - 1)
              = .ok ((chunks.get ⟨i, h⟩).dropWhile (fun b => decide (b = 0)))) ∧
          ((∀ c ∈ chunks, c.head? ≠ some 0) →
            (chunks.map (fun c => c.dropWhile (fun b => decide (b = 0)))).flatten = s) := by
  have hv := (validSplitParameters_spec s n t).mp hvalid
  obtain ⟨chunks, hchunks, hflat, hall⟩ := splitStringIntoChunks_spec s 15 (by decide)
  refine ⟨chunks, hchunks, hflat, ?_⟩
  intro drawsOf sharesOf hsplit xs hnd hlen hidx
  refine ⟨?_, ?_⟩
  · intro i h
    exact combineSubsecret_splitSubsecret (chunks.get ⟨i, h⟩)
      (hall _ (List.get_mem chunks i h)).1 n t hv.2.2.2.1 hn (drawsOf i)
      (sharesOf i) (hsplit i h) xs hnd hlen hidx
  · intro hnul
    have : chunks.map (fun c => c.dropWhile (fun b => decide (b = 0))) = chunks := by
      conv_rhs => rw [← List.map_id chunks]
      apply List.map_congr_left
      intro c hc
      have h0 := hnul c hc
      cases c with
      | nil => rfl
      | cons b rest =>
        have hb : b ≠ 0 := by
          intro hb0
          apply h0
          rw [hb0]
          rfl
        simp [List.dropWhile, hb]
    rw [this, hflat]

/-- A string that does not start with a NUL byte has no leading NUL bytes to lose. -/
theorem dropWhile_nul_eq_self (c : GoString) (h : c.head? ≠ some 0) :
    c.dropWhile (fun b => decide (b = 0)) = c := by
  cases c with
  | nil => rfl
  | cons b rest =>
    have hb : b ≠ 0 := by
      intro hb0
      apply h
      rw [hb0]
      rfl
    simp [List.dropWhile, hb]

/-- A string without NUL bytes does not start with one. -/
theorem head?_ne_nul (c : GoString) (h : ∀ b ∈ c, b ≠ 0) : c.head? ≠ some 0 := by
  cases c with
  | nil => intro h0; cases h0
  | cons b rest =>
    intro h0
    have hb : b = 0 := by
      simp only [List.head?_cons, Option.some.injEq] at h0
      exact h0
    exact h b (List.mem_cons_self _ _) hb

/-- The shares of a fixed polynomial with constant term `stringToBigInt c` are produced,
and from any `t` distinct share indices in `1..n` the chunk `c` comes back without its
leading NUL bytes. -/
theorem combineSubsecret_fixedPolynomial (c : GoString) (hc : c.length ≤ 15) (n t : Int)
    (hn0 : 0 ≤ n) (hn : n ≤ maxInt) (coefficients : List Int)
    (hlen : (coefficients.length : Int) = t)
    (hhead : coefficients.head? = some (stringToBigInt c))
    (xs : List Int) (hnd : xs.Nodup) (hxlen : (xs.length : Int) = t)
    (hidx : ∀ x ∈ xs, 1 ≤ x ∧ x ≤ n) :
    ∃ shares, _shamirSplitSecretWithFixedPolynomial (stringToBigInt c) (2 ^ 127 - 1)
        ⟨coefficients⟩ n t = .ok shares ∧
      combineSubsecret (xs.map (fun x => (x, shares.getD (x - 1).toNat 0))) (2 ^ 127 - 1)
        = .ok (c.dropWhile (fun b => decide (b = 0))) := by
  have hcs : coefficients ≠ [] := by
    intro h; rw [h] at hhead; cases hhead
  obtain ⟨shares, hshares⟩ := sharesUpTo_ok (2 ^ 127 - 1) ⟨coefficients⟩ hcs (by norm_num)
    n.toNat
  refine ⟨shares, ?_, ?_⟩
  · unfold _shamirSplitSecretWithFixedPolynomial
    rw [if_neg (by omega)]
    exact hshares
  · obtain ⟨_, hsget⟩ := sharesUpTo_spec _ _ _ _ hshares
    have hlag : lagrange (xs.map (fun x => (x, shares.getD (x - 1).toNat 0))) (2 ^ 127 - 1)
        = .ok (stringToBigInt c) := by
      apply lagrange_of_shares coefficients
      · exact hhead
      · exact stringToBigInt_bound c hc
      · rw [List.length_map]
        omega
      · rw [List.map_map]
        have : (Prod.fst ∘ fun x : Int => (x, shares.getD (x - 1).toNat 0)) = id := rfl
        rw [this, List.map_id]
        exact hnd
      · intro xy hxy
        obtain ⟨x, hx, rfl⟩ := List.mem_map.mp hxy
        have := hidx x hx
        unfold minInt
        simp only
        omega
      · intro xy hxy
        obtain ⟨x, hx, rfl⟩ := List.mem_map.mp hxy
        have hxr := hidx x hx
        have := hsget (x - 1).toNat (by omega)
        have hcast : (((x - 1).toNat : Nat) : Int) + 1 = x := by omega
        rw [hcast] at this
        exact this
    unfold combineSubsecret
    rw [hlag]
    exact bigIntToString_stringToBigInt c

/-! ### C1 -/

set_option maxRecDepth 100000 in
/-- What a direct call does with a secret that starts with a NUL byte, which no command
line can carry: for `"\x00hi"` with `n = t = 2` the one chunk is shared with the
polynomial `26729 + x`, and the two shares give back `"hi"`. -/
theorem split_combine_leading_nul :
    validSplitParameters [0, 104, 105] 2 2 = true ∧
    splitStringIntoChunks [0, 104, 105] CHUNK_SIZE = .ok [[0, 104, 105]] ∧
    splitSubsecret [0, 104, 105] 2 2 (2 ^ 127 - 1) [1] = .ok [26730, 26731] ∧
    combineSubsecret [(1, 26730), (2, 26731)] (2 ^ 127 - 1) = .ok [104, 105] ∧
    ([104, 105] : GoString) ≠ [0, 104, 105] := by
  have hsplit : splitSubsecret [0, 104, 105] 2 2 (2 ^ 127 - 1) [1] = .ok [26730, 26731] := by
    decide
  refine ⟨by decide, by decide, hsplit, ?_, by decide⟩
  have h := combineSubsecret_splitSubsecret [0, 104, 105] (by decide) 2 2 (by decide)
    (by decide) [1] [26730, 26731] hsplit [1, 2] (by decide) (by decide) (by decide)
  exact h

/-- C1: for every secret the program can be given (`split` gets it from the command line,
whose arguments hold no NUL byte) that is non-empty and ASCII, and all `2 ≤ t ≤ n`: the
parameters are accepted and the secret is cut into chunks of `CHUNK_SIZE = 15`; for any
`t` distinct share indices in `1..n` and every chunk, whatever polynomial of length `t`
with constant term `stringToBigInt chunk` is used, its shares are produced and
`combineSubsecret` on the chosen ones returns exactly the chunk; the same holds for the
shares `splitSubsecret` returns, whatever the random draws; and the chunks, concatenated
in index order, are the secret. -/
theorem split_combine_exact (s : GoString) (n t : Int)
    (hne : s ≠ []) (hascii : ∀ b ∈ s, b.val ≤ 127) (hnul : ∀ b ∈ s, b ≠ 0)
    (ht : 2 ≤ t) (htn : t ≤ n) (hn : n ≤ maxInt) :
    validSplitParameters s n t = true ∧
    ∃ chunks, splitStringIntoChunks s CHUNK_SIZE = .ok chunks ∧
      ∀ xs : List Int, xs.Nodup → (xs.length : Int) = t → (∀ x ∈ xs, 1 ≤ x ∧ x ≤ n) →
        (∀ (i : Nat) (h : i < chunks.length) (coefficients : List Int),
          (coefficients.length : Int) = t →
          coefficients.head? = some (stringToBigInt (chunks.get ⟨i, h⟩)) →
          ∃ shares, _shamirSplitSecretWithFixedPolynomial (stringToBigInt (chunks.get ⟨i, h⟩))
              (2 ^ 127 - 1) ⟨coefficients⟩ n t = .ok shares ∧
            combineSubsecret (xs.map (fun x => (x, shares.getD (x - 1).toNat 0)))
              (2 ^ 127 - 1) = .ok (chunks.get ⟨i, h⟩)) ∧
        (∀ (i : Nat) (h : i < chunks.length) (draws shares : List Int),
          splitSubsecret (chunks.get ⟨i, h⟩) n t (2 ^ 127 - 1) draws = .ok shares →
          combineSubsecret (xs.map (fun x => (x, shares.getD (x - 1).toNat 0)))
            (2 ^ 127 - 1) = .ok (chunks.get ⟨i, h⟩)) ∧
        chunks.flatten = s := by
  have hvalid : validSplitParameters s n t = true :=
    (validSplitParameters_spec s n t).mpr ⟨hne, hascii, by omega, ht, htn⟩
  obtain ⟨chunks, hchunks, hflat, hall⟩ := splitStringIntoChunks_spec s 15 (by decide)
  have hkeep : ∀ c ∈ chunks, c.dropWhile (fun b => decide (b = 0)) = c := by
    intro c hc
    apply dropWhile_nul_eq_self
    apply head?_ne_nul
    intro b hb
    apply hnul
    rw [← hflat]
    exact List.mem_flatten.mpr ⟨c, hc, hb⟩
  refine ⟨hvalid, chunks, hchunks, ?_⟩
  intro xs hnd hlen hidx
  refine ⟨?_, ?_, hflat⟩
  · intro i h coefficients hclen hhead
    have hmem := List.get_mem chunks i h
    obtain ⟨shares, hshares, hcomb⟩ := combineSubsecret_fixedPolynomial (chunks.get ⟨i, h⟩)
      (hall _ hmem).1 n t (by omega) hn coefficients hclen hhead xs hnd hlen hidx
    rw [hkeep _ hmem] at hcomb
    exact ⟨shares, hshares, hcomb⟩
  · intro i h draws shares hsplit
    have hmem := List.get_mem chunks i h
    have hcomb := combineSubsecret_splitSubsecret (chunks.get ⟨i, h⟩) (hall _ hmem).1 n t ht hn
      draws shares hsplit xs hnd hlen hidx
    rw [hkeep _ hmem] at hcomb
    exact hcomb

set_option maxRecDepth 100000 in
theorem split_combine_exact_witness :
    validSplitParameters (bytesOf "sixteen byte key") 3 2 = true ∧
    ∃ chunks, splitStringIntoChunks (bytesOf "sixteen byte key") CHUNK_SIZE = .ok chunks ∧
      ∀ xs : List Int, xs.Nodup → (xs.length : Int) = 2 → (∀ x ∈ xs, 1 ≤ x ∧ x ≤ 3) →
        (∀ (i : Nat) (h : i < chunks.length) (coefficients : List Int),
          (coefficients.length : Int) = 2 →
          coefficients.head? = some (stringToBigInt (chunks.get ⟨i, h⟩)) →
          ∃ shares, _shamirSplitSecretWithFixedPolynomial (stringToBigInt (chunks.get ⟨i, h⟩))
              (2 ^ 127 - 1) ⟨coefficients⟩ 3 2 = .ok shares ∧
            combineSubsecret (xs.map (fun x => (x, shares.getD (x - 1).toNat 0)))
              (2 ^ 127 - 1) = .ok (chunks.get ⟨i, h⟩)) ∧
        (∀ (i : Nat) (h : i < chunks.length) (draws shares : List Int),
          splitSubsecret (chunks.get ⟨i, h⟩) 3 2 (2 ^ 127 - 1) draws = .ok shares →
          combineSubsecret (xs.map (fun x => (x, shares.getD (x - 1).toNat 0)))
            (2 ^ 127 - 1) = .ok (chunks.get ⟨i, h⟩)) ∧
        chunks.flatten = bytesOf "sixteen byte key" :=
  split_combine_exact (bytesOf "sixteen byte key") 3 2 (by decide) (by decide) (by decide)
    (by decide) (by decide) (by decide)

/-! ### C2 -/

/-- C2: with the modulus 2^127 - 1, for every `t ≥ 2`, every coefficient list of length
`t` with coefficients in `[0, p)` and every `t` distinct share indices in `1..n` (`n` a
machine integer), the point map `x -> evaluatePolynomial(x, p, poly)` exists and
`lagrange` applied to it returns `coefficients[0]`. -/
theorem lagrange_reconstructs_constant (t : Nat) (ht : 2 ≤ t) (coefficients : List Int)
    (hlen : coefficients.length = t)
    (hrange : ∀ c ∈ coefficients, 0 ≤ c ∧ c < 2 ^ 127 - 1)
    (n : Int) (hn : n ≤ maxInt) (xs : List Int) (hcard : xs.length = t)
    (hdistinct : xs.Nodup) (hidx : ∀ x ∈ xs, 1 ≤ x ∧ x ≤ n) :
    ∃ c0, coefficients.head? = some c0 ∧
      (∃ points : List (Int × Int), points.map Prod.fst = xs ∧
        ∀ xy ∈ points, evaluatePolynomial xy.1 (2 ^ 127 - 1) ⟨coefficients⟩ = .ok xy.2) ∧
      ∀ points : List (Int × Int), points.map Prod.fst = xs →
        (∀ xy ∈ points, evaluatePolynomial xy.1 (2 ^ 127 - 1) ⟨coefficients⟩ = .ok xy.2) →
        lagrange points (2 ^ 127 - 1) = .ok c0 := by
  have hcs : coefficients ≠ [] := by
    intro h; rw [h] at hlen; simp at hlen; omega
  obtain ⟨c0, rest, hc⟩ := List.exists_cons_of_ne_nil hcs
  refine ⟨c0, by rw [hc]; rfl, ?_, ?_⟩
  · refine ⟨xs.map (fun x =>
      (x, (coefficients.foldr (fun c acc => acc * x + c) 0) % (2 ^ 127 - 1))), ?_, ?_⟩
    · rw [List.map_map]
      exact List.map_id xs
    · intro xy hxy
      obtain ⟨x, _, rfl⟩ := List.mem_map.mp hxy
      exact evaluatePolynomial_eq x (2 ^ 127 - 1) coefficients hcs (by norm_num)
  · intro points hkeys hval
    apply lagrange_of_shares coefficients c0 (by rw [hc]; rfl)
      (hrange c0 (by rw [hc]; exact List.mem_cons_self _ _)) points
    · rw [hlen, ← hcard, ← hkeys, List.length_map]
    · rw [hkeys]; exact hdistinct
    · intro xy hxy
      have := hidx xy.1 (by rw [← hkeys]; exact List.mem_map_of_mem _ hxy)
      unfold minInt
      omega
    · exact hval

theorem lagrange_reconstructs_constant_witness :
    ∃ c0, ([5, 3, 7] : List Int).head? = some c0 ∧
      (∃ points : List (Int × Int), points.map Prod.fst = [4, 1, 2] ∧
        ∀ xy ∈ points, evaluatePolynomial xy.1 (2 ^ 127 - 1) ⟨[5, 3, 7]⟩ = .ok xy.2) ∧
      ∀ points : List (Int × Int), points.map Prod.fst = [4, 1, 2] →
        (∀ xy ∈ points, evaluatePolynomial xy.1 (2 ^ 127 - 1) ⟨[5, 3, 7]⟩ = .ok xy.2) →
        lagrange points (2 ^ 127 - 1) = .ok c0 :=
  lagrange_reconstructs_constant 3 (by decide) [5, 3, 7] rfl
    (by
      intro c hc
      simp only [List.mem_cons, List.mem_singleton, List.not_mem_nil, or_false] at hc
      rcases hc with rfl | rfl | rfl <;> norm_num)
    5 (by decide) [4, 1, 2] rfl (by decide)
    (by
      intro x hx
      simp only [List.mem_cons, List.mem_singleton, List.not_mem_nil, or_false] at hx
      rcases hx with rfl | rfl | rfl <;> norm_num)

/-! ### C3 -/

/-- C3, as stated, fails: with `t = 2` and the one observed share `(1, 5)`, no polynomial
that `generateRandomPolynomial` can draw for the secret 5 takes the value 5 at 1 (it would
need the last coefficient 0), while for the secret 4 exactly one does. -/
theorem one_share_excludes_a_secret :
    Set.ncard {poly : polynomial | drawable 5 (2 ^ 127 - 1) (2 - 1) poly ∧
      consistent (2 ^ 127 - 1) poly [(1, 5)]} = 0 ∧
    Set.ncard {poly : polynomial | drawable 4 (2 ^ 127 - 1) (2 - 1) poly ∧
      consistent (2 ^ 127 - 1) poly [(1, 5)]} = 1 ∧
    (¬ ∃ poly : polynomial, drawable 5 (2 ^ 127 - 1) (2 - 1) poly ∧
      consistent (2 ^ 127 - 1) poly [(1, 5)]) ∧
    generateRandomPolynomial 4 (2 ^ 127 - 1) (2 - 1) [1] = .ok ⟨[4, 1]⟩ ∧
    evaluatePolynomial 1 (2 ^ 127 - 1) ⟨[4, 1]⟩ = .ok 5 := by
  haveI : Fact (Nat.Prime (2 ^ 127 - 1)) := ⟨prime_modulus⟩
  have hnd := nodup_indices_cast 1 (by decide) [(1, 5)] (by decide)
    (by intro xy hxy; rw [List.mem_singleton.mp hxy]; decide)
  have hval : ∀ xy ∈ [((1 : Int), (5 : Int))], 0 ≤ xy.2 ∧ xy.2 < ((2 ^ 127 - 1 : Nat) : Int) := by
    intro xy hxy; rw [List.mem_singleton.mp hxy]; norm_num
  obtain ⟨L, hL, _, _, hcount⟩ := ncard_drawable_threshold_minus_one (2 ^ 127 - 1) 2 (le_refl 2)
    [(1, 5)] rfl hnd hval
  have hL5 : lagrange [(1, 5)] ((2 ^ 127 - 1 : Nat) : Int) = .ok 5 := by decide
  rw [hL5] at hL
  have hLe : L = 5 := (Except.ok.inj hL).symm
  subst hLe
  have h5 := hcount 5 (by norm_num)
  have h4 := hcount 4 (by norm_num)
  rw [if_pos rfl] at h5
  rw [if_neg (by decide)] at h4
  rw [← modulus_cast] at h5 h4
  have e1 : ((2 : Nat) : Int) - 1 = 2 - 1 := rfl
  rw [e1] at h5 h4
  refine ⟨h5, h4, ?_, by decide, by decide⟩
  rintro ⟨poly, hpoly⟩
  have hfin := finite_drawable (2 ^ 127 - 1) 2 (le_refl 2) 5 (by norm_num) [(1, 5)]
  rw [← modulus_cast, e1] at hfin
  have hempty := (Set.ncard_eq_zero hfin).mp h5
  have : poly ∈ {poly : polynomial | drawable 5 (2 ^ 127 - 1) (2 - 1) poly ∧
      consistent (2 ^ 127 - 1) poly [(1, 5)]} := hpoly
  rw [hempty] at this
  exact this

/-- C3, amended: let `k` shares (`k < t`) with distinct indices in `1..n` and values in `[0, p)`
be observed, `p = 2^127 - 1`.  When `k ≤ t - 2`, the polynomials that
`generateRandomPolynomial` can draw and that take those values at those indices are
equally many for every secret in `[0, p)`, and at least one: every secret is consistent
with the shares.  When `k = t - 1`, there is exactly one for every secret except the value
that `lagrange` returns on the `k` shares, for which there is none. -/
theorem shares_below_threshold (t : Nat) (ht : 2 ≤ t) (n : Int) (hn : n ≤ maxInt)
    (shares : List (Int × Int))
    (hdistinct : (shares.map Prod.fst).Nodup)
    (hidx : ∀ xy ∈ shares, 1 ≤ xy.1 ∧ xy.1 ≤ n)
    (hval : ∀ xy ∈ shares, 0 ≤ xy.2 ∧ xy.2 < 2 ^ 127 - 1)
    (c c2 : Int) (hc : 0 ≤ c ∧ c < 2 ^ 127 - 1) (hc2 : 0 ≤ c2 ∧ c2 < 2 ^ 127 - 1) :
    (shares.length + 2 ≤ t →
      Set.ncard {poly : polynomial | drawable c (2 ^ 127 - 1) ((t : Int) - 1) poly ∧
          consistent (2 ^ 127 - 1) poly shares}
        = Set.ncard {poly : polynomial | drawable c2 (2 ^ 127 - 1) ((t : Int) - 1) poly ∧
          consistent (2 ^ 127 - 1) poly shares} ∧
      0 < Set.ncard {poly : polynomial | drawable c (2 ^ 127 - 1) ((t : Int) - 1) poly ∧
          consistent (2 ^ 127 - 1) poly shares}) ∧
    (shares.length + 1 = t →
      ∃ L, lagrange shares (2 ^ 127 - 1) = .ok L ∧ 0 ≤ L ∧ L < 2 ^ 127 - 1 ∧
        Set.ncard {poly : polynomial | drawable c (2 ^ 127 - 1) ((t : Int) - 1) poly ∧
          consistent (2 ^ 127 - 1) poly shares} = if c = L then 0 else 1) := by
  haveI : Fact (Nat.Prime (2 ^ 127 - 1)) := ⟨prime_modulus⟩
  have hnd := nodup_indices_cast n hn shares hdistinct hidx
  rw [modulus_cast] at hval hc hc2 ⊢
  constructor
  · intro hk2
    refine ⟨ncard_drawable_eq (2 ^ 127 - 1) t shares hk2 hnd hval c c2 hc hc2, ?_⟩
    rw [Set.ncard_pos (finite_drawable (2 ^ 127 - 1) t ht c hc shares)]
    exact exists_drawable_consistent (2 ^ 127 - 1) t shares hk2 hnd hval c hc
  · intro hk1
    obtain ⟨L, hL, hL0, hLq, hcount⟩ :=
      ncard_drawable_threshold_minus_one (2 ^ 127 - 1) t ht shares hk1 hnd hval
    exact ⟨L, hL, hL0, hLq, hcount c hc⟩

theorem shares_below_threshold_witness :
    (Set.ncard {poly : polynomial | drawable 5 (2 ^ 127 - 1) (((3 : Nat) : Int) - 1) poly ∧
        consistent (2 ^ 127 - 1) poly [(1, 15)]}
      = Set.ncard {poly : polynomial | drawable 6 (2 ^ 127 - 1) (((3 : Nat) : Int) - 1) poly ∧
        consistent (2 ^ 127 - 1) poly [(1, 15)]} ∧
    0 < Set.ncard {poly : polynomial | drawable 5 (2 ^ 127 - 1) (((3 : Nat) : Int) - 1) poly ∧
        consistent (2 ^ 127 - 1) poly [(1, 15)]}) ∧
    ∃ L, lagrange [(1, 15)] (2 ^ 127 - 1) = .ok L ∧ 0 ≤ L ∧ L < 2 ^ 127 - 1 ∧
      Set.ncard {poly : polynomial | drawable 5 (2 ^ 127 - 1) (((2 : Nat) : Int) - 1) poly ∧
        consistent (2 ^ 127 - 1) poly [(1, 15)]} = if 5 = L then 0 else 1 :=
  ⟨(shares_below_threshold 3 (by decide) 5 (by decide) [(1, 15)] (by decide)
      (by intro xy hxy; rw [List.mem_singleton.mp hxy]; decide)
      (by intro xy hxy; rw [List.mem_singleton.mp hxy]; norm_num)
      5 6 (by norm_num) (by norm_num)).1 (by decide),
    (shares_below_threshold 2 (by decide) 5 (by decide) [(1, 15)] (by decide)
      (by intro xy hxy; rw [List.mem_singleton.mp hxy]; decide)
      (by intro xy hxy; rw [List.mem_singleton.mp hxy]; norm_num)
      5 6 (by norm_num) (by norm_num)).2 rfl⟩

/-! ### C4 -/

/-- What a direct call does with a chunk that starts with a NUL byte, which no command
line can carry: `"\x00a"` comes back as `"a"`. -/
theorem bigIntToString_stringToBigInt_leading_nul :
    isASCII [0, 97] = true ∧ ([0, 97] : GoString).length ≤ 15 ∧
      bigIntToString (stringToBigInt [0, 97]) = .ok [97] ∧ ([97] : GoString) ≠ [0, 97] := by
  decide

/-- C4: for every chunk the program can be given (a piece of the secret, which comes from
the command line and so holds no NUL byte), `bigIntToString(stringToBigInt(c))` returns
`c`, and the encoding is a number in `[0, 2^127 - 1)`.  Not starting with a NUL byte is
all that the decoding needs of `c`, and the length bound all that the range needs. -/
theorem bigIntToString_stringToBigInt_exact (c : GoString) (hlen : c.length ≤ 15)
    (hnul : c.head? ≠ some 0) :
    bigIntToString (stringToBigInt c) = .ok c ∧
      0 ≤ stringToBigInt c ∧ stringToBigInt c < 2 ^ 127 - 1 := by
  refine ⟨?_, stringToBigInt_bound c hlen⟩
  rw [bigIntToString_stringToBigInt c, dropWhile_nul_eq_self c hnul]

set_option maxRecDepth 100000 in
theorem bigIntToString_stringToBigInt_exact_witness :
    bigIntToString (stringToBigInt (bytesOf "fifteen bytes !")) = .ok (bytesOf "fifteen bytes !") ∧
      0 ≤ stringToBigInt (bytesOf "fifteen bytes !") ∧
      stringToBigInt (bytesOf "fifteen bytes !") < 2 ^ 127 - 1 :=
  bigIntToString_stringToBigInt_exact (bytesOf "fifteen bytes !") (by decide) (by decide)

/-! ### C5 -/

/-- C5: for every string `s` (the empty one included) and every chunk length `n ≥ 1`,
`splitStringIntoChunks(s, n)` returns, and its chunks concatenated in order are `s`. -/
theorem splitStringIntoChunks_flatten (s : GoString) (n : Int) (hn : 1 ≤ n) :
    ∃ chunks, splitStringIntoChunks s n = .ok chunks ∧ chunks.flatten = s := by
  obtain ⟨k, rfl⟩ : ∃ k : Nat, n = (k : Int) := ⟨n.toNat, by omega⟩
  obtain ⟨chunks, h1, h2, _⟩ := splitStringIntoChunks_spec s k (by omega)
  exact ⟨chunks, h1, h2⟩

theorem splitStringIntoChunks_flatten_witness :
    (1 : Int) ≤ 3 ∧ ∃ chunks, splitStringIntoChunks (bytesOf "Hello, World!") 3 = .ok chunks ∧
      chunks.flatten = bytesOf "Hello, World!" :=
  ⟨by decide, splitStringIntoChunks_flatten (bytesOf "Hello, World!") 3 (by decide)⟩

/-! ### C6 -/

/-- C6: `validSplitParameters(secret, n, t)` is true exactly when the secret is non-empty,
all its bytes are at most 127, `n ≥ 1`, `t ≥ 2` and `n ≥ t`; it is false for `("", 5, 3)`,
`("héllo", 5, 3)`, `("ok", 2, 5)` and `("ok", 0, 2)`. -/
theorem validSplitParameters_iff :
    (∀ (secret : GoString) (n t : Int), validSplitParameters secret n t = true ↔
      (secret ≠ [] ∧ (∀ b ∈ secret, b.val ≤ 127) ∧ 1 ≤ n ∧ 2 ≤ t ∧ t ≤ n)) ∧
    validSplitParameters (bytesOf "") 5 3 = false ∧
    validSplitParameters (bytesOf "héllo") 5 3 = false ∧
    validSplitParameters (bytesOf "ok") 2 5 = false ∧
    validSplitParameters (bytesOf "ok") 0 2 = false := by
  exact ⟨validSplitParameters_spec, by decide, by decide, by decide, by decide⟩

/-! ### C7 -/

/-- C7: `validCombineParameters(s)` never panics (the bundle loop never indexes past the
end of `s`), and it returns false whenever `s` has fewer than 4 tokens, or an odd number
of tokens, or a bundle token (position 1, 3, ...) that splits on `+` into a different
number of pieces than the first bundle, or a bundle with a piece that is not a non-empty
string of decimal digits; so for `["2","12+34","4"]` and `["2","12","4","56+78"]`. -/
theorem validCombineParameters_rejects (s : List GoString) :
    (∃ b, validCombineParameters s = .ok b) ∧
    ((s.length < 4 ∨ s.length % 2 = 1 ∨
      (∃ j tok first, s.get? 1 = some first ∧ s.get? (2 * j + 1) = some tok ∧
        (stringsSplit tok 43).length ≠ (stringsSplit first 43).length) ∨
      (∃ j tok piece, s.get? (2 * j + 1) = some tok ∧ piece ∈ stringsSplit tok 43 ∧
        ¬ (piece ≠ [] ∧ ∀ b ∈ piece, 48 ≤ b.val ∧ b.val ≤ 57))) →
      validCombineParameters s = .ok false) ∧
    validCombineParameters [bytesOf "2", bytesOf "12+34", bytesOf "4"] = .ok false ∧
    validCombineParameters [bytesOf "2", bytesOf "12", bytesOf "4", bytesOf "56+78"]
      = .ok false := by
  obtain ⟨b, hb, hiff⟩ := validCombineParameters_spec s
  refine ⟨⟨b, hb⟩, ?_, by decide, by decide⟩
  intro hbad
  cases b with
  | false => exact hb
  | true =>
    exfalso
    obtain ⟨h4, heven, first, hfirst, hall⟩ := hiff.mp rfl
    rcases hbad with h | h | ⟨j, tok, first2, hf2, htok, hne⟩ | ⟨j, tok, piece, htok, hmem, hnd⟩
    · omega
    · omega
    · rw [hfirst] at hf2
      cases hf2
      have := hall j tok htok
      simp only [bundleOk, Bool.and_eq_true, decide_eq_true_eq] at this
      exact hne this.1
    · have := hall j tok htok
      simp only [bundleOk, Bool.and_eq_true, decide_eq_true_eq] at this
      exact hnd ((digitCheck_iff piece).mp ((List.all_eq_true.mp this.2) piece hmem))

theorem validCombineParameters_rejects_witness :
    (∃ b, validCombineParameters [bytesOf "2", bytesOf "1+x", bytesOf "4", bytesOf "5+6"]
      = .ok b) ∧
    validCombineParameters [bytesOf "2", bytesOf "1+x", bytesOf "4", bytesOf "5+6"]
      = .ok false :=
  ⟨(validCombineParameters_rejects
      [bytesOf "2", bytesOf "1+x", bytesOf "4", bytesOf "5+6"]).1,
    (validCombineParameters_rejects
      [bytesOf "2", bytesOf "1+x", bytesOf "4", bytesOf "5+6"]).2.1
      (Or.inr (Or.inr (Or.inr ⟨0, bytesOf "1+x", bytesOf "x", by decide, by decide,
        fun h => absurd (h.2 120 (by decide)) (by decide)⟩)))⟩

/-! ### C8 -/

/-- C8 (code defect): on `["a","1","2","3"]`, whose first share-number token is not an
integer, `validCombineParameters` returns true (the loop over the share numbers prints
its message and goes on), and `createSubsecretSliceMap` then panics with
"String to int conversion failed.". -/
theorem validCombineParameters_accepts_bad_share_number :
    atoi (bytesOf "a") = none ∧
    validCombineParameters [bytesOf "a", bytesOf "1", bytesOf "2", bytesOf "3"] = .ok true ∧
    createSubsecretSliceMap [bytesOf "a", bytesOf "1", bytesOf "2", bytesOf "3"]
      = .error "String to int conversion failed." := by
  decide

/-! ### C9 -/

/-- C9, as stated, fails: `["1","5","1","7"]` names share index 1 twice, validation
accepts it, and the point map built from its 4 tokens has one entry, not 2. -/
theorem validCombineParameters_accepts_duplicate :
    atoi (bytesOf "1") = some 1 ∧
    validCombineParameters [bytesOf "1", bytesOf "5", bytesOf "1", bytesOf "7"] = .ok true ∧
    createSubsecretSliceMap [bytesOf "1", bytesOf "5", bytesOf "1", bytesOf "7"]
      = .ok [[(1, 7)]] := by
  decide

/-- C9, amended: every token list that validation accepts and whose share-number tokens
parse to pairwise distinct integers yields, for each chunk (there is at least one), a
point map with exactly `len(s)/2` entries. -/
theorem createSubsecretSliceMap_distinct (s : List GoString)
    (hvalid : validCombineParameters s = .ok true)
    (hparse : ∀ tok ∈ shareNumbers s, (atoi tok).isSome = true)
    (hdistinct : ((shareNumbers s).map atoi).Nodup) :
    ∃ maps, createSubsecretSliceMap s = .ok maps ∧ maps ≠ [] ∧
      ∀ m ∈ maps, m.length = s.length / 2 := by
  obtain ⟨b, hb, hiff⟩ := validCombineParameters_spec s
  rw [hvalid] at hb
  cases hb
  obtain ⟨h4, heven, first, hfirst, hall⟩ := hiff.mp rfl
  have hnd : ((shareNumbers s).filterMap atoi).Nodup := by
    have hmap : ((shareNumbers s).filterMap atoi).map some = (shareNumbers s).map atoi := by
      generalize shareNumbers s = l at hparse
      induction l with
      | nil => rfl
      | cons a l ih =>
        obtain ⟨x, hx⟩ := Option.isSome_iff_exists.mp (hparse a (List.mem_cons_self a l))
        simp only [List.filterMap_cons, hx, List.map_cons]
        rw [ih (fun tok htok => hparse tok (List.mem_cons_of_mem a htok))]
    rw [← hmap] at hdistinct
    exact List.Nodup.of_map _ hdistinct
  have hlenFM : ((shareNumbers s).filterMap atoi).length = s.length / 2 := by
    have h1 : (((shareNumbers s).filterMap atoi).map some).length
        = ((shareNumbers s).map atoi).length := by
      congr 1
      generalize shareNumbers s = l at hparse
      induction l with
      | nil => rfl
      | cons a l ih =>
        obtain ⟨x, hx⟩ := Option.isSome_iff_exists.mp (hparse a (List.mem_cons_self a l))
        simp only [List.filterMap_cons, hx, List.map_cons]
        rw [ih (fun tok htok => hparse tok (List.mem_cons_of_mem a htok))]
    rw [List.length_map, List.length_map, shareNumbers_length s heven] at h1
    exact h1
  have hk : 1 ≤ (stringsSplit first 43).length := by
    cases first with
    | nil => simp [stringsSplit]
    | cons c rest =>
      unfold stringsSplit
      split_ifs
      · simp
      · split <;> simp
  have hmaps := subsecretMaps_spec s (s.length / 2) (stringsSplit first 43).length 0
    (by
      intro j _ hj
      obtain ⟨out, hout, hkeys⟩ := subsecretMapLoop_spec j s [] heven hparse
        (by
          intro tok htok
          obtain ⟨i, hi⟩ := mem_bundles_get s tok htok
          have hok := hall i tok hi
          simp only [bundleOk, Bool.and_eq_true, decide_eq_true_eq] at hok
          have hjlt : j < (stringsSplit tok 43).length := by omega
          have hget : (stringsSplit tok 43).get? j = some ((stringsSplit tok 43).get ⟨j, hjlt⟩) :=
            List.get?_eq_get hjlt
          obtain ⟨y, hy⟩ := setString_of_digitCheck _
            ((List.all_eq_true.mp hok.2) _ (List.get_mem _ j hjlt))
          exact ⟨_, y, hget, hy⟩)
        (by simpa using hnd)
      refine ⟨out, hout, ?_⟩
      have := congrArg List.length hkeys
      simp only [List.length_map, List.map_nil, List.nil_append] at this
      rw [this, hlenFM])
  obtain ⟨maps, hm, hlen, hallm⟩ := hmaps
  have h1 := indexAt_ok s 1 first hfirst
  simp only [Nat.cast_one] at h1
  refine ⟨maps, ?_, ?_, hallm⟩
  · unfold createSubsecretSliceMap
    rw [h1]
    exact hm
  · intro h0
    rw [h0] at hlen
    simp at hlen
    omega

theorem createSubsecretSliceMap_distinct_witness :
    ∃ maps, createSubsecretSliceMap
        [bytesOf "2", bytesOf "12+34", bytesOf "4", bytesOf "56+78"] = .ok maps ∧
      maps ≠ [] ∧
      ∀ m ∈ maps, m.length
        = [bytesOf "2", bytesOf "12+34", bytesOf "4", bytesOf "56+78"].length / 2 :=
  createSubsecretSliceMap_distinct [bytesOf "2", bytesOf "12+34", bytesOf "4", bytesOf "56+78"]
    (by decide) (by decide) (by decide)

/-! ### C10 -/

/-- C10: for every byte string `c` of length at most `CHUNK_SIZE = 15`, and so for every
chunk returned by `splitStringIntoChunks(s, 15)`, `stringToBigInt(c) ≤ 2^120 - 1`, which
is below `PRIME = 2^127 - 1 = 170141183460469231731687303715884105727`. -/
theorem stringToBigInt_lt_PRIME (s : GoString) (chunks : List GoString) (c : GoString)
    (h : c.length ≤ 15 ∨ (splitStringIntoChunks s CHUNK_SIZE = .ok chunks ∧ c ∈ chunks)) :
    stringToBigInt c ≤ 2 ^ 120 - 1 ∧ stringToBigInt c < 2 ^ 127 - 1 ∧ CHUNK_SIZE = 15 ∧
      setString PRIME = some (2 ^ 127 - 1) ∧
      (2 ^ 127 - 1 : Int) = 170141183460469231731687303715884105727 := by
  have hlen : c.length ≤ 15 := by
    rcases h with h | ⟨hs, hc⟩
    · exact h
    · obtain ⟨chunks2, h1, _, h3⟩ := splitStringIntoChunks_spec s 15 (by decide)
      have : CHUNK_SIZE = ((15 : Nat) : Int) := rfl
      rw [this, h1] at hs
      cases hs
      exact (h3 c hc).1
  have hb := setBytes_lt c 0
  have hpow : (256 : Nat) ^ c.length ≤ 256 ^ 15 := Nat.pow_le_pow_right (by decide) hlen
  have hnat : c.foldl (fun acc x => acc * 256 + x.val) 0 < 256 ^ 15 := by
    calc c.foldl (fun acc x => acc * 256 + x.val) 0 < (0 + 1) * 256 ^ c.length := hb
      _ = 256 ^ c.length := by ring
      _ ≤ 256 ^ 15 := hpow
  have hint : stringToBigInt c < 2 ^ 120 := by
    unfold stringToBigInt setBytes
    have : ((c.foldl (fun acc x => acc * 256 + x.val) 0 : Nat) : Int) < ((256 ^ 15 : Nat) : Int) :=
      Int.ofNat_lt.mpr hnat
    calc ((c.foldl (fun acc x => acc * 256 + x.val) 0 : Nat) : Int)
        < ((256 ^ 15 : Nat) : Int) := this
      _ = 2 ^ 120 := by norm_num
  refine ⟨by omega, ?_, rfl, setString_PRIME, by norm_num⟩
  have : (2 : Int) ^ 120 < 2 ^ 127 - 1 := by norm_num
  omega

theorem stringToBigInt_lt_PRIME_witness :
    stringToBigInt (bytesOf "Hello, World!!!") ≤ 2 ^ 120 - 1 ∧
      stringToBigInt (bytesOf "Hello, World!!!") < 2 ^ 127 - 1 ∧ CHUNK_SIZE = 15 ∧
      setString PRIME = some (2 ^ 127 - 1) ∧
      (2 ^ 127 - 1 : Int) = 170141183460469231731687303715884105727 :=
  stringToBigInt_lt_PRIME [] [] (bytesOf "Hello, World!!!") (Or.inl (by decide))

/-! ### C11 -/

/-- C11: with the modulus 2^127 - 1, for every `t ≥ 2`, every coefficient list of length
`t` with coefficients in `[0, p)` and every `k > t` distinct share indices in `1..n`, the
`k` points `(x, evaluatePolynomial(x, p, poly))` exist and `lagrange` applied to them
still returns `coefficients[0]`. -/
theorem lagrange_more_than_threshold (t : Nat) (ht : 2 ≤ t) (coefficients : List Int)
    (hlen : coefficients.length = t)
    (hrange : ∀ c ∈ coefficients, 0 ≤ c ∧ c < 2 ^ 127 - 1)
    (n : Int) (hn : n ≤ maxInt) (xs : List Int) (hcard : t < xs.length)
    (hdistinct : xs.Nodup) (hidx : ∀ x ∈ xs, 1 ≤ x ∧ x ≤ n) :
    ∃ c0, coefficients.head? = some c0 ∧
      (∃ points : List (Int × Int), points.map Prod.fst = xs ∧
        ∀ xy ∈ points, evaluatePolynomial xy.1 (2 ^ 127 - 1) ⟨coefficients⟩ = .ok xy.2) ∧
      ∀ points : List (Int × Int), points.map Prod.fst = xs →
        (∀ xy ∈ points, evaluatePolynomial xy.1 (2 ^ 127 - 1) ⟨coefficients⟩ = .ok xy.2) →
        lagrange points (2 ^ 127 - 1) = .ok c0 := by
  have hcs : coefficients ≠ [] := by
    intro h; rw [h] at hlen; simp at hlen; omega
  refine ⟨coefficients.getD 0 0, head?_eq_getD coefficients hcs, ?_, ?_⟩
  · obtain ⟨points, hkeys, hval, _⟩ :=
      exists_points_on_poly (2 ^ 127 - 1) (by norm_num) coefficients hcs xs
    exact ⟨points, hkeys, hval⟩
  · intro points hkeys hval
    apply lagrange_of_shares coefficients _ (head?_eq_getD coefficients hcs)
      (hrange _ (getD_mem coefficients 0 (by omega))) points
    · rw [hlen, ← List.length_map points Prod.fst, hkeys]
      omega
    · rw [hkeys]; exact hdistinct
    · intro xy hxy
      have := hidx xy.1 (by rw [← hkeys]; exact List.mem_map_of_mem _ hxy)
      unfold minInt
      omega
    · exact hval

theorem lagrange_more_than_threshold_witness :
    ∃ c0, ([5, 3] : List Int).head? = some c0 ∧
      (∃ points : List (Int × Int), points.map Prod.fst = [3, 1, 2] ∧
        ∀ xy ∈ points, evaluatePolynomial xy.1 (2 ^ 127 - 1) ⟨[5, 3]⟩ = .ok xy.2) ∧
      ∀ points : List (Int × Int), points.map Prod.fst = [3, 1, 2] →
        (∀ xy ∈ points, evaluatePolynomial xy.1 (2 ^ 127 - 1) ⟨[5, 3]⟩ = .ok xy.2) →
        lagrange points (2 ^ 127 - 1) = .ok c0 :=
  lagrange_more_than_threshold 2 (by decide) [5, 3] rfl
    (by
      intro c hc
      simp only [List.mem_cons, List.mem_singleton, List.not_mem_nil, or_false] at hc
      rcases hc with rfl | rfl <;> norm_num)
    5 (by decide) [3, 1, 2] (by decide) (by decide)
    (by
      intro x hx
      simp only [List.mem_cons, List.mem_singleton, List.not_mem_nil, or_false] at hx
      rcases hx with rfl | rfl | rfl <;> norm_num)

/-! ### C12 -/

/-- C12: for every `t ≥ 2`, every secret `c` in `[0, p)`, every polynomial that
`generateRandomPolynomial(c, p, t-1)` can return and every set of fewer than `t` distinct
share indices in `1..n`, there are a secret `c2 ≠ c` in `[0, p)` and a polynomial of length
`t` with constant term `c2`, coefficients in `[0, p)` and non-zero last coefficient whose
`evaluatePolynomial` values at those indices are those of the original polynomial. -/
theorem other_secret_consistent (t : Nat) (ht : 2 ≤ t) (c : Int)
    (hc : 0 ≤ c ∧ c < 2 ^ 127 - 1) (poly : polynomial)
    (hpoly : drawable c (2 ^ 127 - 1) ((t : Int) - 1) poly)
    (n : Int) (hn : n ≤ maxInt) (xs : List Int) (hk : xs.length < t)
    (hdistinct : xs.Nodup) (hidx : ∀ x ∈ xs, 1 ≤ x ∧ x ≤ n) :
    ∃ (c2 : Int) (poly2 : polynomial), c2 ≠ c ∧ 0 ≤ c2 ∧ c2 < 2 ^ 127 - 1 ∧
      poly2.coefficients.length = t ∧ poly2.coefficients.head? = some c2 ∧
      (∀ a ∈ poly2.coefficients, 0 ≤ a ∧ a < 2 ^ 127 - 1) ∧
      poly2.coefficients.getLast? ≠ some 0 ∧
      ∀ x ∈ xs, ∃ y, evaluatePolynomial x (2 ^ 127 - 1) poly = .ok y ∧
        evaluatePolynomial x (2 ^ 127 - 1) poly2 = .ok y := by
  obtain ⟨_, hlen, _, _, _⟩ := (drawable_iff c (2 ^ 127 - 1) t ht poly).mp hpoly
  have hcs : poly.coefficients ≠ [] := by
    intro h; rw [h] at hlen; simp at hlen; omega
  obtain ⟨points, hkeys, hval, _⟩ :=
    exists_points_on_poly (2 ^ 127 - 1) (by norm_num) poly.coefficients hcs xs
  obtain ⟨c2, poly2, hne, h0, hlt, hd2, hcons2⟩ :=
    exists_other_drawable t ht n hn c hc poly hpoly points
      (by rw [← List.length_map points Prod.fst, hkeys]; exact hk)
      (by rw [hkeys]; exact hdistinct)
      (fun xy hxy => hidx xy.1 (by rw [← hkeys]; exact List.mem_map_of_mem _ hxy))
      hval
  obtain ⟨_, hlen2, hhead2, hrange2, hlast2⟩ := (drawable_iff c2 (2 ^ 127 - 1) t ht poly2).mp hd2
  have hcs2 : poly2.coefficients ≠ [] := by
    intro h; rw [h] at hlen2; simp at hlen2; omega
  refine ⟨c2, poly2, hne, h0, hlt, hlen2, ?_, ?_, ?_, ?_⟩
  · rw [head?_eq_getD _ hcs2, hhead2]
  · apply forall_mem_of_getD
    intro i hi
    rcases Nat.eq_zero_or_pos i with h | h
    · subst h; rw [hhead2]; exact ⟨h0, hlt⟩
    · exact hrange2 i h (by omega)
  · rw [getLast?_eq_getD _ hcs2, hlen2]
    intro h
    exact hlast2 (Option.some.inj h)
  · intro x hx
    rw [← hkeys] at hx
    obtain ⟨xy, hxy, rfl⟩ := List.mem_map.mp hx
    exact ⟨xy.2, hval xy hxy, hcons2 xy hxy⟩

set_option maxRecDepth 100000 in
theorem other_secret_consistent_witness :
    ∃ (c2 : Int) (poly2 : polynomial), c2 ≠ 5 ∧ 0 ≤ c2 ∧ c2 < 2 ^ 127 - 1 ∧
      poly2.coefficients.length = 2 ∧ poly2.coefficients.head? = some c2 ∧
      (∀ a ∈ poly2.coefficients, 0 ≤ a ∧ a < 2 ^ 127 - 1) ∧
      poly2.coefficients.getLast? ≠ some 0 ∧
      ∀ x ∈ ([2] : List Int), ∃ y, evaluatePolynomial x (2 ^ 127 - 1) ⟨[5, 3]⟩ = .ok y ∧
        evaluatePolynomial x (2 ^ 127 - 1) poly2 = .ok y :=
  other_secret_consistent 2 (by decide) 5 (by norm_num) ⟨[5, 3]⟩
    ⟨[3], by intro d hd; rw [List.mem_singleton.mp hd]; norm_num, by decide⟩
    5 (by decide) [2] (by decide) (by decide)
    (by intro x hx; rw [List.mem_singleton.mp hx]; norm_num)

/-! ### C13 -/

/-- C13: for every string `s` and every chunk length `n ≥ 1`, `splitStringIntoChunks(s, n)`
returns exactly `ceil(len(s)/n)` chunks: `len(s)/n` when `n` divides `len(s)`, one more
otherwise.  Every chunk but the last has length `n`; the last one has length `n` when `n`
divides `len(s)`, and otherwise length `len(s) mod n`, which is between 1 and `n - 1`.
No chunk is empty. -/
theorem splitStringIntoChunks_counts (s : GoString) (n : Int) (hn : 1 ≤ n) :
    ∃ chunks, splitStringIntoChunks s n = .ok chunks ∧
      (chunks.length : Int) = ((s.length : Int) + n - 1) / n ∧
      ((s.length : Int) % n = 0 → (chunks.length : Int) = (s.length : Int) / n ∧
        ∀ c ∈ chunks, (c.length : Int) = n) ∧
      ((s.length : Int) % n ≠ 0 → (chunks.length : Int) = (s.length : Int) / n + 1 ∧
        ∃ last, chunks.getLast? = some last ∧ (last.length : Int) = (s.length : Int) % n ∧
          1 ≤ (s.length : Int) % n ∧ (s.length : Int) % n ≤ n - 1) ∧
      (∀ c ∈ chunks.dropLast, (c.length : Int) = n) ∧
      (∀ c ∈ chunks, c ≠ []) := by
  obtain ⟨k, rfl⟩ : ∃ k : Nat, n = (k : Int) := ⟨n.toNat, by omega⟩
  have hk : 1 ≤ k := by omega
  obtain ⟨full, hlen, hall, hres⟩ := splitStringIntoChunks_shape s k hk
  have hmodcast : (s.length : Int) % (k : Int) = ((s.length % k : Nat) : Int) := by
    push_cast; rfl
  have hdivcast : (s.length : Int) / (k : Int) = ((s.length / k : Nat) : Int) := by
    push_cast; rfl
  have hceil : ((s.length : Int) + (k : Int) - 1) / (k : Int)
      = (((s.length + k - 1) / k : Nat) : Int) := by
    have : ((s.length : Int) + (k : Int) - 1) = ((s.length + k - 1 : Nat) : Int) := by omega
    rw [this]
    push_cast; rfl
  have hmodlt := Nat.mod_lt s.length (by omega : 0 < k)
  have hrem := Nat.div_add_mod s.length k
  have hlenne : ∀ c ∈ full, c ≠ [] := by
    intro c hc h0
    have := hall c hc
    rw [h0] at this
    simp at this
    omega
  rw [hmodcast, hdivcast, hceil, ceil_div_eq s.length k hk]
  by_cases hmod : s.length % k = 0
  · rw [if_pos hmod] at hres
    refine ⟨full, hres, ?_, ?_, ?_, ?_, hlenne⟩
    · rw [if_pos hmod, hlen]; simp
    · intro _
      exact ⟨by rw [hlen], fun c hc => by rw [hall c hc]⟩
    · intro h
      exact absurd (by exact_mod_cast hmod) h
    · intro c hc
      rw [hall c (List.mem_of_mem_dropLast hc)]
  · rw [if_neg hmod] at hres
    have hlast : (s.drop (full.length * k)).length = s.length % k := by
      rw [List.length_drop, hlen]
      rw [Nat.mul_comm] at hrem
      omega
    refine ⟨full ++ [s.drop (full.length * k)], hres, ?_, ?_, ?_, ?_, ?_⟩
    · rw [if_neg hmod, List.length_append, List.length_singleton, hlen]
    · intro h
      exact absurd (by exact_mod_cast h) hmod
    · intro _
      refine ⟨by rw [List.length_append, List.length_singleton, hlen]; push_cast; rfl,
        s.drop (full.length * k), by simp, by rw [hlast], ?_, ?_⟩
      · have : 1 ≤ s.length % k := by omega
        exact_mod_cast this
      · have : s.length % k ≤ k - 1 := by omega
        omega
    · intro c hc
      rw [List.dropLast_concat] at hc
      rw [hall c hc]
    · intro c hc
      rcases List.mem_append.mp hc with h | h
      · exact hlenne c h
      · rw [List.mem_singleton.mp h]
        intro h0
        have := congrArg List.length h0
        rw [hlast] at this
        simp at this
        omega

theorem splitStringIntoChunks_counts_witness :
    ∃ chunks, splitStringIntoChunks (bytesOf "Hello, World!") 3 = .ok chunks ∧
      (chunks.length : Int) = (((bytesOf "Hello, World!").length : Int) + 3 - 1) / 3 ∧
      (((bytesOf "Hello, World!").length : Int) % 3 = 0 →
        (chunks.length : Int) = ((bytesOf "Hello, World!").length : Int) / 3 ∧
        ∀ c ∈ chunks, (c.length : Int) = 3) ∧
      (((bytesOf "Hello, World!").length : Int) % 3 ≠ 0 →
        (chunks.length : Int) = ((bytesOf "Hello, World!").length : Int) / 3 + 1 ∧
        ∃ last, chunks.getLast? = some last ∧
          (last.length : Int) = ((bytesOf "Hello, World!").length : Int) % 3 ∧
          1 ≤ ((bytesOf "Hello, World!").length : Int) % 3 ∧
          ((bytesOf "Hello, World!").length : Int) % 3 ≤ 3 - 1) ∧
      (∀ c ∈ chunks.dropLast, (c.length : Int) = 3) ∧
      (∀ c ∈ chunks, c ≠ []) :=
  splitStringIntoChunks_counts (bytesOf "Hello, World!") 3 (by decide)

/-! ### C14 -/

/-- C14: let the random source be a sequence `src` of draws, each in `[0, modulus)`, with
a non-zero draw at some position `N` that the retry loop reaches (`N ≥ t - 2`).  For every
threshold `t ≥ 2` and constant `c`, `generateRandomPolynomial(c, modulus, t-1)` returns
(on every prefix of `src` longer than `N`, the same result) a coefficient list of length
exactly `t` whose element 0 is `c`, whose other elements lie in `[0, modulus)` and whose
last element is non-zero. -/
theorem generateRandomPolynomial_invariant (t : Nat) (ht : 2 ≤ t) (c modulus : Int)
    (src : Nat → Int) (hsrc : ∀ i, 0 ≤ src i ∧ src i < modulus)
    (N : Nat) (hN : t - 2 ≤ N) (hnz : src N ≠ 0) :
    ∃ poly : polynomial,
      (∀ M, N < M →
        generateRandomPolynomial c modulus ((t : Int) - 1) ((List.range M).map src) = .ok poly) ∧
      poly.coefficients.length = t ∧ poly.coefficients.head? = some c ∧
      (∀ a ∈ poly.coefficients.tail, 0 ≤ a ∧ a < modulus) ∧
      ∃ last, poly.coefficients.getLast? = some last ∧ last ≠ 0 := by
  have hm : 0 < modulus := lt_of_le_of_lt (hsrc 0).1 (hsrc 0).2
  have hmid : ((t : Int) - 1 - 1).toNat = t - 2 := by omega
  have hexists : ∃ poly, generateRandomPolynomial c modulus ((t : Int) - 1)
      ((List.range (N + 1)).map src) = .ok poly := by
    unfold generateRandomPolynomial
    rw [if_neg (by omega)]
    simp only [hmid]
    rw [if_neg (by simp only [List.length_map, List.length_range]; omega)]
    have hmemd : N ∈ (List.range (N + 1)).drop (t - 2) := by
      rw [List.mem_iff_getElem]
      refine ⟨N - (t - 2), by rw [List.length_drop, List.length_range]; omega, ?_⟩
      rw [List.getElem_drop]
      simp only [List.getElem_range]
      omega
    obtain ⟨num, hnum⟩ := finalTerm_ok (((List.range (N + 1)).map src).drop (t - 2))
      ⟨src N, by rw [← List.map_drop]; exact List.mem_map_of_mem src hmemd, hnz⟩
    rw [hnum]
    exact ⟨_, rfl⟩
  obtain ⟨poly, hpoly⟩ := hexists
  obtain ⟨_, middle, num, hcoef, hmidlen, hmem, hnum, hne⟩ :=
    generateRandomPolynomial_spec _ _ _ _ _ hpoly
  have hin : ∀ d ∈ (List.range (N + 1)).map src, 0 ≤ d ∧ d < modulus := by
    intro d hd
    obtain ⟨i, _, rfl⟩ := List.mem_map.mp hd
    exact hsrc i
  replace hcoef : poly.coefficients = c :: (middle ++ [num]) := by
    rw [hcoef]; rfl
  refine ⟨poly, ?_, ?_, ?_, ?_, ?_⟩
  · intro M hM
    obtain ⟨j, rfl⟩ : ∃ j, M = (N + 1) + j := ⟨M - (N + 1), by omega⟩
    rw [List.range_add, List.map_append]
    exact generateRandomPolynomial_append _ _ _ _ _ _ hpoly
  · rw [hcoef, List.length_cons, List.length_append, List.length_singleton, hmidlen]
    omega
  · rw [hcoef]; rfl
  · rw [hcoef, List.tail_cons]
    intro a ha
    rcases List.mem_append.mp ha with h | h
    · exact hin a (hmem a h)
    · rw [List.mem_singleton.mp h]
      exact hin num hnum
  · refine ⟨num, ?_, hne⟩
    rw [hcoef, ← List.cons_append, List.getLast?_append]
    rfl

set_option maxRecDepth 100000 in
theorem generateRandomPolynomial_invariant_witness :
    ∃ poly : polynomial,
      (∀ M, 3 < M →
        generateRandomPolynomial 5 7 (((3 : Nat) : Int) - 1)
          ((List.range M).map (fun i => if i = 0 then (4 : Int) else if i = 3 then 6 else 0))
          = .ok poly) ∧
      poly.coefficients.length = 3 ∧ poly.coefficients.head? = some 5 ∧
      (∀ a ∈ poly.coefficients.tail, 0 ≤ a ∧ a < 7) ∧
      ∃ last, poly.coefficients.getLast? = some last ∧ last ≠ 0 :=
  generateRandomPolynomial_invariant 3 (by decide) 5 7
    (fun i => if i = 0 then (4 : Int) else if i = 3 then 6 else 0)
    (by intro i; simp only; split_ifs <;> decide) 3 (by decide) (by decide)

/-! ### C15 -/

/-- C15: for every non-empty coefficient list `c_0..c_d` of integers, every integer `x` and
every modulus `m > 0`, `evaluatePolynomial(x, m, poly)` returns
`(c_0 + c_1*x + ... + c_d*x^d) mod m`, which lies in `[0, m)`; hence every share value
that `shamirSplitSecret` produces lies in `[0, m)`. -/
theorem evaluatePolynomial_horner (coefficients : List Int) (hne : coefficients ≠ [])
    (x m : Int) (hm : 0 < m) :
    evaluatePolynomial x m ⟨coefficients⟩
      = .ok (((List.range coefficients.length).map
          (fun i => coefficients.getD i 0 * x ^ i)).sum % m) ∧
    0 ≤ ((List.range coefficients.length).map
          (fun i => coefficients.getD i 0 * x ^ i)).sum % m ∧
    ((List.range coefficients.length).map
          (fun i => coefficients.getD i 0 * x ^ i)).sum % m < m ∧
    (∀ (secret n t : Int) (shares : List Int),
      _shamirSplitSecretWithFixedPolynomial secret m ⟨coefficients⟩ n t = .ok shares →
      ∀ y ∈ shares, 0 ≤ y ∧ y < m) ∧
    (∀ (secret n t : Int) (draws shares : List Int),
      shamirSplitSecret secret m n t draws = .ok shares → ∀ y ∈ shares, 0 ≤ y ∧ y < m) := by
  refine ⟨?_, Int.emod_nonneg _ (by omega), Int.emod_lt_of_pos _ hm, ?_, ?_⟩
  · rw [evaluatePolynomial_eq x m coefficients hne (by omega), horner_eq_sum]
  · intro secret n t shares h
    unfold _shamirSplitSecretWithFixedPolynomial at h
    by_cases hneg : n < 0
    · rw [if_pos hneg] at h; cases h
    · rw [if_neg hneg] at h
      exact shares_in_range m hm _ _ shares h
  · intro secret n t draws shares h
    unfold shamirSplitSecret at h
    cases hg : generateRandomPolynomial secret m (t - 1) draws with
    | error e => rw [hg] at h; cases h
    | ok poly =>
      rw [hg] at h
      simp only at h
      unfold _shamirSplitSecretWithFixedPolynomial at h
      by_cases hneg : n < 0
      · rw [if_pos hneg] at h; cases h
      · rw [if_neg hneg] at h
        exact shares_in_range m hm _ _ shares h

theorem evaluatePolynomial_horner_witness :
    evaluatePolynomial 2 11 ⟨[5, 0, 7]⟩
      = .ok (((List.range ([5, 0, 7] : List Int).length).map
          (fun i => ([5, 0, 7] : List Int).getD i 0 * 2 ^ i)).sum % 11) ∧
    evaluatePolynomial 2 11 ⟨[5, 0, 7]⟩ = .ok 0 :=
  ⟨(evaluatePolynomial_horner [5, 0, 7] (by decide) 2 11 (by decide)).1, by decide⟩

/-! ### C16 -/

set_option maxRecDepth 100000 in
/-- C16: for every non-empty list `a` of share vectors that all have the same length `n`,
`pairwiseJoinSlices(a)` returns exactly `n` strings, and for each `j < n` the `j`-th string
is the decimal texts of `a[0][j], a[1][j], ..., a[k-1][j]` (texts that read back as those
numbers) joined by `+`, with no separator before the first or after the last;
`[[23, 345], [100, 99], [19, 50]]` gives `["23+100+19", "345+99+50"]`. -/
theorem pairwiseJoinSlices_transpose (a : List (List Int)) (n : Nat) (hne : a ≠ [])
    (hlen : ∀ row ∈ a, row.length = n) :
    ∃ res, pairwiseJoinSlices a = .ok res ∧ res.length = n ∧
      (∀ j, j < n → res.get? j
        = some (joinWithSeparator 43 (a.map (fun row => bigIntString (row.getD j 0))))) ∧
      (∀ v : Int, setString (bigIntString v) = some v) ∧
      pairwiseJoinSlices [[23, 345], [100, 99], [19, 50]]
        = .ok [bytesOf "23+100+19", bytesOf "345+99+50"] := by
  cases ha : a with
  | nil => exact absurd ha hne
  | cons first rest =>
    rw [← ha]
    have hfirst : first.length = n := hlen first (by rw [ha]; exact List.mem_cons_self _ _)
    have hany : a.any (fun element => decide (element.length ≠ first.length)) = false := by
      rw [List.any_eq_false]
      intro row hrow
      simp only [decide_eq_true_eq, not_not]
      rw [hlen row hrow, hfirst]
    have hcols := joinColumns_spec a hne n 0
      (fun row hrow => by rw [hlen row hrow]; omega)
    refine ⟨(List.range n).map (fun i =>
      joinWithSeparator 43 (a.map (fun row => bigIntString (row.getD (0 + i) 0)))),
      ?_, by simp, ?_, setString_bigIntString, by decide⟩
    · conv_lhs => rw [ha]
      unfold pairwiseJoinSlices
      simp only
      rw [← ha, hany, hfirst]
      simp only [Bool.false_eq_true, if_false]
      exact hcols
    · intro j hj
      rw [List.get?_eq_getElem?, List.getElem?_map, List.getElem?_range hj]
      simp only [Option.map_some', Nat.zero_add]

theorem pairwiseJoinSlices_transpose_witness :
    ∃ res, pairwiseJoinSlices [[1, 2, 3], [-4, 5, 60]] = .ok res ∧ res.length = 3 ∧
      (∀ j, j < 3 → res.get? j
        = some (joinWithSeparator 43
            (([[1, 2, 3], [-4, 5, 60]] : List (List Int)).map
              (fun row => bigIntString (row.getD j 0))))) ∧
      (∀ v : Int, setString (bigIntString v) = some v) ∧
      pairwiseJoinSlices [[23, 345], [100, 99], [19, 50]]
        = .ok [bytesOf "23+100+19", bytesOf "345+99+50"] :=
  pairwiseJoinSlices_transpose [[1, 2, 3], [-4, 5, 60]] 3 (by decide)
    (by
      intro row hrow
      simp only [List.mem_cons, List.mem_singleton, List.not_mem_nil, or_false] at hrow
      rcases hrow with rfl | rfl <;> rfl)

/-! ### C17 -/

/-- C17: for every point map whose keys are machine integers (64 bit) and the modulus
`p = 2^127 - 1`, the difference `m - x` of two distinct keys is not congruent to 0 modulo
`p`, `ModInverse` finds its inverse, and the value it returns is in `[0, p)` and is the
inverse: `(m - x) * ModInverse(m - x, p) mod p = 1`. -/
theorem modInverse_succeeds (points : List (Int × Int))
    (hkeys : ∀ xy ∈ points, minInt ≤ xy.1 ∧ xy.1 ≤ maxInt)
    (m x : Int) (hm : m ∈ points.map Prod.fst) (hx : x ∈ points.map Prod.fst) (hne : m ≠ x) :
    (m - x) % (2 ^ 127 - 1) ≠ 0 ∧ modInverseExists (m - x) (2 ^ 127 - 1) = true ∧
      0 ≤ modInverse (m - x) (2 ^ 127 - 1) ∧ modInverse (m - x) (2 ^ 127 - 1) < 2 ^ 127 - 1 ∧
      ((m - x) * modInverse (m - x) (2 ^ 127 - 1)) % (2 ^ 127 - 1) = 1 := by
  haveI : Fact (Nat.Prime (2 ^ 127 - 1)) := ⟨prime_modulus⟩
  have hp : Nat.Prime (2 ^ 127 - 1) := prime_modulus
  obtain ⟨xym, hxym, rfl⟩ := List.mem_map.mp hm
  obtain ⟨xyx, hxyx, rfl⟩ := List.mem_map.mp hx
  have hbm := hkeys xym hxym
  have hbx := hkeys xyx hxyx
  have hcastne : (((xym.1 - xyx.1 : Int)) : ZMod (2 ^ 127 - 1)) ≠ 0 := by
    intro h
    apply hne
    apply int_eq_of_cast_eq _ _ hbm hbx
    have := sub_eq_zero.mp (by push_cast at h; exact h)
    exact this
  have hmod : (xym.1 - xyx.1) % ((2 ^ 127 - 1 : Nat) : Int) ≠ 0 := by
    intro h
    apply hcastne
    exact (ZMod.intCast_zmod_eq_zero_iff_dvd _ _).mpr (Int.dvd_of_emod_eq_zero h)
  have hq0 : (((2 ^ 127 - 1 : Nat)) : Int) ≠ 0 := by norm_num
  have hqpos : (0 : Int) < ((2 ^ 127 - 1 : Nat) : Int) := by norm_num
  have hexists : modInverseExists (xym.1 - xyx.1) ((2 ^ 127 - 1 : Nat) : Int) = true := by
    unfold modInverseExists
    simp only [Int.natAbs_ofNat, decide_eq_true_eq]
    apply Nat.Coprime.symm
    apply (Nat.Prime.coprime_iff_not_dvd hp).mpr
    intro hdvd
    apply hcastne
    have h1 : ((((if xym.1 - xyx.1 < 0 then (xym.1 - xyx.1) % ((2 ^ 127 - 1 : Nat) : Int)
        else xym.1 - xyx.1).natAbs : Nat) : Int) : ZMod (2 ^ 127 - 1)) = 0 := by
      rw [Int.cast_natCast]
      exact (ZMod.natCast_zmod_eq_zero_iff_dvd _ _).mpr hdvd
    have hnn : 0 ≤ (if xym.1 - xyx.1 < 0 then (xym.1 - xyx.1) % ((2 ^ 127 - 1 : Nat) : Int)
        else xym.1 - xyx.1) := by
      split_ifs with hneg
      · exact Int.emod_nonneg _ hq0
      · omega
    rw [Int.natAbs_of_nonneg hnn] at h1
    split_ifs at h1 with hneg
    · rw [ZMod.intCast_mod] at h1
      exact h1
    · exact h1
  have hinv := modInverse_of_exists _ _ hexists
  simp only [Int.natAbs_ofNat] at hinv
  rw [modulus_cast]
  refine ⟨hmod, hexists, ?_, ?_, ?_⟩
  · rw [hinv]; exact Int.emod_nonneg _ hq0
  · rw [hinv]; exact Int.emod_lt_of_pos _ hqpos
  · apply emod_eq_of_cast_eq (2 ^ 127 - 1) _ 1 ⟨by norm_num, by norm_num⟩
    rw [Int.cast_mul, modInverse_cast, Int.cast_one]
    exact mul_inv_cancel₀ hcastne

theorem modInverse_succeeds_witness :
    ((2 : Int) - 4) % (2 ^ 127 - 1) ≠ 0 ∧ modInverseExists (2 - 4) (2 ^ 127 - 1) = true ∧
      0 ≤ modInverse (2 - 4) (2 ^ 127 - 1) ∧ modInverse (2 - 4) (2 ^ 127 - 1) < 2 ^ 127 - 1 ∧
      ((2 - 4) * modInverse (2 - 4) (2 ^ 127 - 1)) % (2 ^ 127 - 1) = 1 :=
  modInverse_succeeds [(2, 39), (4, 129)]
    (by
      intro xy hxy
      simp only [List.mem_cons, List.mem_singleton, List.not_mem_nil, or_false] at hxy
      rcases hxy with rfl | rfl <;> decide)
    2 4 (by decide) (by decide) (by decide)

/-! ### C18 -/

/-- C18: for every non-negative integer `i`, decoding the standard base64 encoding of the
big-endian bytes of `i` succeeds and gives those bytes back, so `bigIntToString(i)` returns
(never the "Decoding failed." panic) the byte sequence of `i.Bytes()`; that sequence is the
minimal big-endian unsigned representation of `i`: it reads back as `i`, it has no leading
zero byte, and it is the only such sequence.  It is empty for `i = 0`. -/
theorem bigIntToString_eq_bytes (i : Int) (hi : 0 ≤ i) :
    base64Decode (base64Encode (bigIntBytes i)) = some (bigIntBytes i) ∧
    bigIntToString i = .ok (bigIntBytes i) ∧
    setBytes (bigIntBytes i) = i ∧ (bigIntBytes i).head? ≠ some 0 ∧
    (∀ l : List Byte, setBytes l = i → l.head? ≠ some 0 → l = bigIntBytes i) ∧
    bigIntToString 0 = .ok [] := by
  obtain ⟨v, rfl⟩ : ∃ v : Nat, i = (v : Int) := ⟨i.toNat, by omega⟩
  have hb : bigIntBytes (v : Int) = natBytes v := by
    unfold bigIntBytes
    rw [Int.natAbs_ofNat]
  refine ⟨base64Decode_encode _, ?_, ?_, ?_, ?_, ?_⟩
  · unfold bigIntToString
    simp only
    rw [base64Decode_encode]
  · rw [hb]
    unfold setBytes
    rw [setBytes_natBytes]
  · rw [hb]
    exact natBytes_head v
  · intro l hl hhead
    rw [hb]
    unfold setBytes at hl
    have hv : l.foldl (fun acc x => acc * 256 + x.val) 0 = v := by exact_mod_cast hl
    have h := natBytes_setBytes l
    rw [hv] at h
    rw [h]
    cases l with
    | nil => rfl
    | cons a rest =>
      have ha : a ≠ 0 := by
        intro h0
        apply hhead
        rw [h0]
        rfl
      simp [List.dropWhile, ha]
  · decide

theorem bigIntToString_eq_bytes_witness :
    base64Decode (base64Encode (bigIntBytes 26729)) = some (bigIntBytes 26729) ∧
    bigIntToString 26729 = .ok (bigIntBytes 26729) ∧
    setBytes (bigIntBytes 26729) = 26729 ∧ (bigIntBytes 26729).head? ≠ some 0 ∧
    (∀ l : List Byte, setBytes l = 26729 → l.head? ≠ some 0 → l = bigIntBytes 26729) ∧
    bigIntToString 0 = .ok [] :=
  bigIntToString_eq_bytes 26729 (by decide)

/-! ### C19 -/

/-- C19: let the point map be a list `points` of pairs (distinct keys are not even
needed).  For every modulus, whatever order `outer` the outer loop of `lagrange` visits
the points in, and whatever order `inner x` the inner loop visits the keys in during the
iteration for `x` (each a permutation), the outcome is that of `lagrange points modulus`.
For every modulus other than 0 that outcome is a returned value, which lies in
`[0, |modulus|)`, so in `[0, modulus)` for `modulus > 0`, also when the `y` values are not
reduced; for the modulus 0, which the program never passes, every order ends in the same
division-by-zero panic. -/
theorem lagrange_order_independent (points outer : List (Int × Int)) (inner : Int → List Int)
    (modulus : Int) (houter : outer.Perm points)
    (hinner : ∀ x, (inner x).Perm (points.map Prod.fst)) :
    lagrangeOrd outer inner modulus = lagrange points modulus ∧
    lagrange points modulus = lagrangeOrd points (fun _ => points.map Prod.fst) modulus ∧
    (modulus ≠ 0 → ∃ v, lagrange points modulus = .ok v ∧ 0 ≤ v ∧ v < |modulus|) ∧
    (0 < modulus → ∃ v, lagrange points modulus = .ok v ∧ 0 ≤ v ∧ v < modulus) ∧
    (modulus = 0 → lagrange points modulus = .error "division by zero") := by
  refine ⟨?_, rfl, ?_, ?_, ?_⟩
  · unfold lagrangeOrd lagrange
    by_cases hm : modulus = 0
    · rw [if_pos hm, if_pos hm]
    · rw [if_neg hm, if_neg hm, foldl_add_eq_sum outer
        (fun xy => xy.2 * lagrangeProd (inner xy.1) xy.1 modulus) 0,
        foldl_add_eq_sum points
        (fun xy => xy.2 * lagrangeProd (points.map Prod.fst) xy.1 modulus) 0]
      have h1 : outer.map (fun xy => xy.2 * lagrangeProd (inner xy.1) xy.1 modulus)
          = outer.map (fun xy => xy.2 * lagrangeProd (points.map Prod.fst) xy.1 modulus) := by
        apply List.map_congr_left
        intro xy _
        rw [lagrangeProd_perm _ _ (hinner xy.1)]
      rw [h1, (houter.map _).sum_eq]
  · intro hm
    unfold lagrange
    rw [if_neg hm]
    exact ⟨_, rfl, Int.emod_nonneg _ hm, Int.emod_lt _ hm⟩
  · intro hm
    unfold lagrange
    rw [if_neg (by omega)]
    exact ⟨_, rfl, Int.emod_nonneg _ (by omega), Int.emod_lt_of_pos _ hm⟩
  · intro hm
    unfold lagrange
    rw [if_pos hm]

theorem lagrange_order_independent_witness :
    lagrangeOrd [(4, 129), (1, 15), (2, 39)]
        (fun x => if x = 1 then [2, 4, 1] else [4, 1, 2]) 6
      = lagrange [(1, 15), (2, 39), (4, 129)] 6 ∧
    ∃ v, lagrange [(1, 15), (2, 39), (4, 129)] 6 = .ok v ∧ 0 ≤ v ∧ v < 6 :=
  ⟨(lagrange_order_independent [(1, 15), (2, 39), (4, 129)] [(4, 129), (1, 15), (2, 39)]
      (fun x => if x = 1 then [2, 4, 1] else [4, 1, 2]) 6 (by decide)
      (by intro x; simp only; split_ifs <;> decide)).1,
    (lagrange_order_independent [(1, 15), (2, 39), (4, 129)] [(4, 129), (1, 15), (2, 39)]
      (fun x => if x = 1 then [2, 4, 1] else [4, 1, 2]) 6 (by decide)
      (by intro x; simp only; split_ifs <;> decide)).2.2.2.1 (by decide)⟩

/-! ### C20 -/

/-- C20: with the modulus 2^127 - 1, for every `t ≥ 2`, every coefficient list of length
`t` with coefficients in `[0, p)` and non-zero last coefficient, and every `t - 1` distinct
share indices in `1..n`, the `t - 1` points `(x, evaluatePolynomial(x, p, poly))` exist and
`lagrange` applied to them returns a value different from `coefficients[0]`. -/
theorem lagrange_threshold_minus_one (t : Nat) (ht : 2 ≤ t) (coefficients : List Int)
    (hlen : coefficients.length = t)
    (hrange : ∀ c ∈ coefficients, 0 ≤ c ∧ c < 2 ^ 127 - 1)
    (hlast : coefficients.getLast? ≠ some 0)
    (n : Int) (hn : n ≤ maxInt) (xs : List Int) (hcard : xs.length + 1 = t)
    (hdistinct : xs.Nodup) (hidx : ∀ x ∈ xs, 1 ≤ x ∧ x ≤ n) :
    ∃ c0, coefficients.head? = some c0 ∧
      (∃ points : List (Int × Int), points.map Prod.fst = xs ∧
        ∀ xy ∈ points, evaluatePolynomial xy.1 (2 ^ 127 - 1) ⟨coefficients⟩ = .ok xy.2) ∧
      ∀ points : List (Int × Int), points.map Prod.fst = xs →
        (∀ xy ∈ points, evaluatePolynomial xy.1 (2 ^ 127 - 1) ⟨coefficients⟩ = .ok xy.2) →
        ∃ L, lagrange points (2 ^ 127 - 1) = .ok L ∧ L ≠ c0 := by
  have hcs : coefficients ≠ [] := by
    intro h; rw [h] at hlen; simp at hlen; omega
  refine ⟨coefficients.getD 0 0, head?_eq_getD coefficients hcs, ?_, ?_⟩
  · obtain ⟨points, hkeys, hval, _⟩ :=
      exists_points_on_poly (2 ^ 127 - 1) (by norm_num) coefficients hcs xs
    exact ⟨points, hkeys, hval⟩
  · intro points hkeys hval
    obtain ⟨L, hL, _, _, hne, _⟩ := lagrange_ne_constant t ht n hn (coefficients.getD 0 0)
      (hrange _ (getD_mem coefficients 0 (by omega))) ⟨coefficients⟩
      (drawable_of_coefficients (2 ^ 127 - 1) t ht coefficients hlen hrange hlast) points
      (by rw [← List.length_map points Prod.fst, hkeys]; exact hcard)
      (by rw [hkeys]; exact hdistinct)
      (fun xy hxy => hidx xy.1 (by rw [← hkeys]; exact List.mem_map_of_mem _ hxy))
      hval
    exact ⟨L, hL, hne⟩

theorem lagrange_threshold_minus_one_witness :
    ∃ c0, ([5, 3, 7] : List Int).head? = some c0 ∧
      (∃ points : List (Int × Int), points.map Prod.fst = [4, 1] ∧
        ∀ xy ∈ points, evaluatePolynomial xy.1 (2 ^ 127 - 1) ⟨[5, 3, 7]⟩ = .ok xy.2) ∧
      ∀ points : List (Int × Int), points.map Prod.fst = [4, 1] →
        (∀ xy ∈ points, evaluatePolynomial xy.1 (2 ^ 127 - 1) ⟨[5, 3, 7]⟩ = .ok xy.2) →
        ∃ L, lagrange points (2 ^ 127 - 1) = .ok L ∧ L ≠ c0 :=
  lagrange_threshold_minus_one 3 (by decide) [5, 3, 7] rfl
    (by
      intro c hc
      simp only [List.mem_cons, List.mem_singleton, List.not_mem_nil, or_false] at hc
      rcases hc with rfl | rfl | rfl <;> norm_num)
    (by decide) 5 (by decide) [4, 1] rfl (by decide)
    (by
      intro x hx
      simp only [List.mem_cons, List.mem_singleton, List.not_mem_nil, or_false] at hx
      rcases hx with rfl | rfl <;> norm_num)

end Shamir
